import Mathlib

/-!
# Strassen matrix multiplication over sub-matrix views

A shallow embedding of `strassen.c` (and of the allocation routines of
`matrix.c` it calls), and the properties of it that the specification states.

* A `float **` is a pointer: a natural number naming a block of the heap.
* The heap records, for every block, its contents and, when the block is live,
  its number of rows and columns.  Reading or writing outside a live block is
  undefined behaviour in C; here it yields `none`.
* Matrix entries are taken in an arbitrary ring `R` in place of `float`.
* `size_t` values are natural numbers: every index that addresses a cell of a
  live block is far below `2 ^ 64`.
* `allocate_matrix` returns a block that has never been handed out; what the
  block holds is whatever the heap holds at that address, which is arbitrary.
* The heap counts the calls of `allocate_matrix` and of `deallocate_matrix`.

The development: the loops (`forLoop`, `cellLoop`), the element-wise
operations and the naive multiplier, one level of the recursion in three
stages (the ten sums, the seven products, the eight combinations), the
recursion itself (`strassen_aux_spec`), and the properties of the
specification.
-/

namespace Strassen

/-! ## Data model -/

/-- The type `sub_matrix_type`: a square sub-matrix of a backing matrix. -/
structure sub_matrix_type where
  /-- first row of the sub-matrix -/
  f_row : Nat
  /-- first column of the sub-matrix -/
  f_col : Nat
  /-- pointer to the real matrix -/
  matrix : Nat
  /-- number of rows and columns of the sub-matrix -/
  n : Nat
  deriving DecidableEq, Repr, Inhabited

/-- The memory the program runs on. `cells p i j` is what is stored at
`p[i][j]`; `dims p` is `some (rows, cols)` while block `p` is live; `next` is
the first pointer that was never handed out; `allocs` and `frees` count the
calls of `allocate_matrix` and `deallocate_matrix`. -/
structure Heap (R : Type) where
  cells : Nat → Nat → Nat → R
  dims : Nat → Option (Nat × Nat)
  next : Nat
  allocs : Nat
  frees : Nat
  fresh : ∀ p, next ≤ p → dims p = none

variable {R : Type}

/-- The access `p[i][j]` as an rvalue. -/
def Heap.read (h : Heap R) (p i j : Nat) : Option R :=
  match h.dims p with
  | some (r, c) => if i < r ∧ j < c then some (h.cells p i j) else none
  | none => none

/-- The assignment `p[i][j] = v`. -/
def Heap.write (h : Heap R) (p i j : Nat) (v : R) : Option (Heap R) :=
  match h.dims p with
  | some (r, c) =>
    if i < r ∧ j < c then
      some { h with cells := fun p' i' j' => if p' = p ∧ i' = i ∧ j' = j then v else h.cells p' i' j' }
    else none
  | none => none

/-- The loop `for (size_t k = 0; k < n; k++) body`, threading the state. -/
def forLoop {σ : Type} : Nat → (Nat → σ → Option σ) → σ → Option σ
  | 0, _, s => some s
  | k + 1, body, s => (forLoop k body s).bind (body k)

/-- Sequencing of two steps: the second runs on the state the first leaves, and
nothing runs after a step that failed. -/
@[noinline] def andThen {α β : Type} (o : Option α) (f : α → Option β) : Option β :=
  o.bind f

/-! ## `matrix.c`: allocation -/

/-- The function `allocate_matrix`: a block of `rows × cols` cells that was never handed
out before; its contents are not initialised. -/
def allocate_matrix (rows cols : Nat) (h : Heap R) : Nat × Heap R :=
  (h.next,
    { h with
      dims := Function.update h.dims h.next (some (rows, cols))
      next := h.next + 1
      allocs := h.allocs + 1
      fresh := by
        intro p hp
        rw [Function.update_noteq (by omega)]
        exact h.fresh p (by omega) })

/-- The function `deallocate_matrix`: frees the `rows` rows of `A` and then `A` itself.
`A` must be live and `rows` must be the row count it was allocated with: a
larger count reads past the row table, a smaller one leaks rows. -/
def deallocate_matrix (A rows : Nat) (h : Heap R) : Option (Heap R) :=
  match h.dims A with
  | some (r, _) =>
    if rows = r then
      some { h with
        dims := Function.update h.dims A none
        frees := h.frees + 1
        fresh := by
          intro p hp
          by_cases hpA : p = A
          · rw [hpA, Function.update_same]
          · rw [Function.update_noteq hpA]
            exact h.fresh p hp }
    else none
  | none => none

/-- The function `naive_matrix_multiplication` of `matrix.c`: its body is the
comment `IMPLEMENT THE NAIVE ALGORITHM HERE`, so the call executes nothing. -/
def naive_matrix_multiplication (_C _A _B : Nat) (_n : Nat) (h : Heap R) :
    Option (Heap R) :=
  some h

/-- The inner loop of `same_matrix` on row `i`, at column `j` with `k` columns
still to visit: `some false` when it executes `return 0`, `some true` when it
runs to its end. -/
def same_matrix_row [DecidableEq R] (h : Heap R) (A B i : Nat) : Nat → Nat → Option Bool
  | 0, _ => some true
  | k + 1, j => do
    let a ← h.read A i j
    let b ← h.read B i j
    if a ≠ b then some false else same_matrix_row h A B i k (j + 1)

/-- The outer loop of `same_matrix`, at row `i` with `k` rows still to visit,
followed by the final `return 1`. -/
def same_matrix_rows [DecidableEq R] (h : Heap R) (A B cols : Nat) : Nat → Nat → Option Int
  | 0, _ => some 1
  | k + 1, i => do
    let r ← same_matrix_row h A B i cols 0
    if r then same_matrix_rows h A B cols k (i + 1) else some 0

/-- The function `same_matrix` of `matrix.c`; it only reads the memory. -/
def same_matrix [DecidableEq R] (A B rows cols : Nat) (h : Heap R) : Option Int :=
  same_matrix_rows h A B cols rows 0

/-! ## `strassen.c` -/

section Code

variable [Ring R]

/-- The function `sub_matrix_subtract`: element-wise `C = A - B`. -/
def sub_matrix_subtract (C A B : sub_matrix_type) (h : Heap R) : Option (Heap R) :=
  forLoop C.n (fun y h =>
    forLoop C.n (fun x h => do
      let a ← h.read A.matrix (y + A.f_row) (x + A.f_col)
      let b ← h.read B.matrix (y + B.f_row) (x + B.f_col)
      h.write C.matrix (y + C.f_row) (x + C.f_col) (a - b)) h) h

/-- The function `sub_matrix_sum`: element-wise `C = A + B`. -/
def sub_matrix_sum (C A B : sub_matrix_type) (h : Heap R) : Option (Heap R) :=
  forLoop C.n (fun y h =>
    forLoop C.n (fun x h => do
      let a ← h.read A.matrix (y + A.f_row) (x + A.f_col)
      let b ← h.read B.matrix (y + B.f_row) (x + B.f_col)
      h.write C.matrix (y + C.f_row) (x + C.f_col) (a + b)) h) h

/-- The function `get_block`: one of the four blocks of the sub-matrix `A`. -/
def get_block (A : sub_matrix_type) (i j : Nat) : sub_matrix_type :=
  { n := A.n / 2
    f_row := A.f_row + i * (A.n / 2)
    f_col := A.f_col + j * (A.n / 2)
    matrix := A.matrix }

/-- The function `embed_matrix`: the whole matrix `A` as a sub-matrix of the same size. -/
def embed_matrix (A : Nat) (n : Nat) : sub_matrix_type :=
  { f_row := 0, f_col := 0, matrix := A, n := n }

/-- The function `build_sub_matrix`: a new matrix embedded in a sub-matrix of the same
size. -/
def build_sub_matrix (n : Nat) (h : Heap R) : sub_matrix_type × Heap R :=
  let r := allocate_matrix n n h
  (embed_matrix r.1 n, r.2)

/-- The function `naive_aux`: the naive multiplication between sub-matrices. -/
def naive_aux (C A B : sub_matrix_type) (h : Heap R) : Option (Heap R) :=
  forLoop A.n (fun y h =>
    forLoop A.n (fun x h => do
      let value ← forLoop A.n (fun z value => do
        let a ← h.read A.matrix (y + A.f_row) (z + A.f_col)
        let b ← h.read B.matrix (z + B.f_row) (x + B.f_col)
        pure (value + a * b)) 0
      h.write C.matrix (y + C.f_row) (x + C.f_col) value) h) h

/-- The loop `for (size_t i = 0; i < k; i++) X[i] = build_sub_matrix(n);` on
an array `X` of sub-matrices. -/
def build_sub_matrices : Nat → Nat → (Nat → sub_matrix_type) × Heap R →
    (Nat → sub_matrix_type) × Heap R
  | 0, _, s => s
  | k + 1, n, s =>
    let s1 := build_sub_matrices k n s
    let r := build_sub_matrix n s1.2
    (Function.update s1.1 k r.1, r.2)

/-- The function `strassen_aux`: the Strassen algorithm between sub-matrices; the result
is placed in the sub-matrix `C`. -/
def strassen_aux (C A B : sub_matrix_type) (h : Heap R) : Option (Heap R) :=
  if hn : A.n ≤ 1 <<< 5 then
    naive_aux C A B h
  else
    let rS := build_sub_matrices 10 (A.n / 2) (fun _ => default, h)
    let S := rS.1
    let rP := build_sub_matrices 7 (A.n / 2) (fun _ => default, rS.2)
    let P := rP.1
    let h := rP.2
    let A11 := get_block A 0 0
    let A12 := get_block A 0 1
    let A21 := get_block A 1 0
    let A22 := get_block A 1 1
    let B11 := get_block B 0 0
    let B12 := get_block B 0 1
    let B21 := get_block B 1 0
    let B22 := get_block B 1 1
    andThen (sub_matrix_subtract (S 0) B12 B22 h) fun h =>
    andThen (sub_matrix_sum (S 1) A11 A12 h) fun h =>
    andThen (sub_matrix_sum (S 2) A21 A22 h) fun h =>
    andThen (sub_matrix_subtract (S 3) B21 B11 h) fun h =>
    andThen (sub_matrix_sum (S 4) A11 A22 h) fun h =>
    andThen (sub_matrix_sum (S 5) B11 B22 h) fun h =>
    andThen (sub_matrix_subtract (S 6) A12 A22 h) fun h =>
    andThen (sub_matrix_sum (S 7) B21 B22 h) fun h =>
    andThen (sub_matrix_subtract (S 8) A11 A21 h) fun h =>
    andThen (sub_matrix_sum (S 9) B11 B12 h) fun h =>
    andThen (strassen_aux (P 0) A11 (S 0) h) fun h =>
    andThen (strassen_aux (P 1) (S 1) B22 h) fun h =>
    andThen (strassen_aux (P 2) (S 2) B11 h) fun h =>
    andThen (strassen_aux (P 3) A22 (S 3) h) fun h =>
    andThen (strassen_aux (P 4) (S 4) (S 5) h) fun h =>
    andThen (strassen_aux (P 5) (S 6) (S 7) h) fun h =>
    andThen (strassen_aux (P 6) (S 8) (S 9) h) fun h =>
    let C11 := get_block C 0 0
    let C12 := get_block C 0 1
    let C21 := get_block C 1 0
    let C22 := get_block C 1 1
    andThen (sub_matrix_sum C11 (P 4) (P 3) h) fun h =>
    andThen (sub_matrix_subtract C11 C11 (P 1) h) fun h =>
    andThen (sub_matrix_sum C11 C11 (P 5) h) fun h =>
    andThen (sub_matrix_sum C12 (P 0) (P 1) h) fun h =>
    andThen (sub_matrix_sum C21 (P 2) (P 3) h) fun h =>
    andThen (sub_matrix_sum C22 (P 4) (P 0) h) fun h =>
    andThen (sub_matrix_subtract C22 C22 (P 2) h) fun h =>
    andThen (sub_matrix_subtract C22 C22 (P 6) h) fun h =>
    andThen (forLoop 10 (fun i h => deallocate_matrix (S i).matrix (S i).n h) h) fun h =>
    forLoop 7 (fun i h => deallocate_matrix (P i).matrix (P i).n h) h
termination_by A.n
decreasing_by
  all_goals simp_wf
  all_goals
    have : 32 < A.n := by simpa using hn
    show A.n / 2 < A.n
    omega

/-- The function `strassen_aux` run with a bound on the depth of the recursion:
the same body, where a call at depth bound `0` gives up (`none`) and the seven
recursive calls run with the bound decreased by one. -/
def strassen_aux_bounded :
    Nat → sub_matrix_type → sub_matrix_type → sub_matrix_type → Heap R → Option (Heap R)
  | 0, _, _, _, _ => none
  | fuel + 1, C, A, B, h =>
    if A.n ≤ 1 <<< 5 then
      naive_aux C A B h
    else
      let rS := build_sub_matrices 10 (A.n / 2) (fun _ => default, h)
      let S := rS.1
      let rP := build_sub_matrices 7 (A.n / 2) (fun _ => default, rS.2)
      let P := rP.1
      let h := rP.2
      let A11 := get_block A 0 0
      let A12 := get_block A 0 1
      let A21 := get_block A 1 0
      let A22 := get_block A 1 1
      let B11 := get_block B 0 0
      let B12 := get_block B 0 1
      let B21 := get_block B 1 0
      let B22 := get_block B 1 1
      andThen (sub_matrix_subtract (S 0) B12 B22 h) fun h =>
      andThen (sub_matrix_sum (S 1) A11 A12 h) fun h =>
      andThen (sub_matrix_sum (S 2) A21 A22 h) fun h =>
      andThen (sub_matrix_subtract (S 3) B21 B11 h) fun h =>
      andThen (sub_matrix_sum (S 4) A11 A22 h) fun h =>
      andThen (sub_matrix_sum (S 5) B11 B22 h) fun h =>
      andThen (sub_matrix_subtract (S 6) A12 A22 h) fun h =>
      andThen (sub_matrix_sum (S 7) B21 B22 h) fun h =>
      andThen (sub_matrix_subtract (S 8) A11 A21 h) fun h =>
      andThen (sub_matrix_sum (S 9) B11 B12 h) fun h =>
      andThen (strassen_aux_bounded fuel (P 0) A11 (S 0) h) fun h =>
      andThen (strassen_aux_bounded fuel (P 1) (S 1) B22 h) fun h =>
      andThen (strassen_aux_bounded fuel (P 2) (S 2) B11 h) fun h =>
      andThen (strassen_aux_bounded fuel (P 3) A22 (S 3) h) fun h =>
      andThen (strassen_aux_bounded fuel (P 4) (S 4) (S 5) h) fun h =>
      andThen (strassen_aux_bounded fuel (P 5) (S 6) (S 7) h) fun h =>
      andThen (strassen_aux_bounded fuel (P 6) (S 8) (S 9) h) fun h =>
      let C11 := get_block C 0 0
      let C12 := get_block C 0 1
      let C21 := get_block C 1 0
      let C22 := get_block C 1 1
      andThen (sub_matrix_sum C11 (P 4) (P 3) h) fun h =>
      andThen (sub_matrix_subtract C11 C11 (P 1) h) fun h =>
      andThen (sub_matrix_sum C11 C11 (P 5) h) fun h =>
      andThen (sub_matrix_sum C12 (P 0) (P 1) h) fun h =>
      andThen (sub_matrix_sum C21 (P 2) (P 3) h) fun h =>
      andThen (sub_matrix_sum C22 (P 4) (P 0) h) fun h =>
      andThen (sub_matrix_subtract C22 C22 (P 2) h) fun h =>
      andThen (sub_matrix_subtract C22 C22 (P 6) h) fun h =>
      andThen (forLoop 10 (fun i h => deallocate_matrix (S i).matrix (S i).n h) h) fun h =>
      forLoop 7 (fun i h => deallocate_matrix (P i).matrix (P i).n h) h

/-- The function `strassen_matrix_multiplication`: the public entry point. -/
def strassen_matrix_multiplication (C A B : Nat) (n : Nat) (h : Heap R) : Option (Heap R) :=
  strassen_aux (embed_matrix C n) (embed_matrix A n) (embed_matrix B n) h

end Code

/-! ## Specification vocabulary -/

/-- The view `v` lies entirely within its backing matrix, which is live. -/
def inBounds (h : Heap R) (v : sub_matrix_type) : Prop :=
  ∃ r c, h.dims v.matrix = some (r, c) ∧ v.f_row + v.n ≤ r ∧ v.f_col + v.n ≤ c

/-- The cell `p[i][j]` belongs to the region the view `v` denotes. -/
def inRegion (v : sub_matrix_type) (p i j : Nat) : Prop :=
  p = v.matrix ∧ v.f_row ≤ i ∧ i < v.f_row + v.n ∧ v.f_col ≤ j ∧ j < v.f_col + v.n

/-- The regions of two views share a cell. -/
def overlap (C A : sub_matrix_type) : Prop :=
  C.matrix = A.matrix ∧ C.f_row < A.f_row + A.n ∧ A.f_row < C.f_row + C.n ∧
    C.f_col < A.f_col + A.n ∧ A.f_col < C.f_col + C.n

/-- The entry at offset `(y, x)` of the view `v`, coordinates translated
through the origin of the view. -/
def vget (h : Heap R) (v : sub_matrix_type) (y x : Nat) : R :=
  h.cells v.matrix (y + v.f_row) (x + v.f_col)

/-- A nested loop that fills the first `n` rows and columns of the view `D`,
row by row: the cell at offset `(y, x)` receives what `f y x` computes in the
state reached so far. -/
def cellLoop (n : Nat) (D : sub_matrix_type) (f : Nat → Nat → Heap R → Option R)
    (h : Heap R) : Option (Heap R) :=
  forLoop n (fun y h =>
    forLoop n (fun x h =>
      (f y x h).bind fun v => h.write D.matrix (y + D.f_row) (x + D.f_col) v) h) h

/-- The cells of `D` that `cellLoop n D` has assigned when it reaches offset
`(y, x)`: rows before `y` in full, and row `y` up to column `x`. -/
def doneBefore (D : sub_matrix_type) (n y x p i j : Nat) : Prop :=
  p = D.matrix ∧ D.f_col ≤ j ∧
    ((D.f_row ≤ i ∧ i < y + D.f_row ∧ j < n + D.f_col) ∨ (i = y + D.f_row ∧ j < x + D.f_col))

instance (v : sub_matrix_type) (p i j : Nat) : Decidable (inRegion v p i j) :=
  inferInstanceAs (Decidable (_ ∧ _))

instance (C A : sub_matrix_type) : Decidable (overlap C A) :=
  inferInstanceAs (Decidable (_ ∧ _))

instance (D : sub_matrix_type) (n y x p i j : Nat) : Decidable (doneBefore D n y x p i j) :=
  inferInstanceAs (Decidable (_ ∧ _))

/-- An operand view `A` may be read while the view `C` is being filled cell by
cell, each cell of `C` from the cell of `A` at the same offset: either the two
regions share no cell, or `A` starts at the very cell where `C` starts. -/
def compat (C A : sub_matrix_type) : Prop :=
  ¬ overlap C A ∨ (A.matrix = C.matrix ∧ A.f_row = C.f_row ∧ A.f_col = C.f_col)

/-- The state `h'` is the state `h` with the region of `D` overwritten by `g`
(read at the offset within `D`) and nothing else changed. -/
structure Filled (D : sub_matrix_type) (g : Nat → Nat → R) (h h' : Heap R) : Prop where
  dims : h'.dims = h.dims
  next : h'.next = h.next
  allocs : h'.allocs = h.allocs
  frees : h'.frees = h.frees
  cells : ∀ p i j, h'.cells p i j =
    if inRegion D p i j then g (i - D.f_row) (j - D.f_col) else h.cells p i j

/-- The cells a call `strassen_aux C _ _` may assign in blocks that were live
before the call: the region of `C` in the base case, the four quadrants of `C`
in the recursive case. -/
def written (C : sub_matrix_type) (p i j : Nat) : Prop :=
  if C.n ≤ 32 then inRegion C p i j
  else inRegion (get_block C 0 0) p i j ∨ inRegion (get_block C 0 1) p i j ∨
    inRegion (get_block C 1 0) p i j ∨ inRegion (get_block C 1 1) p i j

/-- The number of calls that take the recursive branch in the call tree of
`strassen_aux` on views of side `n`. -/
def calls (n : Nat) : Nat :=
  if h : n ≤ 32 then 0 else 1 + 7 * calls (n / 2)
termination_by n
decreasing_by omega

/-- The number of levels at which `strassen_aux` takes the recursive branch on
the way from side `n` down to a base case: the side is halved while it is
above `32`. -/
def levels (n : Nat) : Nat :=
  if h : n ≤ 32 then 0 else levels (n / 2) + 1
termination_by n
decreasing_by omega

/-- The side `n` is halved without remainder at every level of the recursion:
`n ≤ 32`, or `n` is even and `n / 2` is again such a side. Every power of two
is such a side. -/
inductive Splits : Nat → Prop
  | base {n : Nat} : n ≤ 32 → Splits n
  | step {n : Nat} : 32 < n → n % 2 = 0 → Splits (n / 2) → Splits n

/-- Effect of one step of the program on the memory: the step performs `k`
allocations and `k` deallocations, leaves the same blocks live, and in the
blocks handed out before the step changes only cells in `W`. -/
structure Step (W : Nat → Nat → Nat → Prop) (k : Nat) (s s' : Heap R) : Prop where
  dims : s'.dims = s.dims
  next : s.next ≤ s'.next
  allocs : s'.allocs = s.allocs + k
  frees : s'.frees = s.frees + k
  frame : ∀ p i j, p < s.next → ¬ W p i j → s'.cells p i j = s.cells p i j

/-- A memory with `k` live blocks of `r × r` cells, at the pointers
`0 … k - 1`, holding `cells`; nothing was allocated or freed so far. -/
def blocks (k r : Nat) (cells : Nat → Nat → Nat → R) : Heap R :=
  { cells := cells
    dims := fun p => if p < k then some (r, r) else none
    next := k
    allocs := 0
    frees := 0
    fresh := by
      intro p hp
      show (if p < k then some (r, r) else none) = none
      rw [if_neg (by omega)] }

/-- Three `2 × 2` blocks: block 1 holds `[[1,2],[3,4]]`, block 2 holds
`[[5,6],[7,8]]`, and block 0, the output, holds `-1` everywhere. -/
def scenario2 : Heap Int :=
  blocks 3 2 (fun p i j =>
    if p = 1 then (if i = 0 then (if j = 0 then 1 else 2) else (if j = 0 then 3 else 4))
    else if p = 2 then (if i = 0 then (if j = 0 then 5 else 6) else (if j = 0 then 7 else 8))
    else -1)

/-- Three `4 × 4` blocks: blocks 1 and 2 hold the identity matrix, and block 0,
the output, holds `9` everywhere. -/
def scenario4 : Heap Int :=
  blocks 3 4 (fun p i j => if p = 0 then 9 else if i = j then 1 else 0)

/-- Three `2 × 2` blocks: block 1 holds the zero matrix, blocks 0 and 2 hold
`5` everywhere. -/
def scenarioZero : Heap Int :=
  blocks 3 2 (fun p _ _ => if p = 1 then 0 else 5)

/-- Three `64 × 64` blocks with some contents. -/
def scenario64 : Heap Int :=
  blocks 3 64 (fun p i j => (p : Int) * i - j)

/-- Three `64 × 64` blocks that hold in blocks 1 and 2 what `scenario64` holds
there, and other values in block 0 and at every address not yet handed out. -/
def scenario64b : Heap Int :=
  blocks 3 64 (fun p i j => if p = 0 then 1000 else if p < 3 then (p : Int) * i - j else 2000)

/-- Three `32 × 32` blocks with some contents. -/
def scenario32 : Heap Int :=
  blocks 3 32 (fun p i j => (p : Int) + i - j)

/-- Three `33 × 33` blocks: blocks 1 and 2 hold the zero matrix, and block 0,
the output, holds `7` everywhere. -/
def scenario33 : Heap Int :=
  blocks 3 33 (fun p _ _ => if p = 0 then 7 else 0)

/-! ## Loops, reads and writes -/

theorem forLoop_succ {σ : Type} (k : Nat) (body : Nat → σ → Option σ) (s : σ) :
    forLoop (k + 1) body s = (forLoop k body s).bind (body k) := rfl

/-- Invariant rule for `forLoop`: an invariant that every iteration
re-establishes (and that makes every iteration succeed) holds at the end. -/
theorem forLoop_inv {σ : Type} (P : Nat → σ → Prop) (n : Nat) (body : Nat → σ → Option σ)
    (s : σ) (h0 : P 0 s)
    (hstep : ∀ k t, k < n → P k t → ∃ t', body k t = some t' ∧ P (k + 1) t') :
    ∃ t, forLoop n body s = some t ∧ P n t := by
  induction n with
  | zero => exact ⟨s, rfl, h0⟩
  | succ k ih =>
    obtain ⟨t, ht, hP⟩ := ih (fun j t hj hp => hstep j t (by omega) hp)
    obtain ⟨t', ht', hP'⟩ := hstep k t (by omega) hP
    exact ⟨t', by rw [forLoop_succ, ht]; exact ht', hP'⟩

theorem Heap.read_eq (h : Heap R) (p i j r c : Nat) (hd : h.dims p = some (r, c))
    (hi : i < r) (hj : j < c) : h.read p i j = some (h.cells p i j) := by
  simp [Heap.read, hd, hi, hj]

theorem Heap.write_eq (h : Heap R) (p i j r c : Nat) (v : R) (hd : h.dims p = some (r, c))
    (hi : i < r) (hj : j < c) :
    ∃ h', h.write p i j v = some h' ∧ h'.dims = h.dims ∧ h'.next = h.next ∧
      h'.allocs = h.allocs ∧ h'.frees = h.frees ∧
      ∀ p' i' j', h'.cells p' i' j' = if p' = p ∧ i' = i ∧ j' = j then v else h.cells p' i' j' := by
  refine ⟨{ h with cells := fun p' i' j' =>
      if p' = p ∧ i' = i ∧ j' = j then v else h.cells p' i' j' }, ?_, rfl, rfl, rfl, rfl, ?_⟩
  · simp only [Heap.write, hd, hi, hj, and_self, if_true]
  · intro p' i' j'
    rfl

theorem doneBefore_row_end (D : sub_matrix_type) (n y p i j : Nat) :
    doneBefore D n y n p i j ↔ doneBefore D n (y + 1) 0 p i j := by
  unfold doneBefore
  constructor
  · rintro ⟨hp, hj, h | h⟩
    · exact ⟨hp, hj, Or.inl ⟨h.1, by omega, h.2.2⟩⟩
    · exact ⟨hp, hj, Or.inl ⟨by omega, by omega, h.2⟩⟩
  · rintro ⟨hp, hj, h | h⟩
    · by_cases hi : i < y + D.f_row
      · exact ⟨hp, hj, Or.inl ⟨h.1, hi, h.2.2⟩⟩
      · exact ⟨hp, hj, Or.inr ⟨by omega, h.2.2⟩⟩
    · omega

theorem doneBefore_col_step (D : sub_matrix_type) (n y x p i j : Nat) :
    doneBefore D n y (x + 1) p i j ↔
      doneBefore D n y x p i j ∨ (p = D.matrix ∧ i = y + D.f_row ∧ j = x + D.f_col) := by
  unfold doneBefore
  constructor
  · rintro ⟨hp, hj, h | h⟩
    · exact Or.inl ⟨hp, hj, Or.inl h⟩
    · by_cases hjx : j < x + D.f_col
      · exact Or.inl ⟨hp, hj, Or.inr ⟨h.1, hjx⟩⟩
      · exact Or.inr ⟨hp, h.1, by omega⟩
  · rintro (⟨hp, hj, h | h⟩ | ⟨hp, hi, hj⟩)
    · exact ⟨hp, hj, Or.inl h⟩
    · exact ⟨hp, hj, Or.inr ⟨h.1, by omega⟩⟩
    · exact ⟨hp, by omega, Or.inr ⟨hi, by omega⟩⟩

theorem doneBefore_zero (D : sub_matrix_type) (n p i j : Nat) : ¬ doneBefore D n 0 0 p i j := by
  unfold doneBefore
  rintro ⟨_, hj, h | h⟩ <;> omega

/-- What `cellLoop` leaves: when the block of `D` is live and holds the first
`n` rows and columns of `D`, and `f y x` yields `g y x` in every state that
differs from the initial one only on the cells already assigned, the loop
succeeds, assigns `g` to those `n × n` cells and changes nothing else. -/
theorem cellLoop_spec (n : Nat) (D : sub_matrix_type) (f : Nat → Nat → Heap R → Option R)
    (g : Nat → Nat → R) (h : Heap R) (r c : Nat) (hd : h.dims D.matrix = some (r, c))
    (hr : n + D.f_row ≤ r) (hc : n + D.f_col ≤ c)
    (hf : ∀ s y x, y < n → x < n → s.dims = h.dims →
      (∀ p i j, ¬ doneBefore D n y x p i j → s.cells p i j = h.cells p i j) →
      f y x s = some (g y x)) :
    ∃ h', cellLoop n D f h = some h' ∧ h'.dims = h.dims ∧ h'.next = h.next ∧
      h'.allocs = h.allocs ∧ h'.frees = h.frees ∧
      ∀ p i j, h'.cells p i j =
        if doneBefore D n n 0 p i j then g (i - D.f_row) (j - D.f_col) else h.cells p i j := by
  let Inv : Nat → Nat → Heap R → Prop := fun y x s =>
    s.dims = h.dims ∧ s.next = h.next ∧ s.allocs = h.allocs ∧ s.frees = h.frees ∧
      ∀ p i j, s.cells p i j =
        if doneBefore D n y x p i j then g (i - D.f_row) (j - D.f_col) else h.cells p i j
  have hInner : ∀ y s, y < n → Inv y 0 s →
      ∃ s', forLoop n (fun x h =>
        (f y x h).bind fun v => h.write D.matrix (y + D.f_row) (x + D.f_col) v) s = some s' ∧
        Inv y n s' := by
    intro y s hy hs
    refine forLoop_inv (fun x t => Inv y x t) n _ s hs ?_
    intro x t hx ⟨td, tn, ta, tf, tc⟩
    have hfx : f y x t = some (g y x) := by
      refine hf t y x hy hx td ?_
      intro p i j hnd
      rw [tc, if_neg hnd]
    obtain ⟨t', hw, wd, wn, wa, wf, wc⟩ :=
      Heap.write_eq t D.matrix (y + D.f_row) (x + D.f_col) r c (g y x) (by rw [td, hd])
        (by omega) (by omega)
    refine ⟨t', by rw [hfx]; exact hw, by rw [wd, td], by rw [wn, tn], by rw [wa, ta],
      by rw [wf, tf], ?_⟩
    intro p i j
    rw [wc, tc]
    by_cases hcell : p = D.matrix ∧ i = y + D.f_row ∧ j = x + D.f_col
    · rw [if_pos hcell, if_pos ((doneBefore_col_step D n y x p i j).2 (Or.inr hcell))]
      obtain ⟨_, hi, hj⟩ := hcell
      rw [hi, hj, Nat.add_sub_cancel, Nat.add_sub_cancel]
    · rw [if_neg hcell]
      by_cases hdb : doneBefore D n y x p i j
      · rw [if_pos hdb, if_pos ((doneBefore_col_step D n y x p i j).2 (Or.inl hdb))]
      · rw [if_neg hdb, if_neg]
        intro hdb'
        rcases (doneBefore_col_step D n y x p i j).1 hdb' with h1 | h1
        · exact hdb h1
        · exact hcell h1
  have hOuter := forLoop_inv (fun y t => Inv y 0 t) n
    (fun y h => forLoop n (fun x h =>
      (f y x h).bind fun v => h.write D.matrix (y + D.f_row) (x + D.f_col) v) h) h
    ⟨rfl, rfl, rfl, rfl, fun p i j => by rw [if_neg (doneBefore_zero D n p i j)]⟩
    (by
      intro y t hy ht
      obtain ⟨t', ht', td, tn, ta, tf, tc⟩ := hInner y t hy ht
      refine ⟨t', ht', td, tn, ta, tf, ?_⟩
      intro p i j
      rw [tc]
      by_cases hdb : doneBefore D n y n p i j
      · rw [if_pos hdb, if_pos ((doneBefore_row_end D n y p i j).1 hdb)]
      · rw [if_neg hdb, if_neg (fun hh => hdb ((doneBefore_row_end D n y p i j).2 hh))])
  obtain ⟨t, ht, hI⟩ := hOuter
  exact ⟨t, ht, hI⟩

theorem doneBefore_all (D : sub_matrix_type) (p i j : Nat) :
    doneBefore D D.n D.n 0 p i j ↔ inRegion D p i j := by
  unfold doneBefore inRegion
  constructor
  · rintro ⟨hp, hj, h | h⟩
    · exact ⟨hp, h.1, by omega, hj, by omega⟩
    · omega
  · rintro ⟨hp, h1, h2, h3, h4⟩
    exact ⟨hp, h3, Or.inl ⟨h1, by omega, by omega⟩⟩

theorem Filled.vget {D : sub_matrix_type} {g : Nat → Nat → R} {h h' : Heap R}
    (hF : Filled D g h h') (y x : Nat) (hy : y < D.n) (hx : x < D.n) :
    vget h' D y x = g y x := by
  unfold Strassen.vget
  rw [hF.cells, if_pos (show inRegion D _ _ _ from ⟨rfl, by omega, by omega, by omega, by omega⟩),
    Nat.add_sub_cancel, Nat.add_sub_cancel]

theorem Filled.frame {D : sub_matrix_type} {g : Nat → Nat → R} {h h' : Heap R}
    (hF : Filled D g h h') (p i j : Nat) (hout : ¬ inRegion D p i j) :
    h'.cells p i j = h.cells p i j := by
  rw [hF.cells, if_neg hout]

/-- The loop `cellLoop` run over the whole of a view that is in bounds. -/
theorem cellLoop_view (D : sub_matrix_type) (f : Nat → Nat → Heap R → Option R)
    (g : Nat → Nat → R) (h : Heap R) (hD : inBounds h D)
    (hf : ∀ s y x, y < D.n → x < D.n → s.dims = h.dims →
      (∀ p i j, ¬ doneBefore D D.n y x p i j → s.cells p i j = h.cells p i j) →
      f y x s = some (g y x)) :
    ∃ h', cellLoop D.n D f h = some h' ∧ Filled D g h h' := by
  obtain ⟨r, c, hd, hr, hc⟩ := hD
  obtain ⟨h', he, e1, e2, e3, e4, e5⟩ :=
    cellLoop_spec D.n D f g h r c hd (by omega) (by omega) hf
  refine ⟨h', he, e1, e2, e3, e4, ?_⟩
  intro p i j
  rw [e5]
  by_cases hin : inRegion D p i j
  · rw [if_pos ((doneBefore_all D p i j).2 hin), if_pos hin]
  · rw [if_neg (fun hh => hin ((doneBefore_all D p i j).1 hh)), if_neg hin]

/-- Reading, in the middle of a fill of `C`, a cell of an operand whose region
shares no cell with the region of `C`. -/
theorem read_disjoint (h s : Heap R) (C A : sub_matrix_type) (y x a b : Nat)
    (hA : inBounds h A) (hn : A.n = C.n) (hy : y < C.n) (hx : x < C.n) (ha : a < C.n)
    (hb : b < C.n) (sd : s.dims = h.dims)
    (sc : ∀ p i j, ¬ doneBefore C C.n y x p i j → s.cells p i j = h.cells p i j)
    (hdis : ¬ overlap C A) :
    s.read A.matrix (a + A.f_row) (b + A.f_col) = some (vget h A a b) := by
  obtain ⟨r, c, hd, hr, hc⟩ := hA
  rw [Heap.read_eq s _ _ _ r c (by rw [sd, hd]) (by omega) (by omega), sc]
  · rfl
  · unfold doneBefore
    unfold overlap at hdis
    rintro ⟨hp, hj, h1 | h1⟩
    · apply hdis
      exact ⟨hp.symm, by omega, by omega, by omega, by omega⟩
    · apply hdis
      exact ⟨hp.symm, by omega, by omega, by omega, by omega⟩

/-- Reading, in the middle of a fill of `C`, the cell of an operand that the
fill is about to assign (or a cell of a disjoint operand). -/
theorem read_compat (h s : Heap R) (C A : sub_matrix_type) (y x : Nat)
    (hA : inBounds h A) (hn : A.n = C.n) (hy : y < C.n) (hx : x < C.n)
    (sd : s.dims = h.dims)
    (sc : ∀ p i j, ¬ doneBefore C C.n y x p i j → s.cells p i j = h.cells p i j)
    (hcompat : compat C A) :
    s.read A.matrix (y + A.f_row) (x + A.f_col) = some (vget h A y x) := by
  rcases hcompat with hdis | ⟨hm, hrow, hcol⟩
  · exact read_disjoint h s C A y x y x hA hn hy hx hy hx sd sc hdis
  · obtain ⟨r, c, hd, hr, hc⟩ := hA
    rw [Heap.read_eq s _ _ _ r c (by rw [sd, hd]) (by omega) (by omega), sc]
    · rfl
    · unfold doneBefore
      rintro ⟨_, hj, h1 | h1⟩ <;> omega

/-- The loop `cellLoop` is safe whenever the destination is in bounds and every
cell computation succeeds: it changes no cell outside the destination. -/
theorem cellLoop_safe (D : sub_matrix_type) (f : Nat → Nat → Heap R → Option R)
    (h : Heap R) (hD : inBounds h D)
    (hf : ∀ s y x, y < D.n → x < D.n → s.dims = h.dims → ∃ v, f y x s = some v) :
    ∃ h', cellLoop D.n D f h = some h' ∧ Step (inRegion D) 0 h h' := by
  obtain ⟨r, c, hd, hr, hc⟩ := hD
  let Inv : Heap R → Prop := fun s =>
    s.dims = h.dims ∧ s.next = h.next ∧ s.allocs = h.allocs ∧ s.frees = h.frees ∧
      ∀ p i j, ¬ inRegion D p i j → s.cells p i j = h.cells p i j
  have hInner : ∀ y s, y < D.n → Inv s →
      ∃ s', forLoop D.n (fun x h =>
        (f y x h).bind fun v => h.write D.matrix (y + D.f_row) (x + D.f_col) v) s = some s' ∧
        Inv s' := by
    intro y s hy hs
    refine forLoop_inv (fun _ t => Inv t) D.n _ s hs ?_
    intro x t hx ⟨td, tn, ta, tf, tc⟩
    obtain ⟨v, hv⟩ := hf t y x hy hx td
    obtain ⟨t', hw, wd, wn, wa, wf, wc⟩ :=
      Heap.write_eq t D.matrix (y + D.f_row) (x + D.f_col) r c v (by rw [td, hd])
        (by omega) (by omega)
    refine ⟨t', by rw [hv]; exact hw, by rw [wd, td], by rw [wn, tn], by rw [wa, ta],
      by rw [wf, tf], ?_⟩
    intro p i j hout
    rw [wc, if_neg, tc p i j hout]
    rintro ⟨hp, hi, hj⟩
    exact hout ⟨hp, by omega, by omega, by omega, by omega⟩
  obtain ⟨t, ht, td, tn, ta, tf, tc⟩ := forLoop_inv (fun _ t => Inv t) D.n
    (fun y h => forLoop D.n (fun x h =>
      (f y x h).bind fun v => h.write D.matrix (y + D.f_row) (x + D.f_col) v) h) h
    ⟨rfl, rfl, rfl, rfl, fun _ _ _ _ => rfl⟩ (fun y t hy ht => hInner y t hy ht)
  exact ⟨t, ht, td, by omega, by omega, by omega, fun p i j _ hout => tc p i j hout⟩

theorem Filled.step {D : sub_matrix_type} {g : Nat → Nat → R} {h h' : Heap R}
    (hF : Filled D g h h') : Step (inRegion D) 0 h h' :=
  ⟨hF.dims, by rw [hF.next], by rw [hF.allocs]; rfl, by rw [hF.frees]; rfl,
    fun p i j _ hout => hF.frame p i j hout⟩

/-! ## Allocation and release of the temporaries -/

/-- The allocation loop hands out `k` consecutive new blocks of `n × n` cells,
wraps each as a whole-matrix view, and touches no cell. -/
theorem build_sub_matrices_spec (k n : Nat) (X : Nat → sub_matrix_type) (h : Heap R) :
    (∀ i, i < k → (build_sub_matrices k n (X, h)).1 i = embed_matrix (h.next + i) n) ∧
      (build_sub_matrices k n (X, h)).2.cells = h.cells ∧
      (build_sub_matrices k n (X, h)).2.next = h.next + k ∧
      (build_sub_matrices k n (X, h)).2.allocs = h.allocs + k ∧
      (build_sub_matrices k n (X, h)).2.frees = h.frees ∧
      ∀ p, (build_sub_matrices k n (X, h)).2.dims p =
        if h.next ≤ p ∧ p < h.next + k then some (n, n) else h.dims p := by
  induction k with
  | zero =>
    refine ⟨fun i hi => absurd hi (Nat.not_lt_zero i), rfl, rfl, rfl, rfl, ?_⟩
    intro p
    rw [if_neg (by omega)]
    rfl
  | succ k ih =>
    obtain ⟨ihX, ihc, ihn, iha, ihf, ihd⟩ := ih
    have hstep : build_sub_matrices (k + 1) n (X, h) =
        (Function.update (build_sub_matrices k n (X, h)).1 k
          (build_sub_matrix n (build_sub_matrices k n (X, h)).2).1,
          (build_sub_matrix n (build_sub_matrices k n (X, h)).2).2) := rfl
    rw [hstep]
    refine ⟨?_, ?_, ?_, ?_, ?_, ?_⟩
    · intro i hi
      by_cases hik : i = k
      · subst hik
        simp only [Function.update_same, build_sub_matrix, embed_matrix, allocate_matrix, ihn]
      · simp only [Function.update_noteq hik]
        exact ihX i (by omega)
    · simp only [build_sub_matrix, allocate_matrix, ihc]
    · simp only [build_sub_matrix, allocate_matrix, ihn]
      omega
    · simp only [build_sub_matrix, allocate_matrix, iha]
      omega
    · simp only [build_sub_matrix, allocate_matrix, ihf]
    · intro p
      simp only [build_sub_matrix, allocate_matrix, ihn]
      by_cases hp : p = h.next + k
      · subst hp
        rw [Function.update_same, if_pos (by omega)]
      · rw [Function.update_noteq hp, ihd]
        by_cases hlt : h.next ≤ p ∧ p < h.next + k
        · rw [if_pos hlt, if_pos (by omega)]
        · rw [if_neg hlt, if_neg (by omega)]

/-- The release loop frees the `k` consecutive blocks starting at `N`, each
with the row count it was allocated with, and touches no cell. -/
theorem release_spec (k n N : Nat) (X : Nat → sub_matrix_type) (s : Heap R)
    (hX : ∀ i, i < k → X i = embed_matrix (N + i) n)
    (hd : ∀ i, i < k → s.dims (N + i) = some (n, n)) :
    ∃ s', forLoop k (fun i h => deallocate_matrix (X i).matrix (X i).n h) s = some s' ∧
      s'.cells = s.cells ∧ s'.next = s.next ∧ s'.allocs = s.allocs ∧
      s'.frees = s.frees + k ∧
      ∀ p, s'.dims p = if N ≤ p ∧ p < N + k then none else s.dims p := by
  have hloop := forLoop_inv (fun j (t : Heap R) =>
      t.cells = s.cells ∧ t.next = s.next ∧ t.allocs = s.allocs ∧ t.frees = s.frees + j ∧
        ∀ p, t.dims p = if N ≤ p ∧ p < N + j then none else s.dims p) k
    (fun i h => deallocate_matrix (X i).matrix (X i).n h) s
    ⟨rfl, rfl, rfl, rfl, fun p => by rw [if_neg (by omega)]⟩
    (by
      intro j t hj ⟨tc, tn, ta, tf, td⟩
      have hlive : t.dims (N + j) = some (n, n) := by
        rw [td, if_neg (by omega)]
        exact hd j hj
      beta_reduce
      rw [hX j hj]
      simp only [embed_matrix, deallocate_matrix, hlive, if_true]
      refine ⟨_, rfl, tc, tn, ta, by simp only [tf]; omega, ?_⟩
      intro p
      show Function.update t.dims (N + j) none p = _
      by_cases hp : p = N + j
      · subst hp
        rw [Function.update_same, if_pos (by omega)]
      · simp only [Function.update_noteq hp, td]
        by_cases hlt : N ≤ p ∧ p < N + j
        · rw [if_pos hlt, if_pos (by omega)]
        · rw [if_neg hlt, if_neg (by omega)])
  exact hloop

/-! ## The element-wise operations and the naive multiplier -/

section Ops

variable [Ring R]

theorem sub_matrix_sum_eq_cellLoop (C A B : sub_matrix_type) (h : Heap R) :
    sub_matrix_sum C A B h = cellLoop C.n C (fun y x s =>
      (s.read A.matrix (y + A.f_row) (x + A.f_col)).bind fun a =>
        (s.read B.matrix (y + B.f_row) (x + B.f_col)).bind fun b => some (a + b)) h := by
  unfold sub_matrix_sum cellLoop
  congr 1
  funext y s
  congr 1
  funext x t
  beta_reduce
  cases t.read A.matrix (y + A.f_row) (x + A.f_col) with
  | none => rfl
  | some a =>
    cases t.read B.matrix (y + B.f_row) (x + B.f_col) with
    | none => rfl
    | some b => rfl

theorem sub_matrix_subtract_eq_cellLoop (C A B : sub_matrix_type) (h : Heap R) :
    sub_matrix_subtract C A B h = cellLoop C.n C (fun y x s =>
      (s.read A.matrix (y + A.f_row) (x + A.f_col)).bind fun a =>
        (s.read B.matrix (y + B.f_row) (x + B.f_col)).bind fun b => some (a - b)) h := by
  unfold sub_matrix_subtract cellLoop
  congr 1
  funext y s
  congr 1
  funext x t
  beta_reduce
  cases t.read A.matrix (y + A.f_row) (x + A.f_col) with
  | none => rfl
  | some a =>
    cases t.read B.matrix (y + B.f_row) (x + B.f_col) with
    | none => rfl
    | some b => rfl

/-- The function `sub_matrix_sum` on views in bounds of equal side, each operand disjoint
from the destination or starting at the same cell: the call succeeds and
leaves the destination filled with the sum of the operands as they were. -/
theorem sub_matrix_sum_spec (C A B : sub_matrix_type) (h : Heap R)
    (hC : inBounds h C) (hA : inBounds h A) (hB : inBounds h B)
    (hAn : A.n = C.n) (hBn : B.n = C.n) (cA : compat C A) (cB : compat C B) :
    ∃ h', sub_matrix_sum C A B h = some h' ∧
      Filled C (fun y x => vget h A y x + vget h B y x) h h' := by
  rw [sub_matrix_sum_eq_cellLoop]
  apply cellLoop_view C _ _ h hC
  intro s y x hy hx sd sc
  rw [read_compat h s C A y x hA hAn hy hx sd sc cA,
    read_compat h s C B y x hB hBn hy hx sd sc cB]
  rfl

/-- The function `sub_matrix_subtract`, under the same conditions, leaves the destination
filled with the difference of the operands as they were. -/
theorem sub_matrix_subtract_spec (C A B : sub_matrix_type) (h : Heap R)
    (hC : inBounds h C) (hA : inBounds h A) (hB : inBounds h B)
    (hAn : A.n = C.n) (hBn : B.n = C.n) (cA : compat C A) (cB : compat C B) :
    ∃ h', sub_matrix_subtract C A B h = some h' ∧
      Filled C (fun y x => vget h A y x - vget h B y x) h h' := by
  rw [sub_matrix_subtract_eq_cellLoop]
  apply cellLoop_view C _ _ h hC
  intro s y x hy hx sd sc
  rw [read_compat h s C A y x hA hAn hy hx sd sc cA,
    read_compat h s C B y x hB hBn hy hx sd sc cB]
  rfl

/-- The function `naive_aux` on views in bounds of equal side, the region of `C` sharing no
cell with the operands: the call succeeds and leaves `C` filled with the
product of the operands. -/
theorem naive_aux_spec (C A B : sub_matrix_type) (h : Heap R)
    (hC : inBounds h C) (hA : inBounds h A) (hB : inBounds h B)
    (hAn : A.n = C.n) (hBn : B.n = C.n) (dA : ¬ overlap C A) (dB : ¬ overlap C B) :
    ∃ h', naive_aux C A B h = some h' ∧
      Filled C (fun y x => ∑ z in Finset.range C.n, vget h A y z * vget h B z x) h h' := by
  have hcl : naive_aux C A B h = cellLoop C.n C (fun y x s =>
      forLoop C.n (fun z value =>
        (s.read A.matrix (y + A.f_row) (z + A.f_col)).bind fun a =>
          (s.read B.matrix (z + B.f_row) (x + B.f_col)).bind fun b => some (value + a * b)) 0) h := by
    unfold naive_aux cellLoop
    rw [hAn]
    rfl
  rw [hcl]
  apply cellLoop_view C _ _ h hC
  intro s y x hy hx sd sc
  obtain ⟨v, hv, hP⟩ := forLoop_inv
    (fun k (v : R) => v = ∑ z in Finset.range k, vget h A y z * vget h B z x) C.n
    (fun z value =>
        (s.read A.matrix (y + A.f_row) (z + A.f_col)).bind fun a =>
          (s.read B.matrix (z + B.f_row) (x + B.f_col)).bind fun b => some (value + a * b))
    0 (by simp) (by
      intro z v hz hv
      beta_reduce
      rw [read_disjoint h s C A y x y z hA hAn hy hx hy hz sd sc dA,
        read_disjoint h s C B y x z x hB hBn hy hx hz hx sd sc dB]
      refine ⟨_, rfl, ?_⟩
      rw [Finset.sum_range_succ, hv])
  rw [hv, hP]

/-- The function `naive_aux` on views in bounds of equal side, whatever their overlap: the
call succeeds and changes no cell outside the region of `C`. -/
theorem naive_aux_safe (C A B : sub_matrix_type) (h : Heap R)
    (hC : inBounds h C) (hA : inBounds h A) (hB : inBounds h B)
    (hAn : A.n = C.n) (hBn : B.n = C.n) :
    ∃ h', naive_aux C A B h = some h' ∧ Step (inRegion C) 0 h h' := by
  have hcl : naive_aux C A B h = cellLoop C.n C (fun y x s =>
      forLoop C.n (fun z value =>
        (s.read A.matrix (y + A.f_row) (z + A.f_col)).bind fun a =>
          (s.read B.matrix (z + B.f_row) (x + B.f_col)).bind fun b => some (value + a * b)) 0) h := by
    unfold naive_aux cellLoop
    rw [hAn]
    rfl
  rw [hcl]
  apply cellLoop_safe C _ h hC
  intro s y x hy hx sd
  obtain ⟨rA, cA, dA, hrA, hcA⟩ := hA
  obtain ⟨rB, cB, dB, hrB, hcB⟩ := hB
  obtain ⟨v, hv, _⟩ := forLoop_inv (fun _ (_ : R) => True) C.n
    (fun z value =>
        (s.read A.matrix (y + A.f_row) (z + A.f_col)).bind fun a =>
          (s.read B.matrix (z + B.f_row) (x + B.f_col)).bind fun b => some (value + a * b))
    0 trivial (by
      intro z v hz _
      beta_reduce
      rw [Heap.read_eq s _ _ _ rA cA (by rw [sd, dA]) (by omega) (by omega),
        Heap.read_eq s _ _ _ rB cB (by rw [sd, dB]) (by omega) (by omega)]
      exact ⟨_, rfl, trivial⟩)
  exact ⟨v, hv⟩

/-! ## The seven-product identity, entry by entry -/

/-- A sum over `m + m` indices splits into the sums over the two halves. -/
theorem sum_range_halves (m : Nat) (f : Nat → R) :
    ∑ z in Finset.range (m + m), f z =
      ∑ z in Finset.range m, f z + ∑ z in Finset.range m, f (z + m) := by
  rw [Finset.sum_range_add]
  congr 1
  apply Finset.sum_congr rfl
  intro z _
  rw [Nat.add_comm]

/-- Entry of the top-left quadrant: `P5 + P4 - P2 + P6 = A11 B11 + A12 B21`. -/
theorem combine_11 (m : Nat) (a11 a12 a22 b11 b21 b22 : Nat → R) :
    ∑ z in Finset.range m, (a11 z + a22 z) * (b11 z + b22 z) +
        ∑ z in Finset.range m, a22 z * (b21 z - b11 z) -
        ∑ z in Finset.range m, (a11 z + a12 z) * b22 z +
        ∑ z in Finset.range m, (a12 z - a22 z) * (b21 z + b22 z) =
      ∑ z in Finset.range m, a11 z * b11 z + ∑ z in Finset.range m, a12 z * b21 z := by
  simp only [mul_add, add_mul, mul_sub, sub_mul, Finset.sum_add_distrib,
    Finset.sum_sub_distrib]
  abel

/-- Entry of the top-right quadrant: `P1 + P2 = A11 B12 + A12 B22`. -/
theorem combine_12 (m : Nat) (a11 a12 b12 b22 : Nat → R) :
    ∑ z in Finset.range m, a11 z * (b12 z - b22 z) +
        ∑ z in Finset.range m, (a11 z + a12 z) * b22 z =
      ∑ z in Finset.range m, a11 z * b12 z + ∑ z in Finset.range m, a12 z * b22 z := by
  simp only [mul_add, add_mul, mul_sub, sub_mul, Finset.sum_add_distrib,
    Finset.sum_sub_distrib]
  abel

/-- Entry of the bottom-left quadrant: `P3 + P4 = A21 B11 + A22 B21`. -/
theorem combine_21 (m : Nat) (a21 a22 b11 b21 : Nat → R) :
    ∑ z in Finset.range m, (a21 z + a22 z) * b11 z +
        ∑ z in Finset.range m, a22 z * (b21 z - b11 z) =
      ∑ z in Finset.range m, a21 z * b11 z + ∑ z in Finset.range m, a22 z * b21 z := by
  simp only [mul_add, add_mul, mul_sub, sub_mul, Finset.sum_add_distrib,
    Finset.sum_sub_distrib]
  abel

/-- Entry of the bottom-right quadrant: `P5 + P1 - P3 - P7 = A21 B12 + A22 B22`. -/
theorem combine_22 (m : Nat) (a11 a21 a22 b11 b12 b22 : Nat → R) :
    ∑ z in Finset.range m, (a11 z + a22 z) * (b11 z + b22 z) +
        ∑ z in Finset.range m, a11 z * (b12 z - b22 z) -
        ∑ z in Finset.range m, (a21 z + a22 z) * b11 z -
        ∑ z in Finset.range m, (a11 z - a21 z) * (b11 z + b12 z) =
      ∑ z in Finset.range m, a21 z * b12 z + ∑ z in Finset.range m, a22 z * b22 z := by
  simp only [mul_add, add_mul, mul_sub, sub_mul, Finset.sum_add_distrib,
    Finset.sum_sub_distrib]
  abel

end Ops

/-! ## Sides and regions -/

theorem splits_pow (k : Nat) : Splits (2 ^ k) := by
  induction k with
  | zero => exact Splits.base (by norm_num)
  | succ k ih =>
    by_cases hle : 2 ^ (k + 1) ≤ 32
    · exact Splits.base hle
    · have hhalf : 2 ^ (k + 1) / 2 = 2 ^ k := by
        rw [pow_succ]
        exact Nat.mul_div_cancel _ (by norm_num)
      refine Splits.step (by omega) ?_ (by rw [hhalf]; exact ih)
      rw [pow_succ]
      exact Nat.mul_mod_left _ _

theorem written_inRegion (C : sub_matrix_type) (p i j : Nat) (hw : written C p i j) :
    inRegion C p i j := by
  unfold written at hw
  split at hw
  · exact hw
  · simp only [inRegion, get_block] at hw ⊢
    omega

theorem calls_base (n : Nat) (hn : n ≤ 32) : calls n = 0 := by
  rw [calls, dif_pos hn]

theorem calls_rec (n : Nat) (hn : 32 < n) : calls n = 1 + 7 * calls (n / 2) := by
  rw [calls, dif_neg (by omega)]

/-! ## One level of the recursion -/

theorem andThen_some {α β : Type} {o : Option α} {a : α} (f : α → Option β)
    (ho : o = some a) : andThen o f = f a := by
  rw [ho]
  rfl

theorem inBounds_lt (h : Heap R) (v : sub_matrix_type) (hv : inBounds h v) :
    v.matrix < h.next := by
  obtain ⟨r, c, hd, _, _⟩ := hv
  by_contra hge
  rw [h.fresh v.matrix (by omega)] at hd
  exact Option.noConfusion hd

theorem Step.mono {W W' : Nat → Nat → Nat → Prop} {k : Nat} {s s' : Heap R}
    (hs : Step W k s s') (hW : ∀ p i j, W p i j → W' p i j) : Step W' k s s' :=
  ⟨hs.dims, hs.next, hs.allocs, hs.frees,
    fun p i j hp hout => hs.frame p i j hp (fun hw => hout (hW p i j hw))⟩

theorem inBounds_dims (h s : Heap R) (v : sub_matrix_type) (hd : s.dims = h.dims)
    (hv : inBounds h v) : inBounds s v := by
  obtain ⟨r, c, e, hr, hc⟩ := hv
  exact ⟨r, c, by rw [hd]; exact e, hr, hc⟩

theorem inBounds_get_block (h : Heap R) (v : sub_matrix_type) (i j : Nat) (hi : i ≤ 1)
    (hj : j ≤ 1) (hv : inBounds h v) : inBounds h (get_block v i j) := by
  obtain ⟨r, c, e, hr, hc⟩ := hv
  refine ⟨r, c, e, ?_, ?_⟩
  · simp only [get_block]
    interval_cases i <;> omega
  · simp only [get_block]
    interval_cases j <;> omega

section Main

variable [Ring R]

/-- The ten sums and differences `S1 … S10` of one level of the recursion:
they succeed, fill the ten temporaries at `N … N + 9` and touch no other
block. -/
theorem stage_sums (A B : sub_matrix_type) (N m : Nat) (h1 : Heap R)
    (hA : inBounds h1 A) (hB : inBounds h1 B) (hAm : A.n / 2 = m) (hBm : B.n / 2 = m)
    (hS : ∀ i, i < 10 → inBounds h1 (embed_matrix (N + i) m))
    (hAp : A.matrix < N) (hBp : B.matrix < N) :
    ∃ s : Heap R, (∀ k : Heap R → Option (Heap R),
      (andThen (sub_matrix_subtract (embed_matrix (N + 0) m) (get_block B 0 1) (get_block B 1 1) h1) fun h =>
       andThen (sub_matrix_sum (embed_matrix (N + 1) m) (get_block A 0 0) (get_block A 0 1) h) fun h =>
       andThen (sub_matrix_sum (embed_matrix (N + 2) m) (get_block A 1 0) (get_block A 1 1) h) fun h =>
       andThen (sub_matrix_subtract (embed_matrix (N + 3) m) (get_block B 1 0) (get_block B 0 0) h) fun h =>
       andThen (sub_matrix_sum (embed_matrix (N + 4) m) (get_block A 0 0) (get_block A 1 1) h) fun h =>
       andThen (sub_matrix_sum (embed_matrix (N + 5) m) (get_block B 0 0) (get_block B 1 1) h) fun h =>
       andThen (sub_matrix_subtract (embed_matrix (N + 6) m) (get_block A 0 1) (get_block A 1 1) h) fun h =>
       andThen (sub_matrix_sum (embed_matrix (N + 7) m) (get_block B 1 0) (get_block B 1 1) h) fun h =>
       andThen (sub_matrix_subtract (embed_matrix (N + 8) m) (get_block A 0 0) (get_block A 1 0) h) fun h =>
       andThen (sub_matrix_sum (embed_matrix (N + 9) m) (get_block B 0 0) (get_block B 0 1) h) k) = k s) ∧
      s.dims = h1.dims ∧ s.next = h1.next ∧ s.allocs = h1.allocs ∧ s.frees = h1.frees ∧
      (∀ p i j, (p < N ∨ N + 10 ≤ p) → s.cells p i j = h1.cells p i j) ∧
      (∀ y x, y < m → x < m → vget s (embed_matrix (N + 0) m) y x =
        vget h1 (get_block B 0 1) y x - vget h1 (get_block B 1 1) y x) ∧
      (∀ y x, y < m → x < m → vget s (embed_matrix (N + 1) m) y x =
        vget h1 (get_block A 0 0) y x + vget h1 (get_block A 0 1) y x) ∧
      (∀ y x, y < m → x < m → vget s (embed_matrix (N + 2) m) y x =
        vget h1 (get_block A 1 0) y x + vget h1 (get_block A 1 1) y x) ∧
      (∀ y x, y < m → x < m → vget s (embed_matrix (N + 3) m) y x =
        vget h1 (get_block B 1 0) y x - vget h1 (get_block B 0 0) y x) ∧
      (∀ y x, y < m → x < m → vget s (embed_matrix (N + 4) m) y x =
        vget h1 (get_block A 0 0) y x + vget h1 (get_block A 1 1) y x) ∧
      (∀ y x, y < m → x < m → vget s (embed_matrix (N + 5) m) y x =
        vget h1 (get_block B 0 0) y x + vget h1 (get_block B 1 1) y x) ∧
      (∀ y x, y < m → x < m → vget s (embed_matrix (N + 6) m) y x =
        vget h1 (get_block A 0 1) y x - vget h1 (get_block A 1 1) y x) ∧
      (∀ y x, y < m → x < m → vget s (embed_matrix (N + 7) m) y x =
        vget h1 (get_block B 1 0) y x + vget h1 (get_block B 1 1) y x) ∧
      (∀ y x, y < m → x < m → vget s (embed_matrix (N + 8) m) y x =
        vget h1 (get_block A 0 0) y x - vget h1 (get_block A 1 0) y x) ∧
      (∀ y x, y < m → x < m → vget s (embed_matrix (N + 9) m) y x =
        vget h1 (get_block B 0 0) y x + vget h1 (get_block B 0 1) y x) := by
  have d0 : h1.dims = h1.dims := rfl
  obtain ⟨s1, e1, F1⟩ := sub_matrix_subtract_spec
    (embed_matrix (N + 0) m) (get_block B 0 1) (get_block B 1 1) h1
    (inBounds_dims _ _ _ d0 (hS 0 (by omega)))
    (inBounds_dims _ _ _ d0 (inBounds_get_block _ _ _ _ (by omega) (by omega) hB))
    (inBounds_dims _ _ _ d0 (inBounds_get_block _ _ _ _ (by omega) (by omega) hB))
    (by simp only [get_block, embed_matrix, hAm, hBm])
    (by simp only [get_block, embed_matrix, hAm, hBm])
    (Or.inl (by simp only [overlap, get_block, embed_matrix, hAm, hBm]; omega))
    (Or.inl (by simp only [overlap, get_block, embed_matrix, hAm, hBm]; omega))
  have T1 := F1.step
  have v1 := F1.vget
  simp only [vget, get_block, embed_matrix, hAm, hBm] at v1
  have d1 : s1.dims = h1.dims := T1.dims.trans d0
  have c1 := F1.frame
  simp only [inRegion, get_block, embed_matrix, hAm, hBm] at c1
  obtain ⟨s2, e2, F2⟩ := sub_matrix_sum_spec
    (embed_matrix (N + 1) m) (get_block A 0 0) (get_block A 0 1) s1
    (inBounds_dims _ _ _ d1 (hS 1 (by omega)))
    (inBounds_dims _ _ _ d1 (inBounds_get_block _ _ _ _ (by omega) (by omega) hA))
    (inBounds_dims _ _ _ d1 (inBounds_get_block _ _ _ _ (by omega) (by omega) hA))
    (by simp only [get_block, embed_matrix, hAm, hBm])
    (by simp only [get_block, embed_matrix, hAm, hBm])
    (Or.inl (by simp only [overlap, get_block, embed_matrix, hAm, hBm]; omega))
    (Or.inl (by simp only [overlap, get_block, embed_matrix, hAm, hBm]; omega))
  have T2 := F2.step
  have v2 := F2.vget
  simp only [vget, get_block, embed_matrix, hAm, hBm] at v2
  have d2 : s2.dims = h1.dims := T2.dims.trans d1
  have c2 := F2.frame
  simp only [inRegion, get_block, embed_matrix, hAm, hBm] at c2
  obtain ⟨s3, e3, F3⟩ := sub_matrix_sum_spec
    (embed_matrix (N + 2) m) (get_block A 1 0) (get_block A 1 1) s2
    (inBounds_dims _ _ _ d2 (hS 2 (by omega)))
    (inBounds_dims _ _ _ d2 (inBounds_get_block _ _ _ _ (by omega) (by omega) hA))
    (inBounds_dims _ _ _ d2 (inBounds_get_block _ _ _ _ (by omega) (by omega) hA))
    (by simp only [get_block, embed_matrix, hAm, hBm])
    (by simp only [get_block, embed_matrix, hAm, hBm])
    (Or.inl (by simp only [overlap, get_block, embed_matrix, hAm, hBm]; omega))
    (Or.inl (by simp only [overlap, get_block, embed_matrix, hAm, hBm]; omega))
  have T3 := F3.step
  have v3 := F3.vget
  simp only [vget, get_block, embed_matrix, hAm, hBm] at v3
  have d3 : s3.dims = h1.dims := T3.dims.trans d2
  have c3 := F3.frame
  simp only [inRegion, get_block, embed_matrix, hAm, hBm] at c3
  obtain ⟨s4, e4, F4⟩ := sub_matrix_subtract_spec
    (embed_matrix (N + 3) m) (get_block B 1 0) (get_block B 0 0) s3
    (inBounds_dims _ _ _ d3 (hS 3 (by omega)))
    (inBounds_dims _ _ _ d3 (inBounds_get_block _ _ _ _ (by omega) (by omega) hB))
    (inBounds_dims _ _ _ d3 (inBounds_get_block _ _ _ _ (by omega) (by omega) hB))
    (by simp only [get_block, embed_matrix, hAm, hBm])
    (by simp only [get_block, embed_matrix, hAm, hBm])
    (Or.inl (by simp only [overlap, get_block, embed_matrix, hAm, hBm]; omega))
    (Or.inl (by simp only [overlap, get_block, embed_matrix, hAm, hBm]; omega))
  have T4 := F4.step
  have v4 := F4.vget
  simp only [vget, get_block, embed_matrix, hAm, hBm] at v4
  have d4 : s4.dims = h1.dims := T4.dims.trans d3
  have c4 := F4.frame
  simp only [inRegion, get_block, embed_matrix, hAm, hBm] at c4
  obtain ⟨s5, e5, F5⟩ := sub_matrix_sum_spec
    (embed_matrix (N + 4) m) (get_block A 0 0) (get_block A 1 1) s4
    (inBounds_dims _ _ _ d4 (hS 4 (by omega)))
    (inBounds_dims _ _ _ d4 (inBounds_get_block _ _ _ _ (by omega) (by omega) hA))
    (inBounds_dims _ _ _ d4 (inBounds_get_block _ _ _ _ (by omega) (by omega) hA))
    (by simp only [get_block, embed_matrix, hAm, hBm])
    (by simp only [get_block, embed_matrix, hAm, hBm])
    (Or.inl (by simp only [overlap, get_block, embed_matrix, hAm, hBm]; omega))
    (Or.inl (by simp only [overlap, get_block, embed_matrix, hAm, hBm]; omega))
  have T5 := F5.step
  have v5 := F5.vget
  simp only [vget, get_block, embed_matrix, hAm, hBm] at v5
  have d5 : s5.dims = h1.dims := T5.dims.trans d4
  have c5 := F5.frame
  simp only [inRegion, get_block, embed_matrix, hAm, hBm] at c5
  obtain ⟨s6, e6, F6⟩ := sub_matrix_sum_spec
    (embed_matrix (N + 5) m) (get_block B 0 0) (get_block B 1 1) s5
    (inBounds_dims _ _ _ d5 (hS 5 (by omega)))
    (inBounds_dims _ _ _ d5 (inBounds_get_block _ _ _ _ (by omega) (by omega) hB))
    (inBounds_dims _ _ _ d5 (inBounds_get_block _ _ _ _ (by omega) (by omega) hB))
    (by simp only [get_block, embed_matrix, hAm, hBm])
    (by simp only [get_block, embed_matrix, hAm, hBm])
    (Or.inl (by simp only [overlap, get_block, embed_matrix, hAm, hBm]; omega))
    (Or.inl (by simp only [overlap, get_block, embed_matrix, hAm, hBm]; omega))
  have T6 := F6.step
  have v6 := F6.vget
  simp only [vget, get_block, embed_matrix, hAm, hBm] at v6
  have d6 : s6.dims = h1.dims := T6.dims.trans d5
  have c6 := F6.frame
  simp only [inRegion, get_block, embed_matrix, hAm, hBm] at c6
  obtain ⟨s7, e7, F7⟩ := sub_matrix_subtract_spec
    (embed_matrix (N + 6) m) (get_block A 0 1) (get_block A 1 1) s6
    (inBounds_dims _ _ _ d6 (hS 6 (by omega)))
    (inBounds_dims _ _ _ d6 (inBounds_get_block _ _ _ _ (by omega) (by omega) hA))
    (inBounds_dims _ _ _ d6 (inBounds_get_block _ _ _ _ (by omega) (by omega) hA))
    (by simp only [get_block, embed_matrix, hAm, hBm])
    (by simp only [get_block, embed_matrix, hAm, hBm])
    (Or.inl (by simp only [overlap, get_block, embed_matrix, hAm, hBm]; omega))
    (Or.inl (by simp only [overlap, get_block, embed_matrix, hAm, hBm]; omega))
  have T7 := F7.step
  have v7 := F7.vget
  simp only [vget, get_block, embed_matrix, hAm, hBm] at v7
  have d7 : s7.dims = h1.dims := T7.dims.trans d6
  have c7 := F7.frame
  simp only [inRegion, get_block, embed_matrix, hAm, hBm] at c7
  obtain ⟨s8, e8, F8⟩ := sub_matrix_sum_spec
    (embed_matrix (N + 7) m) (get_block B 1 0) (get_block B 1 1) s7
    (inBounds_dims _ _ _ d7 (hS 7 (by omega)))
    (inBounds_dims _ _ _ d7 (inBounds_get_block _ _ _ _ (by omega) (by omega) hB))
    (inBounds_dims _ _ _ d7 (inBounds_get_block _ _ _ _ (by omega) (by omega) hB))
    (by simp only [get_block, embed_matrix, hAm, hBm])
    (by simp only [get_block, embed_matrix, hAm, hBm])
    (Or.inl (by simp only [overlap, get_block, embed_matrix, hAm, hBm]; omega))
    (Or.inl (by simp only [overlap, get_block, embed_matrix, hAm, hBm]; omega))
  have T8 := F8.step
  have v8 := F8.vget
  simp only [vget, get_block, embed_matrix, hAm, hBm] at v8
  have d8 : s8.dims = h1.dims := T8.dims.trans d7
  have c8 := F8.frame
  simp only [inRegion, get_block, embed_matrix, hAm, hBm] at c8
  obtain ⟨s9, e9, F9⟩ := sub_matrix_subtract_spec
    (embed_matrix (N + 8) m) (get_block A 0 0) (get_block A 1 0) s8
    (inBounds_dims _ _ _ d8 (hS 8 (by omega)))
    (inBounds_dims _ _ _ d8 (inBounds_get_block _ _ _ _ (by omega) (by omega) hA))
    (inBounds_dims _ _ _ d8 (inBounds_get_block _ _ _ _ (by omega) (by omega) hA))
    (by simp only [get_block, embed_matrix, hAm, hBm])
    (by simp only [get_block, embed_matrix, hAm, hBm])
    (Or.inl (by simp only [overlap, get_block, embed_matrix, hAm, hBm]; omega))
    (Or.inl (by simp only [overlap, get_block, embed_matrix, hAm, hBm]; omega))
  have T9 := F9.step
  have v9 := F9.vget
  simp only [vget, get_block, embed_matrix, hAm, hBm] at v9
  have d9 : s9.dims = h1.dims := T9.dims.trans d8
  have c9 := F9.frame
  simp only [inRegion, get_block, embed_matrix, hAm, hBm] at c9
  obtain ⟨s10, e10, F10⟩ := sub_matrix_sum_spec
    (embed_matrix (N + 9) m) (get_block B 0 0) (get_block B 0 1) s9
    (inBounds_dims _ _ _ d9 (hS 9 (by omega)))
    (inBounds_dims _ _ _ d9 (inBounds_get_block _ _ _ _ (by omega) (by omega) hB))
    (inBounds_dims _ _ _ d9 (inBounds_get_block _ _ _ _ (by omega) (by omega) hB))
    (by simp only [get_block, embed_matrix, hAm, hBm])
    (by simp only [get_block, embed_matrix, hAm, hBm])
    (Or.inl (by simp only [overlap, get_block, embed_matrix, hAm, hBm]; omega))
    (Or.inl (by simp only [overlap, get_block, embed_matrix, hAm, hBm]; omega))
  have T10 := F10.step
  have v10 := F10.vget
  simp only [vget, get_block, embed_matrix, hAm, hBm] at v10
  have d10 : s10.dims = h1.dims := T10.dims.trans d9
  have c10 := F10.frame
  simp only [inRegion, get_block, embed_matrix, hAm, hBm] at c10
  refine ⟨s10, ?_, d10, ?_, ?_, ?_, ?_, ?_, ?_, ?_, ?_, ?_, ?_, ?_, ?_, ?_, ?_⟩
  · intro k
    rw [andThen_some _ e1, andThen_some _ e2, andThen_some _ e3, andThen_some _ e4,
      andThen_some _ e5, andThen_some _ e6, andThen_some _ e7, andThen_some _ e8,
      andThen_some _ e9, andThen_some _ e10]
  · have a1 := F1.next
    have a2 := F2.next
    have a3 := F3.next
    have a4 := F4.next
    have a5 := F5.next
    have a6 := F6.next
    have a7 := F7.next
    have a8 := F8.next
    have a9 := F9.next
    have a10 := F10.next
    omega
  · have a1 := T1.allocs
    have a2 := T2.allocs
    have a3 := T3.allocs
    have a4 := T4.allocs
    have a5 := T5.allocs
    have a6 := T6.allocs
    have a7 := T7.allocs
    have a8 := T8.allocs
    have a9 := T9.allocs
    have a10 := T10.allocs
    omega
  · have a1 := T1.frees
    have a2 := T2.frees
    have a3 := T3.frees
    have a4 := T4.frees
    have a5 := T5.frees
    have a6 := T6.frees
    have a7 := T7.frees
    have a8 := T8.frees
    have a9 := T9.frees
    have a10 := T10.frees
    omega
  · intro p i j hp
    simp (disch := first | assumption | omega) only [c10, c9, c8, c7, c6, c5, c4, c3, c2, c1]
  · intro y x hy hx
    simp only [vget, get_block, embed_matrix, hAm, hBm]
    simp (disch := first | assumption | omega) only [c10, c9, c8, c7, c6, c5, c4, c3, c2, c1, v1]
  · intro y x hy hx
    simp only [vget, get_block, embed_matrix, hAm, hBm]
    simp (disch := first | assumption | omega) only [c10, c9, c8, c7, c6, c5, c4, c3, c2, c1, v2]
  · intro y x hy hx
    simp only [vget, get_block, embed_matrix, hAm, hBm]
    simp (disch := first | assumption | omega) only [c10, c9, c8, c7, c6, c5, c4, c3, c2, c1, v3]
  · intro y x hy hx
    simp only [vget, get_block, embed_matrix, hAm, hBm]
    simp (disch := first | assumption | omega) only [c10, c9, c8, c7, c6, c5, c4, c3, c2, c1, v4]
  · intro y x hy hx
    simp only [vget, get_block, embed_matrix, hAm, hBm]
    simp (disch := first | assumption | omega) only [c10, c9, c8, c7, c6, c5, c4, c3, c2, c1, v5]
  · intro y x hy hx
    simp only [vget, get_block, embed_matrix, hAm, hBm]
    simp (disch := first | assumption | omega) only [c10, c9, c8, c7, c6, c5, c4, c3, c2, c1, v6]
  · intro y x hy hx
    simp only [vget, get_block, embed_matrix, hAm, hBm]
    simp (disch := first | assumption | omega) only [c10, c9, c8, c7, c6, c5, c4, c3, c2, c1, v7]
  · intro y x hy hx
    simp only [vget, get_block, embed_matrix, hAm, hBm]
    simp (disch := first | assumption | omega) only [c10, c9, c8, c7, c6, c5, c4, c3, c2, c1, v8]
  · intro y x hy hx
    simp only [vget, get_block, embed_matrix, hAm, hBm]
    simp (disch := first | assumption | omega) only [c10, c9, c8, c7, c6, c5, c4, c3, c2, c1, v9]
  · intro y x hy hx
    simp only [vget, get_block, embed_matrix, hAm, hBm]
    simp (disch := first | assumption | omega) only [c10, c9, c8, c7, c6, c5, c4, c3, c2, c1, v10]

/-- The seven recursive products `P1 … P7` of one level of the recursion, given
what a call on side `m` does: they succeed, fill the seven temporaries at
`N + 10 … N + 16`, touch no block below `N + 10`, and when `m` splits evenly
each temporary holds the product of its operands. -/
theorem stage_products (A B : sub_matrix_type) (N m K : Nat) (s : Heap R)
    (hA : inBounds s A) (hB : inBounds s B) (hAm : A.n / 2 = m) (hBm : B.n / 2 = m)
    (hS : ∀ i, i < 10 → inBounds s (embed_matrix (N + i) m))
    (hP : ∀ i, i < 7 → inBounds s (embed_matrix (N + 10 + i) m))
    (hAp : A.matrix < N) (hBp : B.matrix < N) (n0 : N + 17 ≤ s.next)
    (ih : ∀ (C A B : sub_matrix_type) (h : Heap R), C.n = m → A.n = m → B.n = m →
      inBounds h C → inBounds h A → inBounds h B →
      ∃ h', strassen_aux C A B h = some h' ∧ Step (written C) K h h' ∧
        (Splits m → (m ≤ 32 → ¬ overlap C A ∧ ¬ overlap C B) →
          ∀ y x, y < m → x < m →
            vget h' C y x = ∑ z in Finset.range m, vget h A y z * vget h B z x)) :
    ∃ s' : Heap R, (∀ k : Heap R → Option (Heap R),
      (andThen (strassen_aux (embed_matrix (N + 10 + 0) m) (get_block A 0 0) (embed_matrix (N + 0) m) s) fun h =>
       andThen (strassen_aux (embed_matrix (N + 10 + 1) m) (embed_matrix (N + 1) m) (get_block B 1 1) h) fun h =>
       andThen (strassen_aux (embed_matrix (N + 10 + 2) m) (embed_matrix (N + 2) m) (get_block B 0 0) h) fun h =>
       andThen (strassen_aux (embed_matrix (N + 10 + 3) m) (get_block A 1 1) (embed_matrix (N + 3) m) h) fun h =>
       andThen (strassen_aux (embed_matrix (N + 10 + 4) m) (embed_matrix (N + 4) m) (embed_matrix (N + 5) m) h) fun h =>
       andThen (strassen_aux (embed_matrix (N + 10 + 5) m) (embed_matrix (N + 6) m) (embed_matrix (N + 7) m) h) fun h =>
       andThen (strassen_aux (embed_matrix (N + 10 + 6) m) (embed_matrix (N + 8) m) (embed_matrix (N + 9) m) h) k) = k s') ∧
      s'.dims = s.dims ∧ s.next ≤ s'.next ∧ s'.allocs = s.allocs + 7 * K ∧
      s'.frees = s.frees + 7 * K ∧
      (∀ p i j, p < N + 10 → s'.cells p i j = s.cells p i j) ∧
      (Splits m →
        (∀ y x, y < m → x < m → vget s' (embed_matrix (N + 10 + 0) m) y x =
          ∑ z in Finset.range m, vget s (get_block A 0 0) y z * vget s (embed_matrix (N + 0) m) z x) ∧
        (∀ y x, y < m → x < m → vget s' (embed_matrix (N + 10 + 1) m) y x =
          ∑ z in Finset.range m, vget s (embed_matrix (N + 1) m) y z * vget s (get_block B 1 1) z x) ∧
        (∀ y x, y < m → x < m → vget s' (embed_matrix (N + 10 + 2) m) y x =
          ∑ z in Finset.range m, vget s (embed_matrix (N + 2) m) y z * vget s (get_block B 0 0) z x) ∧
        (∀ y x, y < m → x < m → vget s' (embed_matrix (N + 10 + 3) m) y x =
          ∑ z in Finset.range m, vget s (get_block A 1 1) y z * vget s (embed_matrix (N + 3) m) z x) ∧
        (∀ y x, y < m → x < m → vget s' (embed_matrix (N + 10 + 4) m) y x =
          ∑ z in Finset.range m, vget s (embed_matrix (N + 4) m) y z * vget s (embed_matrix (N + 5) m) z x) ∧
        (∀ y x, y < m → x < m → vget s' (embed_matrix (N + 10 + 5) m) y x =
          ∑ z in Finset.range m, vget s (embed_matrix (N + 6) m) y z * vget s (embed_matrix (N + 7) m) z x) ∧
        (∀ y x, y < m → x < m → vget s' (embed_matrix (N + 10 + 6) m) y x =
          ∑ z in Finset.range m, vget s (embed_matrix (N + 8) m) y z * vget s (embed_matrix (N + 9) m) z x)) := by
  have d10 : s.dims = s.dims := rfl
  have n10 : N + 17 ≤ s.next := n0
  obtain ⟨s11, e11, U11, v11⟩ := ih
    (embed_matrix (N + 10 + 0) m) (get_block A 0 0) (embed_matrix (N + 0) m) s rfl
    (by simp only [get_block, embed_matrix, hAm, hBm])
    (by simp only [get_block, embed_matrix, hAm, hBm])
    (inBounds_dims _ _ _ d10 (hP 0 (by omega)))
    (inBounds_dims _ _ _ d10 (inBounds_get_block _ _ _ _ (by omega) (by omega) hA))
    (inBounds_dims _ _ _ d10 (hS 0 (by omega)))
  have T11 := U11.mono (written_inRegion _)
  have d11 : s11.dims = s.dims := T11.dims.trans d10
  have n11 : N + 17 ≤ s11.next := le_trans n10 T11.next
  have c11 := T11.frame
  simp only [inRegion, get_block, embed_matrix, hAm, hBm] at c11
  obtain ⟨s12, e12, U12, v12⟩ := ih
    (embed_matrix (N + 10 + 1) m) (embed_matrix (N + 1) m) (get_block B 1 1) s11 rfl
    (by simp only [get_block, embed_matrix, hAm, hBm])
    (by simp only [get_block, embed_matrix, hAm, hBm])
    (inBounds_dims _ _ _ d11 (hP 1 (by omega)))
    (inBounds_dims _ _ _ d11 (hS 1 (by omega)))
    (inBounds_dims _ _ _ d11 (inBounds_get_block _ _ _ _ (by omega) (by omega) hB))
  have T12 := U12.mono (written_inRegion _)
  have d12 : s12.dims = s.dims := T12.dims.trans d11
  have n12 : N + 17 ≤ s12.next := le_trans n11 T12.next
  have c12 := T12.frame
  simp only [inRegion, get_block, embed_matrix, hAm, hBm] at c12
  obtain ⟨s13, e13, U13, v13⟩ := ih
    (embed_matrix (N + 10 + 2) m) (embed_matrix (N + 2) m) (get_block B 0 0) s12 rfl
    (by simp only [get_block, embed_matrix, hAm, hBm])
    (by simp only [get_block, embed_matrix, hAm, hBm])
    (inBounds_dims _ _ _ d12 (hP 2 (by omega)))
    (inBounds_dims _ _ _ d12 (hS 2 (by omega)))
    (inBounds_dims _ _ _ d12 (inBounds_get_block _ _ _ _ (by omega) (by omega) hB))
  have T13 := U13.mono (written_inRegion _)
  have d13 : s13.dims = s.dims := T13.dims.trans d12
  have n13 : N + 17 ≤ s13.next := le_trans n12 T13.next
  have c13 := T13.frame
  simp only [inRegion, get_block, embed_matrix, hAm, hBm] at c13
  obtain ⟨s14, e14, U14, v14⟩ := ih
    (embed_matrix (N + 10 + 3) m) (get_block A 1 1) (embed_matrix (N + 3) m) s13 rfl
    (by simp only [get_block, embed_matrix, hAm, hBm])
    (by simp only [get_block, embed_matrix, hAm, hBm])
    (inBounds_dims _ _ _ d13 (hP 3 (by omega)))
    (inBounds_dims _ _ _ d13 (inBounds_get_block _ _ _ _ (by omega) (by omega) hA))
    (inBounds_dims _ _ _ d13 (hS 3 (by omega)))
  have T14 := U14.mono (written_inRegion _)
  have d14 : s14.dims = s.dims := T14.dims.trans d13
  have n14 : N + 17 ≤ s14.next := le_trans n13 T14.next
  have c14 := T14.frame
  simp only [inRegion, get_block, embed_matrix, hAm, hBm] at c14
  obtain ⟨s15, e15, U15, v15⟩ := ih
    (embed_matrix (N + 10 + 4) m) (embed_matrix (N + 4) m) (embed_matrix (N + 5) m) s14 rfl
    (by simp only [get_block, embed_matrix, hAm, hBm])
    (by simp only [get_block, embed_matrix, hAm, hBm])
    (inBounds_dims _ _ _ d14 (hP 4 (by omega)))
    (inBounds_dims _ _ _ d14 (hS 4 (by omega)))
    (inBounds_dims _ _ _ d14 (hS 5 (by omega)))
  have T15 := U15.mono (written_inRegion _)
  have d15 : s15.dims = s.dims := T15.dims.trans d14
  have n15 : N + 17 ≤ s15.next := le_trans n14 T15.next
  have c15 := T15.frame
  simp only [inRegion, get_block, embed_matrix, hAm, hBm] at c15
  obtain ⟨s16, e16, U16, v16⟩ := ih
    (embed_matrix (N + 10 + 5) m) (embed_matrix (N + 6) m) (embed_matrix (N + 7) m) s15 rfl
    (by simp only [get_block, embed_matrix, hAm, hBm])
    (by simp only [get_block, embed_matrix, hAm, hBm])
    (inBounds_dims _ _ _ d15 (hP 5 (by omega)))
    (inBounds_dims _ _ _ d15 (hS 6 (by omega)))
    (inBounds_dims _ _ _ d15 (hS 7 (by omega)))
  have T16 := U16.mono (written_inRegion _)
  have d16 : s16.dims = s.dims := T16.dims.trans d15
  have n16 : N + 17 ≤ s16.next := le_trans n15 T16.next
  have c16 := T16.frame
  simp only [inRegion, get_block, embed_matrix, hAm, hBm] at c16
  obtain ⟨s17, e17, U17, v17⟩ := ih
    (embed_matrix (N + 10 + 6) m) (embed_matrix (N + 8) m) (embed_matrix (N + 9) m) s16 rfl
    (by simp only [get_block, embed_matrix, hAm, hBm])
    (by simp only [get_block, embed_matrix, hAm, hBm])
    (inBounds_dims _ _ _ d16 (hP 6 (by omega)))
    (inBounds_dims _ _ _ d16 (hS 8 (by omega)))
    (inBounds_dims _ _ _ d16 (hS 9 (by omega)))
  have T17 := U17.mono (written_inRegion _)
  have d17 : s17.dims = s.dims := T17.dims.trans d16
  have n17 : N + 17 ≤ s17.next := le_trans n16 T17.next
  have c17 := T17.frame
  simp only [inRegion, get_block, embed_matrix, hAm, hBm] at c17
  refine ⟨s17, ?_, d17, ?_, ?_, ?_, ?_, ?_⟩
  · intro k
    rw [andThen_some _ e11, andThen_some _ e12, andThen_some _ e13, andThen_some _ e14,
      andThen_some _ e15, andThen_some _ e16, andThen_some _ e17]
  · have a11 := T11.next
    have a12 := T12.next
    have a13 := T13.next
    have a14 := T14.next
    have a15 := T15.next
    have a16 := T16.next
    have a17 := T17.next
    omega
  · have a11 := T11.allocs
    have a12 := T12.allocs
    have a13 := T13.allocs
    have a14 := T14.allocs
    have a15 := T15.allocs
    have a16 := T16.allocs
    have a17 := T17.allocs
    omega
  · have a11 := T11.frees
    have a12 := T12.frees
    have a13 := T13.frees
    have a14 := T14.frees
    have a15 := T15.frees
    have a16 := T16.frees
    have a17 := T17.frees
    omega
  · intro p i j hp
    simp (disch := first | assumption | omega) only [c17, c16, c15, c14, c13, c12, c11]
  · intro hsm
    refine ⟨?_, ?_, ?_, ?_, ?_, ?_, ?_⟩
    · intro y x hy hx
      have V := v11 hsm (fun _ => ⟨by simp only [overlap, get_block, embed_matrix, hAm, hBm]; omega,
        by simp only [overlap, get_block, embed_matrix, hAm, hBm]; omega⟩)
      simp only [vget, get_block, embed_matrix, hAm, hBm] at V
      simp only [vget, get_block, embed_matrix, hAm, hBm]
      simp (disch := first | assumption | omega) only [c17, c16, c15, c14, c13, c12]
      rw [V y x hy hx]
    · intro y x hy hx
      have V := v12 hsm (fun _ => ⟨by simp only [overlap, get_block, embed_matrix, hAm, hBm]; omega,
        by simp only [overlap, get_block, embed_matrix, hAm, hBm]; omega⟩)
      simp only [vget, get_block, embed_matrix, hAm, hBm] at V
      simp only [vget, get_block, embed_matrix, hAm, hBm]
      simp (disch := first | assumption | omega) only [c17, c16, c15, c14, c13]
      rw [V y x hy hx]
      apply Finset.sum_congr rfl
      intro z hz
      rw [Finset.mem_range] at hz
      simp (disch := first | assumption | omega) only [c11]
    · intro y x hy hx
      have V := v13 hsm (fun _ => ⟨by simp only [overlap, get_block, embed_matrix, hAm, hBm]; omega,
        by simp only [overlap, get_block, embed_matrix, hAm, hBm]; omega⟩)
      simp only [vget, get_block, embed_matrix, hAm, hBm] at V
      simp only [vget, get_block, embed_matrix, hAm, hBm]
      simp (disch := first | assumption | omega) only [c17, c16, c15, c14]
      rw [V y x hy hx]
      apply Finset.sum_congr rfl
      intro z hz
      rw [Finset.mem_range] at hz
      simp (disch := first | assumption | omega) only [c12, c11]
    · intro y x hy hx
      have V := v14 hsm (fun _ => ⟨by simp only [overlap, get_block, embed_matrix, hAm, hBm]; omega,
        by simp only [overlap, get_block, embed_matrix, hAm, hBm]; omega⟩)
      simp only [vget, get_block, embed_matrix, hAm, hBm] at V
      simp only [vget, get_block, embed_matrix, hAm, hBm]
      simp (disch := first | assumption | omega) only [c17, c16, c15]
      rw [V y x hy hx]
      apply Finset.sum_congr rfl
      intro z hz
      rw [Finset.mem_range] at hz
      simp (disch := first | assumption | omega) only [c13, c12, c11]
    · intro y x hy hx
      have V := v15 hsm (fun _ => ⟨by simp only [overlap, get_block, embed_matrix, hAm, hBm]; omega,
        by simp only [overlap, get_block, embed_matrix, hAm, hBm]; omega⟩)
      simp only [vget, get_block, embed_matrix, hAm, hBm] at V
      simp only [vget, get_block, embed_matrix, hAm, hBm]
      simp (disch := first | assumption | omega) only [c17, c16]
      rw [V y x hy hx]
      apply Finset.sum_congr rfl
      intro z hz
      rw [Finset.mem_range] at hz
      simp (disch := first | assumption | omega) only [c14, c13, c12, c11]
    · intro y x hy hx
      have V := v16 hsm (fun _ => ⟨by simp only [overlap, get_block, embed_matrix, hAm, hBm]; omega,
        by simp only [overlap, get_block, embed_matrix, hAm, hBm]; omega⟩)
      simp only [vget, get_block, embed_matrix, hAm, hBm] at V
      simp only [vget, get_block, embed_matrix, hAm, hBm]
      simp (disch := first | assumption | omega) only [c17]
      rw [V y x hy hx]
      apply Finset.sum_congr rfl
      intro z hz
      rw [Finset.mem_range] at hz
      simp (disch := first | assumption | omega) only [c15, c14, c13, c12, c11]
    · intro y x hy hx
      have V := v17 hsm (fun _ => ⟨by simp only [overlap, get_block, embed_matrix, hAm, hBm]; omega,
        by simp only [overlap, get_block, embed_matrix, hAm, hBm]; omega⟩)
      simp only [vget, get_block, embed_matrix, hAm, hBm] at V
      simp only [vget, get_block, embed_matrix, hAm, hBm]
      rw [V y x hy hx]
      apply Finset.sum_congr rfl
      intro z hz
      rw [Finset.mem_range] at hz
      simp (disch := first | assumption | omega) only [c16, c15, c14, c13, c12, c11]

/-- The eight sums and differences that combine `P1 … P7` into the four
quadrants of `C`: they succeed, change no cell outside the four quadrants, and
leave each quadrant holding its combination of the products. -/
theorem stage_combine (C : sub_matrix_type) (N m : Nat) (s : Heap R)
    (hC : inBounds s C) (hCm : C.n / 2 = m)
    (hP : ∀ i, i < 7 → inBounds s (embed_matrix (N + 10 + i) m))
    (hCp : C.matrix < N) :
    ∃ s' : Heap R, (∀ k : Heap R → Option (Heap R),
      (andThen (sub_matrix_sum (get_block C 0 0) (embed_matrix (N + 10 + 4) m) (embed_matrix (N + 10 + 3) m) s) fun h =>
       andThen (sub_matrix_subtract (get_block C 0 0) (get_block C 0 0) (embed_matrix (N + 10 + 1) m) h) fun h =>
       andThen (sub_matrix_sum (get_block C 0 0) (get_block C 0 0) (embed_matrix (N + 10 + 5) m) h) fun h =>
       andThen (sub_matrix_sum (get_block C 0 1) (embed_matrix (N + 10 + 0) m) (embed_matrix (N + 10 + 1) m) h) fun h =>
       andThen (sub_matrix_sum (get_block C 1 0) (embed_matrix (N + 10 + 2) m) (embed_matrix (N + 10 + 3) m) h) fun h =>
       andThen (sub_matrix_sum (get_block C 1 1) (embed_matrix (N + 10 + 4) m) (embed_matrix (N + 10 + 0) m) h) fun h =>
       andThen (sub_matrix_subtract (get_block C 1 1) (get_block C 1 1) (embed_matrix (N + 10 + 2) m) h) fun h =>
       andThen (sub_matrix_subtract (get_block C 1 1) (get_block C 1 1) (embed_matrix (N + 10 + 6) m) h) k) = k s') ∧
      s'.dims = s.dims ∧ s'.next = s.next ∧ s'.allocs = s.allocs ∧ s'.frees = s.frees ∧
      (∀ p i j, ¬ inRegion (get_block C 0 0) p i j → ¬ inRegion (get_block C 0 1) p i j →
        ¬ inRegion (get_block C 1 0) p i j → ¬ inRegion (get_block C 1 1) p i j →
        s'.cells p i j = s.cells p i j) ∧
      (∀ y x, y < m → x < m → vget s' (get_block C 0 0) y x =
        vget s (embed_matrix (N + 10 + 4) m) y x + vget s (embed_matrix (N + 10 + 3) m) y x -
          vget s (embed_matrix (N + 10 + 1) m) y x + vget s (embed_matrix (N + 10 + 5) m) y x) ∧
      (∀ y x, y < m → x < m → vget s' (get_block C 0 1) y x =
        vget s (embed_matrix (N + 10 + 0) m) y x + vget s (embed_matrix (N + 10 + 1) m) y x) ∧
      (∀ y x, y < m → x < m → vget s' (get_block C 1 0) y x =
        vget s (embed_matrix (N + 10 + 2) m) y x + vget s (embed_matrix (N + 10 + 3) m) y x) ∧
      (∀ y x, y < m → x < m → vget s' (get_block C 1 1) y x =
        vget s (embed_matrix (N + 10 + 4) m) y x + vget s (embed_matrix (N + 10 + 0) m) y x -
          vget s (embed_matrix (N + 10 + 2) m) y x - vget s (embed_matrix (N + 10 + 6) m) y x) := by
  have d17 : s.dims = s.dims := rfl
  obtain ⟨s18, e18, F18⟩ := sub_matrix_sum_spec
    (get_block C 0 0) (embed_matrix (N + 10 + 4) m) (embed_matrix (N + 10 + 3) m) s
    (inBounds_dims _ _ _ d17 (inBounds_get_block _ _ _ _ (by omega) (by omega) hC))
    (inBounds_dims _ _ _ d17 (hP 4 (by omega)))
    (inBounds_dims _ _ _ d17 (hP 3 (by omega)))
    (by simp only [get_block, embed_matrix, hCm])
    (by simp only [get_block, embed_matrix, hCm])
    (Or.inl (by simp only [overlap, get_block, embed_matrix, hCm]; omega))
    (Or.inl (by simp only [overlap, get_block, embed_matrix, hCm]; omega))
  have T18 := F18.step
  have v18 := F18.vget
  simp only [vget, get_block, embed_matrix, hCm] at v18
  have d18 : s18.dims = s.dims := T18.dims.trans d17
  have c18 := F18.frame
  simp only [inRegion, get_block, embed_matrix, hCm] at c18
  obtain ⟨s19, e19, F19⟩ := sub_matrix_subtract_spec
    (get_block C 0 0) (get_block C 0 0) (embed_matrix (N + 10 + 1) m) s18
    (inBounds_dims _ _ _ d18 (inBounds_get_block _ _ _ _ (by omega) (by omega) hC))
    (inBounds_dims _ _ _ d18 (inBounds_get_block _ _ _ _ (by omega) (by omega) hC))
    (inBounds_dims _ _ _ d18 (hP 1 (by omega)))
    (by simp only [get_block, embed_matrix, hCm])
    (by simp only [get_block, embed_matrix, hCm])
    (Or.inr ⟨rfl, rfl, rfl⟩)
    (Or.inl (by simp only [overlap, get_block, embed_matrix, hCm]; omega))
  have T19 := F19.step
  have v19 := F19.vget
  simp only [vget, get_block, embed_matrix, hCm] at v19
  have d19 : s19.dims = s.dims := T19.dims.trans d18
  have c19 := F19.frame
  simp only [inRegion, get_block, embed_matrix, hCm] at c19
  obtain ⟨s20, e20, F20⟩ := sub_matrix_sum_spec
    (get_block C 0 0) (get_block C 0 0) (embed_matrix (N + 10 + 5) m) s19
    (inBounds_dims _ _ _ d19 (inBounds_get_block _ _ _ _ (by omega) (by omega) hC))
    (inBounds_dims _ _ _ d19 (inBounds_get_block _ _ _ _ (by omega) (by omega) hC))
    (inBounds_dims _ _ _ d19 (hP 5 (by omega)))
    (by simp only [get_block, embed_matrix, hCm])
    (by simp only [get_block, embed_matrix, hCm])
    (Or.inr ⟨rfl, rfl, rfl⟩)
    (Or.inl (by simp only [overlap, get_block, embed_matrix, hCm]; omega))
  have T20 := F20.step
  have v20 := F20.vget
  simp only [vget, get_block, embed_matrix, hCm] at v20
  have d20 : s20.dims = s.dims := T20.dims.trans d19
  have c20 := F20.frame
  simp only [inRegion, get_block, embed_matrix, hCm] at c20
  obtain ⟨s21, e21, F21⟩ := sub_matrix_sum_spec
    (get_block C 0 1) (embed_matrix (N + 10 + 0) m) (embed_matrix (N + 10 + 1) m) s20
    (inBounds_dims _ _ _ d20 (inBounds_get_block _ _ _ _ (by omega) (by omega) hC))
    (inBounds_dims _ _ _ d20 (hP 0 (by omega)))
    (inBounds_dims _ _ _ d20 (hP 1 (by omega)))
    (by simp only [get_block, embed_matrix, hCm])
    (by simp only [get_block, embed_matrix, hCm])
    (Or.inl (by simp only [overlap, get_block, embed_matrix, hCm]; omega))
    (Or.inl (by simp only [overlap, get_block, embed_matrix, hCm]; omega))
  have T21 := F21.step
  have v21 := F21.vget
  simp only [vget, get_block, embed_matrix, hCm] at v21
  have d21 : s21.dims = s.dims := T21.dims.trans d20
  have c21 := F21.frame
  simp only [inRegion, get_block, embed_matrix, hCm] at c21
  obtain ⟨s22, e22, F22⟩ := sub_matrix_sum_spec
    (get_block C 1 0) (embed_matrix (N + 10 + 2) m) (embed_matrix (N + 10 + 3) m) s21
    (inBounds_dims _ _ _ d21 (inBounds_get_block _ _ _ _ (by omega) (by omega) hC))
    (inBounds_dims _ _ _ d21 (hP 2 (by omega)))
    (inBounds_dims _ _ _ d21 (hP 3 (by omega)))
    (by simp only [get_block, embed_matrix, hCm])
    (by simp only [get_block, embed_matrix, hCm])
    (Or.inl (by simp only [overlap, get_block, embed_matrix, hCm]; omega))
    (Or.inl (by simp only [overlap, get_block, embed_matrix, hCm]; omega))
  have T22 := F22.step
  have v22 := F22.vget
  simp only [vget, get_block, embed_matrix, hCm] at v22
  have d22 : s22.dims = s.dims := T22.dims.trans d21
  have c22 := F22.frame
  simp only [inRegion, get_block, embed_matrix, hCm] at c22
  obtain ⟨s23, e23, F23⟩ := sub_matrix_sum_spec
    (get_block C 1 1) (embed_matrix (N + 10 + 4) m) (embed_matrix (N + 10 + 0) m) s22
    (inBounds_dims _ _ _ d22 (inBounds_get_block _ _ _ _ (by omega) (by omega) hC))
    (inBounds_dims _ _ _ d22 (hP 4 (by omega)))
    (inBounds_dims _ _ _ d22 (hP 0 (by omega)))
    (by simp only [get_block, embed_matrix, hCm])
    (by simp only [get_block, embed_matrix, hCm])
    (Or.inl (by simp only [overlap, get_block, embed_matrix, hCm]; omega))
    (Or.inl (by simp only [overlap, get_block, embed_matrix, hCm]; omega))
  have T23 := F23.step
  have v23 := F23.vget
  simp only [vget, get_block, embed_matrix, hCm] at v23
  have d23 : s23.dims = s.dims := T23.dims.trans d22
  have c23 := F23.frame
  simp only [inRegion, get_block, embed_matrix, hCm] at c23
  obtain ⟨s24, e24, F24⟩ := sub_matrix_subtract_spec
    (get_block C 1 1) (get_block C 1 1) (embed_matrix (N + 10 + 2) m) s23
    (inBounds_dims _ _ _ d23 (inBounds_get_block _ _ _ _ (by omega) (by omega) hC))
    (inBounds_dims _ _ _ d23 (inBounds_get_block _ _ _ _ (by omega) (by omega) hC))
    (inBounds_dims _ _ _ d23 (hP 2 (by omega)))
    (by simp only [get_block, embed_matrix, hCm])
    (by simp only [get_block, embed_matrix, hCm])
    (Or.inr ⟨rfl, rfl, rfl⟩)
    (Or.inl (by simp only [overlap, get_block, embed_matrix, hCm]; omega))
  have T24 := F24.step
  have v24 := F24.vget
  simp only [vget, get_block, embed_matrix, hCm] at v24
  have d24 : s24.dims = s.dims := T24.dims.trans d23
  have c24 := F24.frame
  simp only [inRegion, get_block, embed_matrix, hCm] at c24
  obtain ⟨s25, e25, F25⟩ := sub_matrix_subtract_spec
    (get_block C 1 1) (get_block C 1 1) (embed_matrix (N + 10 + 6) m) s24
    (inBounds_dims _ _ _ d24 (inBounds_get_block _ _ _ _ (by omega) (by omega) hC))
    (inBounds_dims _ _ _ d24 (inBounds_get_block _ _ _ _ (by omega) (by omega) hC))
    (inBounds_dims _ _ _ d24 (hP 6 (by omega)))
    (by simp only [get_block, embed_matrix, hCm])
    (by simp only [get_block, embed_matrix, hCm])
    (Or.inr ⟨rfl, rfl, rfl⟩)
    (Or.inl (by simp only [overlap, get_block, embed_matrix, hCm]; omega))
  have T25 := F25.step
  have v25 := F25.vget
  simp only [vget, get_block, embed_matrix, hCm] at v25
  have d25 : s25.dims = s.dims := T25.dims.trans d24
  have c25 := F25.frame
  simp only [inRegion, get_block, embed_matrix, hCm] at c25
  refine ⟨s25, ?_, d25, ?_, ?_, ?_, ?_, ?_, ?_, ?_, ?_⟩
  · intro k
    rw [andThen_some _ e18, andThen_some _ e19, andThen_some _ e20, andThen_some _ e21,
      andThen_some _ e22, andThen_some _ e23, andThen_some _ e24, andThen_some _ e25]
  · have a18 := F18.next
    have a19 := F19.next
    have a20 := F20.next
    have a21 := F21.next
    have a22 := F22.next
    have a23 := F23.next
    have a24 := F24.next
    have a25 := F25.next
    omega
  · have a18 := T18.allocs
    have a19 := T19.allocs
    have a20 := T20.allocs
    have a21 := T21.allocs
    have a22 := T22.allocs
    have a23 := T23.allocs
    have a24 := T24.allocs
    have a25 := T25.allocs
    omega
  · have a18 := T18.frees
    have a19 := T19.frees
    have a20 := T20.frees
    have a21 := T21.frees
    have a22 := T22.frees
    have a23 := T23.frees
    have a24 := T24.frees
    have a25 := T25.frees
    omega
  · intro p i j w11 w12 w21 w22
    simp only [inRegion, get_block, embed_matrix, hCm] at w11 w12 w21 w22
    simp (disch := first | assumption | omega) only [c25, c24, c23, c22, c21, c20, c19, c18]
  · intro y x hy hx
    simp only [vget, get_block, embed_matrix, hCm]
    simp (disch := first | assumption | omega) only [c25, c24, c23, c22, c21, c20, c19, c18, v18, v19, v20, v21, v22, v23, v24, v25]
  · intro y x hy hx
    simp only [vget, get_block, embed_matrix, hCm]
    simp (disch := first | assumption | omega) only [c25, c24, c23, c22, c21, c20, c19, c18, v18, v19, v20, v21, v22, v23, v24, v25]
  · intro y x hy hx
    simp only [vget, get_block, embed_matrix, hCm]
    simp (disch := first | assumption | omega) only [c25, c24, c23, c22, c21, c20, c19, c18, v18, v19, v20, v21, v22, v23, v24, v25]
  · intro y x hy hx
    simp only [vget, get_block, embed_matrix, hCm]
    simp (disch := first | assumption | omega) only [c25, c24, c23, c22, c21, c20, c19, c18, v18, v19, v20, v21, v22, v23, v24, v25]

/-! ## The recursion -/

/-- What a call of `strassen_aux` does, for every side `n`. On views in bounds
of equal side the call returns; it leaves the same blocks live, performs
`17 * calls n` allocations and as many deallocations, and changes, in the
blocks that existed before the call, only cells of the region of `C` (in the
recursive case: of its four quadrants). When moreover `n` splits evenly and,
in the base case, `C` shares no cell with `A` or `B`, the region of `C` holds
the product of `A` and `B`. -/
theorem strassen_aux_spec (n : Nat) : ∀ (C A B : sub_matrix_type) (h : Heap R),
    C.n = n → A.n = n → B.n = n → inBounds h C → inBounds h A → inBounds h B →
    ∃ h', strassen_aux C A B h = some h' ∧ Step (written C) (17 * calls n) h h' ∧
      (Splits n → (n ≤ 32 → ¬ overlap C A ∧ ¬ overlap C B) →
        ∀ y x, y < n → x < n →
          vget h' C y x = ∑ z in Finset.range n, vget h A y z * vget h B z x) := by
  induction n using Nat.strong_induction_on with
  | _ n ih =>
  intro C A B h hCn hAn hBn hC hA hB
  by_cases hn : n ≤ 32
  · have hbase : strassen_aux C A B h = naive_aux C A B h := by
      rw [strassen_aux, dif_pos (by rw [hAn]; simpa using hn)]
    obtain ⟨h', he, hS⟩ := naive_aux_safe C A B h hC hA hB (by omega) (by omega)
    refine ⟨h', by rw [hbase]; exact he, ?_, ?_⟩
    · rw [calls_base n hn]
      refine ⟨hS.dims, hS.next, hS.allocs, hS.frees, fun p i j hp hw => hS.frame p i j hp ?_⟩
      unfold written at hw
      rw [if_pos (by omega)] at hw
      exact hw
    · intro _ hov y x hy hx
      obtain ⟨h'', he', hF⟩ := naive_aux_spec C A B h hC hA hB (by omega) (by omega)
        (hov hn).1 (hov hn).2
      have hsame : h'' = h' := by
        rw [he] at he'
        exact (Option.some.inj he').symm
      subst hsame
      rw [hF.vget y x (by omega) (by omega), hCn]
  · subst hAn
    obtain ⟨m, hm⟩ : ∃ m, A.n / 2 = m := ⟨_, rfl⟩
    have hCm : C.n / 2 = m := by rw [hCn]; exact hm
    have hBm : B.n / 2 = m := by rw [hBn]; exact hm
    have hCp := inBounds_lt h C hC
    have hAp := inBounds_lt h A hA
    have hBp := inBounds_lt h B hB
    obtain ⟨SX, Sc, Sn, Sa, Sf, Sd⟩ :=
      build_sub_matrices_spec 10 m (fun _ => default) h
    obtain ⟨PX, Pc, Pn, Pa, Pf, Pd⟩ :=
      build_sub_matrices_spec 7 m (fun _ => default)
        (build_sub_matrices 10 m (fun _ => default, h)).2
    rw [strassen_aux, dif_neg (by simpa using hn)]
    simp only [hm]
    generalize build_sub_matrices 10 m (fun _ => default, h) = rS at *
    generalize build_sub_matrices 7 m (fun _ => default, rS.2) = rP at *
    obtain ⟨S, hS⟩ := rS
    obtain ⟨P, h1⟩ := rP
    simp only at SX Sc Sn Sa Sf Sd PX Pc Pn Pa Pf Pd
    rw [Sn] at PX Pn Pd
    simp only [SX 0 (by norm_num), SX 1 (by norm_num), SX 2 (by norm_num), SX 3 (by norm_num),
      SX 4 (by norm_num), SX 5 (by norm_num), SX 6 (by norm_num), SX 7 (by norm_num),
      SX 8 (by norm_num), SX 9 (by norm_num), PX 0 (by norm_num), PX 1 (by norm_num),
      PX 2 (by norm_num), PX 3 (by norm_num), PX 4 (by norm_num), PX 5 (by norm_num),
      PX 6 (by norm_num)]
    have bOld : ∀ v, inBounds h v → inBounds h1 v := by
      intro v hv
      have hlt := inBounds_lt h v hv
      obtain ⟨r, c, e, hr, hc⟩ := hv
      refine ⟨r, c, ?_, hr, hc⟩
      rw [Pd, if_neg (by omega), Sd, if_neg (by omega)]
      exact e
    have bS : ∀ i, i < 10 → inBounds h1 (embed_matrix (h.next + i) m) := by
      intro i hi
      refine ⟨m, m, ?_, by simp [embed_matrix], by simp [embed_matrix]⟩
      rw [Pd, if_neg (by simp only [embed_matrix]; omega), Sd,
        if_pos (by simp only [embed_matrix]; omega)]
    have bP : ∀ i, i < 7 → inBounds h1 (embed_matrix (h.next + 10 + i) m) := by
      intro i hi
      refine ⟨m, m, ?_, by simp [embed_matrix], by simp [embed_matrix]⟩
      rw [Pd, if_pos (by simp only [embed_matrix]; omega)]
    have hc1 : h1.cells = h.cells := by rw [Pc, Sc]
    obtain ⟨s10, eS, dS, nS, aS, fS, frS, vS0, vS1, vS2, vS3, vS4, vS5, vS6, vS7, vS8, vS9⟩ :=
      stage_sums A B h.next m h1 (bOld A hA) (bOld B hB) hm hBm bS hAp hBp
    obtain ⟨s17, eP, dP, nP, aP, fP, frP, vP⟩ :=
      stage_products A B h.next m (17 * calls m) s10
        (inBounds_dims _ _ _ dS (bOld A hA)) (inBounds_dims _ _ _ dS (bOld B hB)) hm hBm
        (fun i hi => inBounds_dims _ _ _ dS (bS i hi))
        (fun i hi => inBounds_dims _ _ _ dS (bP i hi)) hAp hBp (by omega)
        (ih m (by omega))
    obtain ⟨s25, eC, dC, nC, aC, fC, frC, vC11, vC12, vC21, vC22⟩ :=
      stage_combine C h.next m s17 (inBounds_dims _ _ _ (dP.trans dS) (bOld C hC)) hCm
        (fun i hi => inBounds_dims _ _ _ (dP.trans dS) (bP i hi)) hCp
    have d25 : s25.dims = h1.dims := dC.trans (dP.trans dS)
    obtain ⟨s26, e26, r1c, r1n, r1a, r1f, r1d⟩ := release_spec 10 m h.next S s25 SX (by
      intro i hi
      rw [d25, Pd, if_neg (by omega), Sd, if_pos (by omega)])
    obtain ⟨h', e27, r2c, r2n, r2a, r2f, r2d⟩ :=
      release_spec 7 m (h.next + 10) P s26 PX (by
        intro i hi
        rw [r1d, if_neg (by omega), d25, Pd, if_pos (by omega)])
    have old : ∀ (v : sub_matrix_type) (y x : Nat), v.matrix < h.next →
        vget s10 v y x = vget h v y x := by
      intro v y x hv
      unfold vget
      rw [frS _ _ _ (Or.inl hv), hc1]
    refine ⟨h', ?_, ⟨?_, ?_, ?_, ?_, ?_⟩, ?_⟩
    · rw [eS, eP, eC, andThen_some _ e26]
      exact e27
    · funext p
      rw [r2d, r1d, d25, Pd, Sd]
      by_cases hp : p < h.next
      · rw [if_neg (by omega), if_neg (by omega), if_neg (by omega), if_neg (by omega)]
      · rw [h.fresh p (by omega)]
        split_ifs <;> rfl
    · omega
    · rw [calls_rec A.n (by omega), hm]
      omega
    · rw [calls_rec A.n (by omega), hm]
      omega
    · intro p i j hp hw
      unfold written at hw
      rw [if_neg (by omega)] at hw
      simp only [not_or] at hw
      obtain ⟨w11, w12, w21, w22⟩ := hw
      rw [r2c, r1c, frC p i j w11 w12 w21 w22, frP p i j (by omega), frS p i j (Or.inl hp), hc1]
    · intro hsp _ y x hy hx
      have hsm : Splits m ∧ A.n % 2 = 0 := by
        cases hsp with
        | base hle => omega
        | step _ heven hs => exact ⟨hm ▸ hs, heven⟩
      obtain ⟨hsm, heven⟩ := hsm
      obtain ⟨p0, p1, p2, p3, p4, p5, p6⟩ := vP hsm
      have e1 : ∀ (v : sub_matrix_type) (y x : Nat), vget h1 v y x = vget h v y x := by
        intro v y x
        unfold vget
        rw [hc1]
      have P0 : ∀ y x, y < m → x < m → vget s17 (embed_matrix (h.next + 10 + 0) m) y x =
          ∑ z in Finset.range m, vget h (get_block A 0 0) y z *
            (vget h (get_block B 0 1) z x - vget h (get_block B 1 1) z x) := by
        intro y x hy hx
        rw [p0 y x hy hx]
        apply Finset.sum_congr rfl
        intro z hz
        rw [Finset.mem_range] at hz
        rw [old (get_block A 0 0) y z hAp, vS0 z x hz hx, e1, e1]
      have P1 : ∀ y x, y < m → x < m → vget s17 (embed_matrix (h.next + 10 + 1) m) y x =
          ∑ z in Finset.range m, (vget h (get_block A 0 0) y z + vget h (get_block A 0 1) y z) *
            vget h (get_block B 1 1) z x := by
        intro y x hy hx
        rw [p1 y x hy hx]
        apply Finset.sum_congr rfl
        intro z hz
        rw [Finset.mem_range] at hz
        rw [vS1 y z hy hz, e1, e1, old (get_block B 1 1) z x hBp]
      have P2 : ∀ y x, y < m → x < m → vget s17 (embed_matrix (h.next + 10 + 2) m) y x =
          ∑ z in Finset.range m, (vget h (get_block A 1 0) y z + vget h (get_block A 1 1) y z) *
            vget h (get_block B 0 0) z x := by
        intro y x hy hx
        rw [p2 y x hy hx]
        apply Finset.sum_congr rfl
        intro z hz
        rw [Finset.mem_range] at hz
        rw [vS2 y z hy hz, e1, e1, old (get_block B 0 0) z x hBp]
      have P3 : ∀ y x, y < m → x < m → vget s17 (embed_matrix (h.next + 10 + 3) m) y x =
          ∑ z in Finset.range m, vget h (get_block A 1 1) y z *
            (vget h (get_block B 1 0) z x - vget h (get_block B 0 0) z x) := by
        intro y x hy hx
        rw [p3 y x hy hx]
        apply Finset.sum_congr rfl
        intro z hz
        rw [Finset.mem_range] at hz
        rw [old (get_block A 1 1) y z hAp, vS3 z x hz hx, e1, e1]
      have P4 : ∀ y x, y < m → x < m → vget s17 (embed_matrix (h.next + 10 + 4) m) y x =
          ∑ z in Finset.range m, (vget h (get_block A 0 0) y z + vget h (get_block A 1 1) y z) *
            (vget h (get_block B 0 0) z x + vget h (get_block B 1 1) z x) := by
        intro y x hy hx
        rw [p4 y x hy hx]
        apply Finset.sum_congr rfl
        intro z hz
        rw [Finset.mem_range] at hz
        rw [vS4 y z hy hz, e1, e1, vS5 z x hz hx, e1, e1]
      have P5 : ∀ y x, y < m → x < m → vget s17 (embed_matrix (h.next + 10 + 5) m) y x =
          ∑ z in Finset.range m, (vget h (get_block A 0 1) y z - vget h (get_block A 1 1) y z) *
            (vget h (get_block B 1 0) z x + vget h (get_block B 1 1) z x) := by
        intro y x hy hx
        rw [p5 y x hy hx]
        apply Finset.sum_congr rfl
        intro z hz
        rw [Finset.mem_range] at hz
        rw [vS6 y z hy hz, e1, e1, vS7 z x hz hx, e1, e1]
      have P6 : ∀ y x, y < m → x < m → vget s17 (embed_matrix (h.next + 10 + 6) m) y x =
          ∑ z in Finset.range m, (vget h (get_block A 0 0) y z - vget h (get_block A 1 0) y z) *
            (vget h (get_block B 0 0) z x + vget h (get_block B 0 1) z x) := by
        intro y x hy hx
        rw [p6 y x hy hx]
        apply Finset.sum_congr rfl
        intro z hz
        rw [Finset.mem_range] at hz
        rw [vS8 y z hy hz, e1, e1, vS9 z x hz hx, e1, e1]
      have hhalf : A.n = m + m := by omega
      have hfin : vget h' C y x = vget s25 C y x := by
        unfold vget
        rw [r2c, r1c]
      rw [hfin, hhalf, sum_range_halves]
      by_cases hy' : y < m <;> by_cases hx' : x < m
      · have hq : vget s25 C y x = vget s25 (get_block C 0 0) y x := by
          simp only [vget, get_block, hCm]
          congr 1 <;> omega
        rw [hq, vC11 y x (by omega) (by omega),
          P4 y x (by omega) (by omega),
          P3 y x (by omega) (by omega),
          P1 y x (by omega) (by omega),
          P5 y x (by omega) (by omega)]
        refine (combine_11 m
          (fun z => vget h (get_block A 0 0) y z)
          (fun z => vget h (get_block A 0 1) y z)
          (fun z => vget h (get_block A 1 1) y z)
          (fun z => vget h (get_block B 0 0) z x)
          (fun z => vget h (get_block B 1 0) z x)
          (fun z => vget h (get_block B 1 1) z x)).trans ?_
        simp only [vget, get_block, hm, hBm]
        congr 1 <;>
          (apply Finset.sum_congr rfl; intro z _; congr 2 <;> omega)
      · have hq : vget s25 C y x = vget s25 (get_block C 0 1) y (x - m) := by
          simp only [vget, get_block, hCm]
          congr 1 <;> omega
        rw [hq, vC12 y (x - m) (by omega) (by omega),
          P0 y (x - m) (by omega) (by omega),
          P1 y (x - m) (by omega) (by omega)]
        refine (combine_12 m
          (fun z => vget h (get_block A 0 0) y z)
          (fun z => vget h (get_block A 0 1) y z)
          (fun z => vget h (get_block B 0 1) z (x - m))
          (fun z => vget h (get_block B 1 1) z (x - m))).trans ?_
        simp only [vget, get_block, hm, hBm]
        congr 1 <;>
          (apply Finset.sum_congr rfl; intro z _; congr 2 <;> omega)
      · have hq : vget s25 C y x = vget s25 (get_block C 1 0) (y - m) x := by
          simp only [vget, get_block, hCm]
          congr 1 <;> omega
        rw [hq, vC21 (y - m) x (by omega) (by omega),
          P2 (y - m) x (by omega) (by omega),
          P3 (y - m) x (by omega) (by omega)]
        refine (combine_21 m
          (fun z => vget h (get_block A 1 0) (y - m) z)
          (fun z => vget h (get_block A 1 1) (y - m) z)
          (fun z => vget h (get_block B 0 0) z x)
          (fun z => vget h (get_block B 1 0) z x)).trans ?_
        simp only [vget, get_block, hm, hBm]
        congr 1 <;>
          (apply Finset.sum_congr rfl; intro z _; congr 2 <;> omega)
      · have hq : vget s25 C y x = vget s25 (get_block C 1 1) (y - m) (x - m) := by
          simp only [vget, get_block, hCm]
          congr 1 <;> omega
        rw [hq, vC22 (y - m) (x - m) (by omega) (by omega),
          P4 (y - m) (x - m) (by omega) (by omega),
          P0 (y - m) (x - m) (by omega) (by omega),
          P2 (y - m) (x - m) (by omega) (by omega),
          P6 (y - m) (x - m) (by omega) (by omega)]
        refine (combine_22 m
          (fun z => vget h (get_block A 0 0) (y - m) z)
          (fun z => vget h (get_block A 1 0) (y - m) z)
          (fun z => vget h (get_block A 1 1) (y - m) z)
          (fun z => vget h (get_block B 0 0) z (x - m))
          (fun z => vget h (get_block B 0 1) z (x - m))
          (fun z => vget h (get_block B 1 1) z (x - m))).trans ?_
        simp only [vget, get_block, hm, hBm]
        congr 1 <;>
          (apply Finset.sum_congr rfl; intro z _; congr 2 <;> omega)

end Main

/-! ## Frames of the loops, without preconditions -/

theorem not_overlap_of_ne (C A : sub_matrix_type) (hne : C.matrix ≠ A.matrix) :
    ¬ overlap C A := fun hov => hne hov.1

/-- A property of the state that every successful iteration keeps holds after
a loop that returned. -/
theorem forLoop_pres {σ : Type} (Q : σ → Prop) (n : Nat) (body : Nat → σ → Option σ)
    (hb : ∀ k a b, k < n → body k a = some b → Q a → Q b) (s t : σ) (hs : Q s)
    (ht : forLoop n body s = some t) : Q t := by
  induction n generalizing t with
  | zero =>
    have hst : s = t := Option.some.inj ht
    exact hst ▸ hs
  | succ k ih =>
    rw [forLoop_succ] at ht
    obtain ⟨a, ha, hat⟩ := Option.bind_eq_some.1 ht
    exact hb k a t (by omega) hat (ih (fun j u v hj => hb j u v (by omega)) a ha)

theorem Heap.write_some (h h' : Heap R) (p i j : Nat) (v : R)
    (hw : h.write p i j v = some h') :
    h'.dims = h.dims ∧ h'.next = h.next ∧ h'.allocs = h.allocs ∧ h'.frees = h.frees ∧
      ∀ p' i' j', ¬ (p' = p ∧ i' = i ∧ j' = j) → h'.cells p' i' j' = h.cells p' i' j' := by
  unfold Heap.write at hw
  split at hw
  · split at hw
    · have heq := Option.some.inj hw
      subst heq
      refine ⟨rfl, rfl, rfl, rfl, ?_⟩
      intro p' i' j' hne
      exact if_neg hne
    · exact Option.noConfusion hw
  · exact Option.noConfusion hw

/-- Whenever `cellLoop n D` returns, it has changed no cell outside the first
`n` rows and columns of `D`, and neither the live blocks nor the counters. -/
theorem cellLoop_frame (n : Nat) (D : sub_matrix_type) (f : Nat → Nat → Heap R → Option R)
    (h h' : Heap R) (he : cellLoop n D f h = some h') :
    h'.dims = h.dims ∧ h'.next = h.next ∧ h'.allocs = h.allocs ∧ h'.frees = h.frees ∧
      ∀ p i j, ¬ (p = D.matrix ∧ D.f_row ≤ i ∧ i < D.f_row + n ∧
        D.f_col ≤ j ∧ j < D.f_col + n) → h'.cells p i j = h.cells p i j := by
  let Q : Heap R → Prop := fun s =>
    s.dims = h.dims ∧ s.next = h.next ∧ s.allocs = h.allocs ∧ s.frees = h.frees ∧
      ∀ p i j, ¬ (p = D.matrix ∧ D.f_row ≤ i ∧ i < D.f_row + n ∧
        D.f_col ≤ j ∧ j < D.f_col + n) → s.cells p i j = h.cells p i j
  refine forLoop_pres Q n _ ?_ h h' ⟨rfl, rfl, rfl, rfl, fun _ _ _ _ => rfl⟩ he
  intro y a b hy hab hQa
  refine forLoop_pres Q n _ ?_ a b hQa hab
  intro x u t hx hut ⟨ud, un, ua, uf, uc⟩
  obtain ⟨v, _, hw⟩ := Option.bind_eq_some.1 hut
  obtain ⟨wd, wn, wa, wf, wc⟩ := Heap.write_some u t _ _ _ v hw
  refine ⟨wd.trans ud, wn.trans un, wa.trans ua, wf.trans uf, ?_⟩
  intro p i j hout
  rw [wc p i j (by omega), uc p i j hout]

/-! ## Resources, without preconditions -/

theorem andThen_inv {α β : Type} {o : Option α} {f : α → Option β} {b : β}
    (hb : andThen o f = some b) : ∃ a, o = some a ∧ f a = some b :=
  Option.bind_eq_some.1 hb

/-- An indexed property of the state that every successful iteration carries
one step further holds at the end of a loop that returned. -/
theorem forLoop_pres_idx {σ : Type} (P : Nat → σ → Prop) (n : Nat)
    (body : Nat → σ → Option σ)
    (hb : ∀ k a b, k < n → body k a = some b → P k a → P (k + 1) b) (s t : σ) (hs : P 0 s)
    (ht : forLoop n body s = some t) : P n t := by
  induction n generalizing t with
  | zero =>
    have hst : s = t := Option.some.inj ht
    exact hst ▸ hs
  | succ k ih =>
    rw [forLoop_succ] at ht
    obtain ⟨a, ha, hat⟩ := Option.bind_eq_some.1 ht
    exact hb k a t (by omega) hat (ih (fun j u v hj => hb j u v (by omega)) a ha)

/-- Whenever the release loop returns, it has freed the `k` consecutive blocks
starting at `N` and nothing else. -/
theorem release_some (k n N : Nat) (X : Nat → sub_matrix_type) (s s' : Heap R)
    (hX : ∀ i, i < k → X i = embed_matrix (N + i) n)
    (hs : forLoop k (fun i h => deallocate_matrix (X i).matrix (X i).n h) s = some s') :
    s'.next = s.next ∧ s'.allocs = s.allocs ∧ s'.frees = s.frees + k ∧
      ∀ p, s'.dims p = if N ≤ p ∧ p < N + k then none else s.dims p := by
  refine forLoop_pres_idx (fun j (t : Heap R) =>
      t.next = s.next ∧ t.allocs = s.allocs ∧ t.frees = s.frees + j ∧
        ∀ p, t.dims p = if N ≤ p ∧ p < N + j then none else s.dims p) k _ ?_ s s'
    ⟨rfl, rfl, rfl, fun p => by rw [if_neg (by omega)]⟩ hs
  intro j a b hj hab ⟨an, aa, af, ad⟩
  beta_reduce at hab
  rw [hX j hj] at hab
  simp only [embed_matrix, deallocate_matrix] at hab
  split at hab
  · split at hab
    · have hba := Option.some.inj hab
      subst hba
      refine ⟨an, aa, by simp only [af]; omega, ?_⟩
      intro p
      show Function.update a.dims (N + j) none p = _
      by_cases hp : p = N + j
      · subst hp
        rw [Function.update_same, if_pos (by omega)]
      · simp only [Function.update_noteq hp, ad]
        by_cases hlt : N ≤ p ∧ p < N + j
        · rw [if_pos hlt, if_pos (by omega)]
        · rw [if_neg hlt, if_neg (by omega)]
    · exact Option.noConfusion hab
  · exact Option.noConfusion hab

section Resources

variable [Ring R]

theorem sub_matrix_sum_some (C A B : sub_matrix_type) (h h' : Heap R)
    (he : sub_matrix_sum C A B h = some h') :
    h'.dims = h.dims ∧ h.next ≤ h'.next ∧ h'.allocs = h.allocs + 0 ∧
      h'.frees = h.frees + 0 := by
  rw [sub_matrix_sum_eq_cellLoop] at he
  obtain ⟨e1, e2, e3, e4, _⟩ := cellLoop_frame C.n C _ h h' he
  exact ⟨e1, by omega, e3, e4⟩

theorem sub_matrix_subtract_some (C A B : sub_matrix_type) (h h' : Heap R)
    (he : sub_matrix_subtract C A B h = some h') :
    h'.dims = h.dims ∧ h.next ≤ h'.next ∧ h'.allocs = h.allocs + 0 ∧
      h'.frees = h.frees + 0 := by
  rw [sub_matrix_subtract_eq_cellLoop] at he
  obtain ⟨e1, e2, e3, e4, _⟩ := cellLoop_frame C.n C _ h h' he
  exact ⟨e1, by omega, e3, e4⟩

theorem naive_aux_some (C A B : sub_matrix_type) (h h' : Heap R)
    (he : naive_aux C A B h = some h') :
    h'.dims = h.dims ∧ h.next ≤ h'.next ∧ h'.allocs = h.allocs + 0 ∧
      h'.frees = h.frees + 0 := by
  have hcl : naive_aux C A B h = cellLoop A.n C (fun y x s =>
      forLoop A.n (fun z value =>
        (s.read A.matrix (y + A.f_row) (z + A.f_col)).bind fun a =>
          (s.read B.matrix (z + B.f_row) (x + B.f_col)).bind fun b => some (value + a * b)) 0) h :=
    rfl
  rw [hcl] at he
  obtain ⟨e1, e2, e3, e4, _⟩ := cellLoop_frame A.n C _ h h' he
  exact ⟨e1, by omega, e3, e4⟩

/-- Whenever a call of `strassen_aux` returns, whatever its arguments, it has
performed `17 * calls A.n` allocations and as many deallocations, and the
blocks live after the call are those live before it. -/
theorem strassen_aux_some (n : Nat) : ∀ (C A B : sub_matrix_type) (h h' : Heap R),
    A.n = n → strassen_aux C A B h = some h' →
    h'.dims = h.dims ∧ h.next ≤ h'.next ∧ h'.allocs = h.allocs + 17 * calls n ∧
      h'.frees = h.frees + 17 * calls n := by
  induction n using Nat.strong_induction_on with
  | _ n ih =>
  intro C A B h h' hAn he
  by_cases hn : n ≤ 32
  · rw [strassen_aux, dif_pos (by rw [hAn]; simpa using hn)] at he
    rw [calls_base n hn]
    exact naive_aux_some C A B h h' he
  · subst hAn
    obtain ⟨m, hm⟩ : ∃ m, A.n / 2 = m := ⟨_, rfl⟩
    obtain ⟨SX, Sc, Sn, Sa, Sf, Sd⟩ :=
      build_sub_matrices_spec 10 m (fun _ => default) h
    obtain ⟨PX, Pc, Pn, Pa, Pf, Pd⟩ :=
      build_sub_matrices_spec 7 m (fun _ => default)
        (build_sub_matrices 10 m (fun _ => default, h)).2
    rw [strassen_aux, dif_neg (by simpa using hn)] at he
    simp only [hm] at he
    generalize build_sub_matrices 10 m (fun _ => default, h) = rS at *
    generalize build_sub_matrices 7 m (fun _ => default, rS.2) = rP at *
    obtain ⟨S, hS⟩ := rS
    obtain ⟨P, h1⟩ := rP
    simp only at SX Sc Sn Sa Sf Sd PX Pc Pn Pa Pf Pd
    rw [Sn] at PX Pn Pd
    simp only [SX 0 (by norm_num), SX 1 (by norm_num), SX 2 (by norm_num), SX 3 (by norm_num),
      SX 4 (by norm_num), SX 5 (by norm_num), SX 6 (by norm_num), SX 7 (by norm_num),
      SX 8 (by norm_num), SX 9 (by norm_num), PX 0 (by norm_num), PX 1 (by norm_num),
      PX 2 (by norm_num), PX 3 (by norm_num), PX 4 (by norm_num), PX 5 (by norm_num),
      PX 6 (by norm_num)] at he
    obtain ⟨s1, e1, he⟩ := andThen_inv he
    obtain ⟨d1, n1, a1, f1⟩ := sub_matrix_subtract_some _ _ _ _ _ e1
    obtain ⟨s2, e2, he⟩ := andThen_inv he
    obtain ⟨d2, n2, a2, f2⟩ := sub_matrix_sum_some _ _ _ _ _ e2
    obtain ⟨s3, e3, he⟩ := andThen_inv he
    obtain ⟨d3, n3, a3, f3⟩ := sub_matrix_sum_some _ _ _ _ _ e3
    obtain ⟨s4, e4, he⟩ := andThen_inv he
    obtain ⟨d4, n4, a4, f4⟩ := sub_matrix_subtract_some _ _ _ _ _ e4
    obtain ⟨s5, e5, he⟩ := andThen_inv he
    obtain ⟨d5, n5, a5, f5⟩ := sub_matrix_sum_some _ _ _ _ _ e5
    obtain ⟨s6, e6, he⟩ := andThen_inv he
    obtain ⟨d6, n6, a6, f6⟩ := sub_matrix_sum_some _ _ _ _ _ e6
    obtain ⟨s7, e7, he⟩ := andThen_inv he
    obtain ⟨d7, n7, a7, f7⟩ := sub_matrix_subtract_some _ _ _ _ _ e7
    obtain ⟨s8, e8, he⟩ := andThen_inv he
    obtain ⟨d8, n8, a8, f8⟩ := sub_matrix_sum_some _ _ _ _ _ e8
    obtain ⟨s9, e9, he⟩ := andThen_inv he
    obtain ⟨d9, n9, a9, f9⟩ := sub_matrix_subtract_some _ _ _ _ _ e9
    obtain ⟨s10, e10, he⟩ := andThen_inv he
    obtain ⟨d10, n10, a10, f10⟩ := sub_matrix_sum_some _ _ _ _ _ e10
    obtain ⟨s11, e11, he⟩ := andThen_inv he
    obtain ⟨d11, n11, a11, f11⟩ := ih m (by omega) _ _ _ _ _
      (by simp only [get_block, embed_matrix, hm]) e11
    obtain ⟨s12, e12, he⟩ := andThen_inv he
    obtain ⟨d12, n12, a12, f12⟩ := ih m (by omega) _ _ _ _ _
      (by simp only [get_block, embed_matrix, hm]) e12
    obtain ⟨s13, e13, he⟩ := andThen_inv he
    obtain ⟨d13, n13, a13, f13⟩ := ih m (by omega) _ _ _ _ _
      (by simp only [get_block, embed_matrix, hm]) e13
    obtain ⟨s14, e14, he⟩ := andThen_inv he
    obtain ⟨d14, n14, a14, f14⟩ := ih m (by omega) _ _ _ _ _
      (by simp only [get_block, embed_matrix, hm]) e14
    obtain ⟨s15, e15, he⟩ := andThen_inv he
    obtain ⟨d15, n15, a15, f15⟩ := ih m (by omega) _ _ _ _ _
      (by simp only [get_block, embed_matrix, hm]) e15
    obtain ⟨s16, e16, he⟩ := andThen_inv he
    obtain ⟨d16, n16, a16, f16⟩ := ih m (by omega) _ _ _ _ _
      (by simp only [get_block, embed_matrix, hm]) e16
    obtain ⟨s17, e17, he⟩ := andThen_inv he
    obtain ⟨d17, n17, a17, f17⟩ := ih m (by omega) _ _ _ _ _
      (by simp only [get_block, embed_matrix, hm]) e17
    obtain ⟨s18, e18, he⟩ := andThen_inv he
    obtain ⟨d18, n18, a18, f18⟩ := sub_matrix_sum_some _ _ _ _ _ e18
    obtain ⟨s19, e19, he⟩ := andThen_inv he
    obtain ⟨d19, n19, a19, f19⟩ := sub_matrix_subtract_some _ _ _ _ _ e19
    obtain ⟨s20, e20, he⟩ := andThen_inv he
    obtain ⟨d20, n20, a20, f20⟩ := sub_matrix_sum_some _ _ _ _ _ e20
    obtain ⟨s21, e21, he⟩ := andThen_inv he
    obtain ⟨d21, n21, a21, f21⟩ := sub_matrix_sum_some _ _ _ _ _ e21
    obtain ⟨s22, e22, he⟩ := andThen_inv he
    obtain ⟨d22, n22, a22, f22⟩ := sub_matrix_sum_some _ _ _ _ _ e22
    obtain ⟨s23, e23, he⟩ := andThen_inv he
    obtain ⟨d23, n23, a23, f23⟩ := sub_matrix_sum_some _ _ _ _ _ e23
    obtain ⟨s24, e24, he⟩ := andThen_inv he
    obtain ⟨d24, n24, a24, f24⟩ := sub_matrix_subtract_some _ _ _ _ _ e24
    obtain ⟨s25, e25, he⟩ := andThen_inv he
    obtain ⟨d25, n25, a25, f25⟩ := sub_matrix_subtract_some _ _ _ _ _ e25
    obtain ⟨s26, e26, he⟩ := andThen_inv he
    obtain ⟨r1n, r1a, r1f, r1d⟩ := release_some 10 m h.next S s25 s26 SX e26
    obtain ⟨r2n, r2a, r2f, r2d⟩ := release_some 7 m (h.next + 10) P s26 h' PX he
    have d25 : s25.dims = h1.dims := by
      rw [d25, d24, d23, d22, d21, d20, d19, d18, d17, d16, d15, d14, d13, d12, d11, d10, d9, d8, d7, d6, d5, d4, d3, d2, d1]
    refine ⟨?_, by omega, ?_, ?_⟩
    · funext p
      rw [r2d, r1d, d25, Pd, Sd]
      by_cases hp : p < h.next
      · rw [if_neg (by omega), if_neg (by omega), if_neg (by omega), if_neg (by omega)]
      · rw [h.fresh p (by omega)]
        split_ifs <;> rfl
    · rw [calls_rec A.n (by omega), hm]
      omega
    · rw [calls_rec A.n (by omega), hm]
      omega

end Resources


/-! ## The entry point -/

section Claims

variable [Ring R]

/-- The entry point on a side that splits evenly, the output block distinct
from the operand blocks: the call returns and leaves in `C` the product. -/
theorem strassen_whole (n : Nat) (hs : Splits n) (C A B : Nat) (h : Heap R)
    (hC : inBounds h (embed_matrix C n)) (hA : inBounds h (embed_matrix A n))
    (hB : inBounds h (embed_matrix B n)) (hCA : C ≠ A) (hCB : C ≠ B) :
    ∃ h', strassen_matrix_multiplication C A B n h = some h' ∧ h'.dims = h.dims ∧
      ∀ y x, y < n → x < n →
        h'.cells C y x = ∑ z in Finset.range n, h.cells A y z * h.cells B z x := by
  obtain ⟨h', he, hstep, hv⟩ :=
    strassen_aux_spec n (embed_matrix C n) (embed_matrix A n) (embed_matrix B n) h rfl rfl rfl
      hC hA hB
  refine ⟨h', he, hstep.dims, ?_⟩
  intro y x hy hx
  have hval := hv hs (fun _ => ⟨not_overlap_of_ne _ _ hCA, not_overlap_of_ne _ _ hCB⟩) y x hy hx
  simpa only [vget, embed_matrix, Nat.add_zero] using hval

/-- C1: for every power of two `n` and all `n × n` matrices `A`, `B` over a
ring, with `C` a block distinct from `A` and `B`, the call
`strassen_matrix_multiplication(C, A, B, n)` returns and leaves in `C` exactly
the matrix product, `C[y][x] = Σ_{z<n} A[y][z] * B[z][x]`; this is the result
`naive_aux` produces on the whole-matrix views. -/
theorem strassen_matrix_multiplication_correct (n : Nat) (hn : ∃ k, n = 2 ^ k)
    (C A B : Nat) (h : Heap R)
    (hC : inBounds h (embed_matrix C n)) (hA : inBounds h (embed_matrix A n))
    (hB : inBounds h (embed_matrix B n)) (hCA : C ≠ A) (hCB : C ≠ B) :
    ∃ h', strassen_matrix_multiplication C A B n h = some h' ∧
      (∀ y x, y < n → x < n →
        h'.cells C y x = ∑ z in Finset.range n, h.cells A y z * h.cells B z x) ∧
      ∃ h'', naive_aux (embed_matrix C n) (embed_matrix A n) (embed_matrix B n) h = some h'' ∧
        ∀ y x, y < n → x < n → h'.cells C y x = h''.cells C y x := by
  obtain ⟨k, rfl⟩ := hn
  obtain ⟨h', he, _, hv⟩ := strassen_whole (2 ^ k) (splits_pow k) C A B h hC hA hB hCA hCB
  obtain ⟨h'', he', hF⟩ := naive_aux_spec (embed_matrix C (2 ^ k)) (embed_matrix A (2 ^ k))
    (embed_matrix B (2 ^ k)) h hC hA hB rfl rfl (not_overlap_of_ne _ _ hCA)
    (not_overlap_of_ne _ _ hCB)
  refine ⟨h', he, hv, h'', he', ?_⟩
  intro y x hy hx
  have hn := hF.vget y x hy hx
  simp only [vget, embed_matrix, Nat.add_zero] at hn
  rw [hv y x hy hx, hn]

/-- Witness of C1: the scenario `n = 2`, `A = [[1,2],[3,4]]`, `B = [[5,6],[7,8]]`
gives `C = [[19,22],[43,50]]`. -/
theorem strassen_matrix_multiplication_correct_witness :
    (∃ k, 2 = 2 ^ k) ∧ inBounds scenario2 (embed_matrix 0 2) ∧
      inBounds scenario2 (embed_matrix 1 2) ∧ inBounds scenario2 (embed_matrix 2 2) ∧
      (0 : Nat) ≠ 1 ∧ (0 : Nat) ≠ 2 ∧
      ∃ h', strassen_matrix_multiplication 0 1 2 2 scenario2 = some h' ∧
        h'.cells 0 0 0 = 19 ∧ h'.cells 0 0 1 = 22 ∧ h'.cells 0 1 0 = 43 ∧
        h'.cells 0 1 1 = 50 := by
  have b0 : inBounds scenario2 (embed_matrix 0 2) := ⟨2, 2, rfl, by decide, by decide⟩
  have b1 : inBounds scenario2 (embed_matrix 1 2) := ⟨2, 2, rfl, by decide, by decide⟩
  have b2 : inBounds scenario2 (embed_matrix 2 2) := ⟨2, 2, rfl, by decide, by decide⟩
  obtain ⟨h', he, hv, _⟩ := strassen_matrix_multiplication_correct 2 ⟨1, rfl⟩ 0 1 2 scenario2
    b0 b1 b2 (by decide) (by decide)
  refine ⟨⟨1, rfl⟩, b0, b1, b2, by decide, by decide, h', he, ?_, ?_, ?_, ?_⟩
  · rw [hv 0 0 (by decide) (by decide)]
    decide
  · rw [hv 0 1 (by decide) (by decide)]
    decide
  · rw [hv 1 0 (by decide) (by decide)]
    decide
  · rw [hv 1 1 (by decide) (by decide)]
    decide

/-! ## The naive multiplier and the base case -/

/-- C2: for all views `A`, `B`, `C` of equal side `n` lying within their
backing matrices, the region of `C` overlapping neither `A` nor `B`,
`naive_aux(C, A, B)` returns and sets `C[y,x] = Σ_{z<n} A[y,z] * B[z,x]` for
every `(y, x)` in `[0,n)²`; every cell of the region of `C` is overwritten, and
the final memory does not depend on what `C` held before. -/
theorem naive_aux_correct (C A B : sub_matrix_type) (h : Heap R)
    (hC : inBounds h C) (hA : inBounds h A) (hB : inBounds h B)
    (hAn : A.n = C.n) (hBn : B.n = C.n) (dA : ¬ overlap C A) (dB : ¬ overlap C B) :
    ∃ h', naive_aux C A B h = some h' ∧
      (∀ y x, y < C.n → x < C.n →
        vget h' C y x = ∑ z in Finset.range C.n, vget h A y z * vget h B z x) ∧
      (∀ p i j, ¬ inRegion C p i j → h'.cells p i j = h.cells p i j) ∧
      ∀ h2 : Heap R, h2.dims = h.dims →
        (∀ p i j, ¬ inRegion C p i j → h2.cells p i j = h.cells p i j) →
        ∃ h2', naive_aux C A B h2 = some h2' ∧ h2'.cells = h'.cells := by
  obtain ⟨h', he, hF⟩ := naive_aux_spec C A B h hC hA hB hAn hBn dA dB
  refine ⟨h', he, fun y x hy hx => hF.vget y x hy hx, fun p i j hout => hF.frame p i j hout, ?_⟩
  intro h2 hd hsame
  obtain ⟨h2', he2, hF2⟩ := naive_aux_spec C A B h2 (inBounds_dims h h2 C hd hC)
    (inBounds_dims h h2 A hd hA) (inBounds_dims h h2 B hd hB) hAn hBn dA dB
  refine ⟨h2', he2, ?_⟩
  have hAeq : ∀ y z, y < C.n → z < C.n → vget h2 A y z = vget h A y z := by
    intro y z hy hz
    apply hsame
    intro hin
    apply dA
    simp only [inRegion] at hin
    simp only [overlap]
    omega
  have hBeq : ∀ z x, z < C.n → x < C.n → vget h2 B z x = vget h B z x := by
    intro z x hz hx
    apply hsame
    intro hin
    apply dB
    simp only [inRegion] at hin
    simp only [overlap]
    omega
  funext p i j
  rw [hF2.cells, hF.cells]
  by_cases hin : inRegion C p i j
  · rw [if_pos hin, if_pos hin]
    obtain ⟨_, h1, h2r, h3, h4⟩ := hin
    apply Finset.sum_congr rfl
    intro z hz
    rw [Finset.mem_range] at hz
    rw [hAeq _ z (by omega) hz, hBeq z _ hz (by omega)]
  · rw [if_neg hin, if_neg hin]
    exact hsame p i j hin

/-- Witness of C2: the scenario `A = [[1,2],[3,4]]`, `B = [[5,6],[7,8]]`. -/
theorem naive_aux_correct_witness :
    inBounds scenario2 (embed_matrix 0 2) ∧ inBounds scenario2 (embed_matrix 1 2) ∧
      inBounds scenario2 (embed_matrix 2 2) ∧
      ¬ overlap (embed_matrix 0 2) (embed_matrix 1 2) ∧
      ¬ overlap (embed_matrix 0 2) (embed_matrix 2 2) ∧
      ∃ h', naive_aux (embed_matrix 0 2) (embed_matrix 1 2) (embed_matrix 2 2) scenario2 =
          some h' ∧
        vget h' (embed_matrix 0 2) 0 0 = 19 ∧ vget h' (embed_matrix 0 2) 1 1 = 50 := by
  have b0 : inBounds scenario2 (embed_matrix 0 2) := ⟨2, 2, rfl, by decide, by decide⟩
  have b1 : inBounds scenario2 (embed_matrix 1 2) := ⟨2, 2, rfl, by decide, by decide⟩
  have b2 : inBounds scenario2 (embed_matrix 2 2) := ⟨2, 2, rfl, by decide, by decide⟩
  obtain ⟨h', he, hv, _⟩ := naive_aux_correct (embed_matrix 0 2) (embed_matrix 1 2)
    (embed_matrix 2 2) scenario2 b0 b1 b2 rfl rfl (by decide) (by decide)
  refine ⟨b0, b1, b2, by decide, by decide, h', he, ?_, ?_⟩
  · rw [hv 0 0 (by decide) (by decide)]
    decide
  · rw [hv 1 1 (by decide) (by decide)]
    decide

/-- C3: for every side `n ≤ 32` (in particular `n = 32`, the threshold) and
all views `C`, `A`, `B` of side `n`, `strassen_aux(C, A, B)` is the call
`naive_aux(C, A, B)`: the same result in the same final memory. When it
returns, it has allocated and freed nothing, and has written no cell outside
the region of `C`. -/
theorem strassen_aux_base_case (n : Nat) (hn : n ≤ 32) (C A B : sub_matrix_type)
    (h : Heap R) (hCn : C.n = n) (hAn : A.n = n) (_hBn : B.n = n) :
    strassen_aux C A B h = naive_aux C A B h ∧
      ∀ h', strassen_aux C A B h = some h' →
        h'.allocs = h.allocs ∧ h'.frees = h.frees ∧ h'.next = h.next ∧
        h'.dims = h.dims ∧ ∀ p i j, ¬ inRegion C p i j → h'.cells p i j = h.cells p i j := by
  have hbase : strassen_aux C A B h = naive_aux C A B h := by
    rw [strassen_aux, dif_pos (by rw [hAn]; simpa using hn)]
  refine ⟨hbase, ?_⟩
  intro h' he
  rw [hbase] at he
  have hcl : naive_aux C A B h = cellLoop A.n C (fun y x s =>
      forLoop A.n (fun z value =>
        (s.read A.matrix (y + A.f_row) (z + A.f_col)).bind fun a =>
          (s.read B.matrix (z + B.f_row) (x + B.f_col)).bind fun b => some (value + a * b)) 0) h :=
    rfl
  rw [hcl] at he
  obtain ⟨e1, e2, e3, e4, e5⟩ := cellLoop_frame A.n C _ h h' he
  refine ⟨e3, e4, e2, e1, ?_⟩
  intro p i j hout
  apply e5
  rw [hAn, ← hCn]
  exact hout

/-- Witness of C3: three views of side 32, exactly the threshold. -/
theorem strassen_aux_base_case_witness :
    32 ≤ 32 ∧ (embed_matrix 0 32).n = 32 ∧ (embed_matrix 1 32).n = 32 ∧
      (embed_matrix 2 32).n = 32 ∧
      strassen_aux (embed_matrix 0 32) (embed_matrix 1 32) (embed_matrix 2 32) scenario32 =
        naive_aux (embed_matrix 0 32) (embed_matrix 1 32) (embed_matrix 2 32) scenario32 :=
  ⟨by decide, rfl, rfl, rfl,
    (strassen_aux_base_case 32 (by decide) (embed_matrix 0 32) (embed_matrix 1 32)
      (embed_matrix 2 32) scenario32 rfl rfl rfl).1⟩

/-! ## The view operations -/

/-- C4: for all views `dest`, `left`, `right` of equal side `n` within bounds,
`sub_matrix_sum` (resp. `sub_matrix_subtract`) returns and writes
`dest[y,x] = left[y,x] + right[y,x]` (resp. `left[y,x] - right[y,x]`) for every
offset `(y, x)` in `[0,n)²`, the operand values being those held before the
call; this holds when the region of `dest` is disjoint from an operand and
when `dest` is the very same view as `left` or as `right`. -/
theorem sub_matrix_sum_subtract_correct (dest left right : sub_matrix_type) (h : Heap R)
    (hD : inBounds h dest) (hL : inBounds h left) (hR : inBounds h right)
    (hLn : left.n = dest.n) (hRn : right.n = dest.n)
    (cL : ¬ overlap dest left ∨ left = dest) (cR : ¬ overlap dest right ∨ right = dest) :
    (∃ h', sub_matrix_sum dest left right h = some h' ∧
      ∀ y x, y < dest.n → x < dest.n →
        vget h' dest y x = vget h left y x + vget h right y x) ∧
    (∃ h', sub_matrix_subtract dest left right h = some h' ∧
      ∀ y x, y < dest.n → x < dest.n →
        vget h' dest y x = vget h left y x - vget h right y x) := by
  have kL : compat dest left := by
    rcases cL with hdis | hsame
    · exact Or.inl hdis
    · exact Or.inr ⟨by rw [hsame], by rw [hsame], by rw [hsame]⟩
  have kR : compat dest right := by
    rcases cR with hdis | hsame
    · exact Or.inl hdis
    · exact Or.inr ⟨by rw [hsame], by rw [hsame], by rw [hsame]⟩
  constructor
  · obtain ⟨h', he, hF⟩ := sub_matrix_sum_spec dest left right h hD hL hR hLn hRn kL kR
    exact ⟨h', he, fun y x hy hx => hF.vget y x hy hx⟩
  · obtain ⟨h', he, hF⟩ := sub_matrix_subtract_spec dest left right h hD hL hR hLn hRn kL kR
    exact ⟨h', he, fun y x hy hx => hF.vget y x hy hx⟩

/-- Witness of C4: the accumulation `A = A - B` on `A = [[1,2],[3,4]]`,
`B = [[5,6],[7,8]]`, where `dest` is the very same view as `left`. -/
theorem sub_matrix_sum_subtract_correct_witness :
    inBounds scenario2 (embed_matrix 1 2) ∧ inBounds scenario2 (embed_matrix 2 2) ∧
      (¬ overlap (embed_matrix 1 2) (embed_matrix 1 2) ∨ embed_matrix 1 2 = embed_matrix 1 2) ∧
      (¬ overlap (embed_matrix 1 2) (embed_matrix 2 2) ∨ embed_matrix 2 2 = embed_matrix 1 2) ∧
      (∃ h', sub_matrix_sum (embed_matrix 1 2) (embed_matrix 1 2) (embed_matrix 2 2) scenario2 =
          some h' ∧
        vget h' (embed_matrix 1 2) 0 0 = 6 ∧ vget h' (embed_matrix 1 2) 1 1 = 12) ∧
      ∃ h', sub_matrix_subtract (embed_matrix 1 2) (embed_matrix 1 2) (embed_matrix 2 2)
          scenario2 = some h' ∧
        vget h' (embed_matrix 1 2) 0 0 = -4 ∧ vget h' (embed_matrix 1 2) 0 1 = -4 := by
  have b1 : inBounds scenario2 (embed_matrix 1 2) := ⟨2, 2, rfl, by decide, by decide⟩
  have b2 : inBounds scenario2 (embed_matrix 2 2) := ⟨2, 2, rfl, by decide, by decide⟩
  obtain ⟨⟨hs, hes, hvs⟩, ⟨hd, hed, hvd⟩⟩ := sub_matrix_sum_subtract_correct (embed_matrix 1 2)
    (embed_matrix 1 2) (embed_matrix 2 2) scenario2 b1 b1 b2 rfl rfl (Or.inr rfl)
    (Or.inl (by decide))
  refine ⟨b1, b2, Or.inr rfl, Or.inl (by decide), ⟨hs, hes, ?_, ?_⟩, hd, hed, ?_, ?_⟩
  · rw [hvs 0 0 (by decide) (by decide)]
    decide
  · rw [hvs 1 1 (by decide) (by decide)]
    decide
  · rw [hvd 0 0 (by decide) (by decide)]
    decide
  · rw [hvd 0 1 (by decide) (by decide)]
    decide

/-- C5: for every view `v` and all `i`, `j` (in particular `i, j ∈ {0,1}`),
`get_block(v, i, j)` is the view with the same backing matrix, side
`half = v.n / 2` (integer division), first row `v.f_row + i * half` and first
column `v.f_col + j * half`; so `(0,0)` is the top-left, `(0,1)` the top-right,
`(1,0)` the bottom-left and `(1,1)` the bottom-right quadrant. -/
theorem get_block_correct (v : sub_matrix_type) (i j : Nat) :
    get_block v i j =
        { f_row := v.f_row + i * (v.n / 2), f_col := v.f_col + j * (v.n / 2),
          matrix := v.matrix, n := v.n / 2 } ∧
      get_block v 0 0 =
        { f_row := v.f_row, f_col := v.f_col, matrix := v.matrix, n := v.n / 2 } ∧
      get_block v 0 1 =
        { f_row := v.f_row, f_col := v.f_col + v.n / 2, matrix := v.matrix, n := v.n / 2 } ∧
      get_block v 1 0 =
        { f_row := v.f_row + v.n / 2, f_col := v.f_col, matrix := v.matrix, n := v.n / 2 } ∧
      get_block v 1 1 =
        { f_row := v.f_row + v.n / 2, f_col := v.f_col + v.n / 2, matrix := v.matrix,
          n := v.n / 2 } := by
  refine ⟨rfl, ?_, ?_, ?_, ?_⟩ <;> simp [get_block]

/-- C10: `embed_matrix(M, n)` is the view with first row 0, first column 0,
side `n` and backing matrix `M`, and `strassen_matrix_multiplication(C, A, B, n)`
is exactly `strassen_aux` applied to the three whole-matrix views
`embed_matrix(C, n)`, `embed_matrix(A, n)`, `embed_matrix(B, n)`. -/
theorem strassen_matrix_multiplication_unfold (C A B n : Nat) (h : Heap R) :
    embed_matrix C n = { f_row := 0, f_col := 0, matrix := C, n := n } ∧
      strassen_matrix_multiplication C A B n h =
        strassen_aux (embed_matrix C n) (embed_matrix A n) (embed_matrix B n) h :=
  ⟨rfl, rfl⟩

/-! ## Zero and identity operands -/

/-- C6, as amended: for every side `n` that the recursion halves without
remainder (`Splits n`: `n ≤ 32`, or `n` even and `n / 2` again such a side;
every power of two is one), multiplying by the `n × n` zero matrix with
`strassen_matrix_multiplication`, zero as the left or as the right operand,
`C` a distinct block with arbitrary previous contents, leaves `C` equal to the
`n × n` zero matrix. -/
theorem strassen_zero (n : Nat) (hs : Splits n) (C A B : Nat) (h : Heap R)
    (hC : inBounds h (embed_matrix C n)) (hA : inBounds h (embed_matrix A n))
    (hB : inBounds h (embed_matrix B n)) (hCA : C ≠ A) (hCB : C ≠ B) :
    ((∀ y x, y < n → x < n → h.cells A y x = 0) →
      ∃ h', strassen_matrix_multiplication C A B n h = some h' ∧
        ∀ y x, y < n → x < n → h'.cells C y x = 0) ∧
    ((∀ y x, y < n → x < n → h.cells B y x = 0) →
      ∃ h', strassen_matrix_multiplication C A B n h = some h' ∧
        ∀ y x, y < n → x < n → h'.cells C y x = 0) := by
  obtain ⟨h', he, _, hv⟩ := strassen_whole n hs C A B h hC hA hB hCA hCB
  constructor
  · intro hz
    refine ⟨h', he, ?_⟩
    intro y x hy hx
    rw [hv y x hy hx]
    apply Finset.sum_eq_zero
    intro z hzr
    rw [Finset.mem_range] at hzr
    rw [hz y z hy hzr, zero_mul]
  · intro hz
    refine ⟨h', he, ?_⟩
    intro y x hy hx
    rw [hv y x hy hx]
    apply Finset.sum_eq_zero
    intro z hzr
    rw [Finset.mem_range] at hzr
    rw [hz z x hzr hx, mul_zero]

/-- Witness of C6 as amended: the `2 × 2` zero matrix as the left operand. -/
theorem strassen_zero_witness :
    Splits 2 ∧ inBounds scenarioZero (embed_matrix 0 2) ∧
      inBounds scenarioZero (embed_matrix 1 2) ∧ inBounds scenarioZero (embed_matrix 2 2) ∧
      (∀ y x, y < 2 → x < 2 → scenarioZero.cells 1 y x = 0) ∧
      ∃ h', strassen_matrix_multiplication 0 1 2 2 scenarioZero = some h' ∧
        ∀ y x, y < 2 → x < 2 → h'.cells 0 y x = 0 :=
  have b0 : inBounds scenarioZero (embed_matrix 0 2) := ⟨2, 2, rfl, by decide, by decide⟩
  have b1 : inBounds scenarioZero (embed_matrix 1 2) := ⟨2, 2, rfl, by decide, by decide⟩
  have b2 : inBounds scenarioZero (embed_matrix 2 2) := ⟨2, 2, rfl, by decide, by decide⟩
  ⟨Splits.base (by decide), b0, b1, b2, fun _ _ _ _ => rfl,
    (strassen_zero 2 (Splits.base (by decide)) 0 1 2 scenarioZero b0 b1 b2 (by decide)
      (by decide)).1 (fun _ _ _ _ => rfl)⟩

/-- C6 as stated fails at `n = 33`: with `A` and `B` the `33 × 33` zero matrix
and `C` holding `7` everywhere, the call returns and `C[32][32]` is still `7`:
the four quadrants of side 16 do not cover the last row and column. -/
theorem strassen_zero_counterexample :
    inBounds scenario33 (embed_matrix 0 33) ∧ inBounds scenario33 (embed_matrix 1 33) ∧
      inBounds scenario33 (embed_matrix 2 33) ∧
      (∀ y x, scenario33.cells 1 y x = 0) ∧ (∀ y x, scenario33.cells 2 y x = 0) ∧
      ∃ h', strassen_matrix_multiplication 0 1 2 33 scenario33 = some h' ∧
        h'.cells 0 32 32 = 7 ∧
        ¬ ∀ y x, y < 33 → x < 33 → h'.cells 0 y x = 0 := by
  have b0 : inBounds scenario33 (embed_matrix 0 33) := ⟨33, 33, rfl, by decide, by decide⟩
  have b1 : inBounds scenario33 (embed_matrix 1 33) := ⟨33, 33, rfl, by decide, by decide⟩
  have b2 : inBounds scenario33 (embed_matrix 2 33) := ⟨33, 33, rfl, by decide, by decide⟩
  obtain ⟨h', he, hstep, _⟩ := strassen_aux_spec 33 (embed_matrix 0 33) (embed_matrix 1 33)
    (embed_matrix 2 33) scenario33 rfl rfl rfl b0 b1 b2
  have hkeep : h'.cells 0 32 32 = 7 := by
    rw [hstep.frame 0 32 32 (by decide)]
    · rfl
    · intro hw
      unfold written at hw
      rw [if_neg (by decide)] at hw
      simp only [inRegion, get_block, embed_matrix] at hw
      omega
  refine ⟨b0, b1, b2, fun _ _ => rfl, fun _ _ => rfl, h', he, hkeep, ?_⟩
  intro hall
  have h0 := hall 32 32 (by decide) (by decide)
  rw [hkeep] at h0
  exact absurd h0 (by decide)

/-- C7: for every power of two `n` and every `n × n` matrix `A` over a ring,
`strassen_matrix_multiplication` with the identity matrix as one operand
returns the other operand: `C = A` for `A × I` and for `I × A`; in particular
for `A = I` the result is the identity. -/
theorem strassen_identity (n : Nat) (hn : ∃ k, n = 2 ^ k) (C A I : Nat) (h : Heap R)
    (hC : inBounds h (embed_matrix C n)) (hA : inBounds h (embed_matrix A n))
    (hI : inBounds h (embed_matrix I n)) (hCA : C ≠ A) (hCI : C ≠ I)
    (hid : ∀ y x, y < n → x < n → h.cells I y x = if y = x then 1 else 0) :
    (∃ h', strassen_matrix_multiplication C A I n h = some h' ∧
      ∀ y x, y < n → x < n → h'.cells C y x = h.cells A y x) ∧
    (∃ h', strassen_matrix_multiplication C I A n h = some h' ∧
      ∀ y x, y < n → x < n → h'.cells C y x = h.cells A y x) := by
  obtain ⟨k, rfl⟩ := hn
  constructor
  · obtain ⟨h', he, _, hv⟩ := strassen_whole (2 ^ k) (splits_pow k) C A I h hC hA hI hCA hCI
    refine ⟨h', he, ?_⟩
    intro y x hy hx
    rw [hv y x hy hx, Finset.sum_eq_single x]
    · rw [hid x x hx hx, if_pos rfl, mul_one]
    · intro z hz hzx
      rw [Finset.mem_range] at hz
      rw [hid z x hz hx, if_neg hzx, mul_zero]
    · intro hx'
      exact absurd (Finset.mem_range.2 hx) hx'
  · obtain ⟨h', he, _, hv⟩ := strassen_whole (2 ^ k) (splits_pow k) C I A h hC hI hA hCI hCA
    refine ⟨h', he, ?_⟩
    intro y x hy hx
    rw [hv y x hy hx, Finset.sum_eq_single y]
    · rw [hid y y hy hy, if_pos rfl, one_mul]
    · intro z hz hzy
      rw [Finset.mem_range] at hz
      rw [hid y z hy hz, if_neg (fun e => hzy e.symm), zero_mul]
    · intro hy'
      exact absurd (Finset.mem_range.2 hy) hy'

/-- Witness of C7: the scenario `n = 4`, `A = B = identity` gives
`C = identity`. -/
theorem strassen_identity_witness :
    (∃ k, 4 = 2 ^ k) ∧ inBounds scenario4 (embed_matrix 0 4) ∧
      inBounds scenario4 (embed_matrix 1 4) ∧ inBounds scenario4 (embed_matrix 2 4) ∧
      (∀ y x, y < 4 → x < 4 → scenario4.cells 2 y x = if y = x then 1 else 0) ∧
      ∃ h', strassen_matrix_multiplication 0 1 2 4 scenario4 = some h' ∧
        ∀ y x, y < 4 → x < 4 → h'.cells 0 y x = if y = x then 1 else 0 := by
  have b0 : inBounds scenario4 (embed_matrix 0 4) := ⟨4, 4, rfl, by decide, by decide⟩
  have b1 : inBounds scenario4 (embed_matrix 1 4) := ⟨4, 4, rfl, by decide, by decide⟩
  have b2 : inBounds scenario4 (embed_matrix 2 4) := ⟨4, 4, rfl, by decide, by decide⟩
  have hid : ∀ y x, y < 4 → x < 4 → scenario4.cells 2 y x = if y = x then 1 else 0 :=
    fun _ _ _ _ => rfl
  obtain ⟨⟨h', he, hv⟩, _⟩ := strassen_identity 4 ⟨2, rfl⟩ 0 1 2 scenario4 b0 b1 b2
    (by decide) (by decide) hid
  refine ⟨⟨2, rfl⟩, b0, b1, b2, hid, h', he, ?_⟩
  intro y x hy hx
  rw [hv y x hy hx]
  rfl

/-! ## Frame and resources -/

/-- C8: for every power of two `n`, when `C` is a view of side `n` located
anywhere inside a backing matrix whose block is distinct from the blocks of
`A` and `B`, `strassen_aux(C, A, B)` returns, writes the product `A × B` into
the region of `C`, leaves every cell outside that region unchanged in every
block that existed before the call (so in the backing matrix of `C`), and
leaves the backing matrices of `A` and `B` unchanged. -/
theorem strassen_aux_frame (n : Nat) (hn : ∃ k, n = 2 ^ k) (C A B : sub_matrix_type)
    (h : Heap R) (hCn : C.n = n) (hAn : A.n = n) (hBn : B.n = n)
    (hC : inBounds h C) (hA : inBounds h A) (hB : inBounds h B)
    (hCA : C.matrix ≠ A.matrix) (hCB : C.matrix ≠ B.matrix) :
    ∃ h', strassen_aux C A B h = some h' ∧
      (∀ y x, y < n → x < n →
        vget h' C y x = ∑ z in Finset.range n, vget h A y z * vget h B z x) ∧
      (∀ p i j, p < h.next → ¬ inRegion C p i j → h'.cells p i j = h.cells p i j) ∧
      (∀ i j, h'.cells A.matrix i j = h.cells A.matrix i j) ∧
      (∀ i j, h'.cells B.matrix i j = h.cells B.matrix i j) := by
  obtain ⟨k, rfl⟩ := hn
  obtain ⟨h', he, hstep, hv⟩ := strassen_aux_spec (2 ^ k) C A B h hCn hAn hBn hC hA hB
  have hframe : ∀ p i j, p < h.next → ¬ inRegion C p i j →
      h'.cells p i j = h.cells p i j :=
    fun p i j hp hout => hstep.frame p i j hp (fun hw => hout (written_inRegion C p i j hw))
  refine ⟨h', he,
    hv (splits_pow k) (fun _ => ⟨not_overlap_of_ne _ _ hCA, not_overlap_of_ne _ _ hCB⟩),
    hframe, ?_, ?_⟩
  · intro i j
    exact hframe A.matrix i j (inBounds_lt h A hA) (fun hin => hCA hin.1.symm)
  · intro i j
    exact hframe B.matrix i j (inBounds_lt h B hB) (fun hin => hCB hin.1.symm)

/-- Witness of C8: `C` the bottom-right `2 × 2` quadrant of a `4 × 4` matrix,
`A` and `B` the top-left quadrants of two other `4 × 4` matrices. -/
theorem strassen_aux_frame_witness :
    (∃ k, 2 = 2 ^ k) ∧ inBounds scenario4 (get_block (embed_matrix 0 4) 1 1) ∧
      inBounds scenario4 (get_block (embed_matrix 1 4) 0 0) ∧
      inBounds scenario4 (get_block (embed_matrix 2 4) 0 0) ∧
      ∃ h', strassen_aux (get_block (embed_matrix 0 4) 1 1) (get_block (embed_matrix 1 4) 0 0)
          (get_block (embed_matrix 2 4) 0 0) scenario4 = some h' ∧
        h'.cells 0 0 0 = 9 ∧ h'.cells 0 1 3 = 9 ∧ h'.cells 1 0 0 = 1 := by
  have b0 : inBounds scenario4 (get_block (embed_matrix 0 4) 1 1) :=
    ⟨4, 4, rfl, by decide, by decide⟩
  have b1 : inBounds scenario4 (get_block (embed_matrix 1 4) 0 0) :=
    ⟨4, 4, rfl, by decide, by decide⟩
  have b2 : inBounds scenario4 (get_block (embed_matrix 2 4) 0 0) :=
    ⟨4, 4, rfl, by decide, by decide⟩
  obtain ⟨h', he, _, hframe, hAsame, _⟩ := strassen_aux_frame 2 ⟨1, rfl⟩
    (get_block (embed_matrix 0 4) 1 1) (get_block (embed_matrix 1 4) 0 0)
    (get_block (embed_matrix 2 4) 0 0) scenario4 rfl rfl rfl b0 b1 b2 (by decide) (by decide)
  refine ⟨⟨1, rfl⟩, b0, b1, b2, h', he, ?_, ?_, ?_⟩
  · rw [hframe 0 0 0 (by decide) (by decide)]
    rfl
  · rw [hframe 0 1 3 (by decide) (by decide)]
    rfl
  · exact hAsame 0 0

/-- C9: with the allocation counters of the memory, every call
`strassen_aux(C, A, B)` (any side `n`) that returns has performed exactly as
many `deallocate_matrix` calls as `allocate_matrix` calls over its whole call
tree, `17 * calls n` of each: a base-case call allocates nothing, a recursive
call allocates 17 temporaries (10 `S` and 7 `P`, each with `A.n / 2` rows) and
releases those 17 with the row count they were allocated with, on top of what
its seven recursive calls do. The blocks live after the call are those live
before it: no temporary outlives the call. And on views in bounds of equal
side the call does return. -/
theorem strassen_aux_alloc_balance (n : Nat) (C A B : sub_matrix_type) (h : Heap R)
    (hAn : A.n = n) :
    (∀ h', strassen_aux C A B h = some h' →
      h'.allocs = h.allocs + 17 * calls n ∧ h'.frees = h.frees + 17 * calls n ∧
      h'.allocs - h.allocs = h'.frees - h.frees ∧ h'.dims = h.dims) ∧
    (C.n = n → B.n = n → inBounds h C → inBounds h A → inBounds h B →
      ∃ h', strassen_aux C A B h = some h') ∧
    (n ≤ 32 → calls n = 0) ∧ (32 < n → calls n = 1 + 7 * calls (n / 2)) := by
  refine ⟨?_, ?_, calls_base n, calls_rec n⟩
  · intro h' he
    obtain ⟨hd, _, ha, hf⟩ := strassen_aux_some n C A B h h' hAn he
    refine ⟨ha, hf, ?_, hd⟩
    rw [ha, hf]
    omega
  · intro hCn hBn hC hA hB
    obtain ⟨h', he, _⟩ := strassen_aux_spec n C A B h hCn hAn hBn hC hA hB
    exact ⟨h', he⟩

/-- Witness of C9: one recursive level, `n = 64`: 17 allocations, 17
deallocations, the same blocks live. -/
theorem strassen_aux_alloc_balance_witness :
    (embed_matrix 1 64).n = 64 ∧ inBounds scenario64 (embed_matrix 0 64) ∧
      inBounds scenario64 (embed_matrix 1 64) ∧ inBounds scenario64 (embed_matrix 2 64) ∧
      ∃ h', strassen_aux (embed_matrix 0 64) (embed_matrix 1 64) (embed_matrix 2 64)
          scenario64 = some h' ∧
        h'.allocs = 17 ∧ h'.frees = 17 ∧ h'.dims = scenario64.dims := by
  have b0 : inBounds scenario64 (embed_matrix 0 64) := ⟨64, 64, rfl, by decide, by decide⟩
  have b1 : inBounds scenario64 (embed_matrix 1 64) := ⟨64, 64, rfl, by decide, by decide⟩
  have b2 : inBounds scenario64 (embed_matrix 2 64) := ⟨64, 64, rfl, by decide, by decide⟩
  obtain ⟨hbal, hret, _, hrec⟩ := strassen_aux_alloc_balance 64 (embed_matrix 0 64)
    (embed_matrix 1 64) (embed_matrix 2 64) scenario64 rfl
  obtain ⟨h', he⟩ := hret rfl rfl b0 b1 b2
  obtain ⟨ha, hf, _, hd⟩ := hbal h' he
  have hcalls : calls 64 = 1 := by
    rw [hrec (by decide), calls_base (64 / 2) (by decide)]
  rw [hcalls] at ha hf
  exact ⟨rfl, b0, b1, b2, h', he, ha, hf, hd⟩

/-! ## The seven-product identity -/

end Claims

/-! ## The baseline of `matrix.c` -/

/-- C13: the public baseline `naive_matrix_multiplication(C, A, B, n)` is a
stub: for every input it returns with the memory exactly as it was, so `C`,
`A` and `B` are unchanged; it therefore does not compute the product: on
`A = [[1,2],[3,4]]`, `B = [[5,6],[7,8]]` the entry `C[0][0]` is not `19`. -/
theorem naive_matrix_multiplication_stub :
    (∀ (C A B n : Nat) (h : Heap R), naive_matrix_multiplication C A B n h = some h) ∧
      ∃ h', naive_matrix_multiplication 0 1 2 2 scenario2 = some h' ∧
        h'.cells 0 0 0 = scenario2.cells 0 0 0 ∧
        h'.cells 0 0 0 ≠ ∑ z in Finset.range 2, scenario2.cells 1 0 z * scenario2.cells 2 z 0 :=
  ⟨fun _ _ _ _ _ => rfl, scenario2, rfl, rfl, by decide⟩

theorem same_matrix_row_spec [DecidableEq R] (h : Heap R) (A B i rA cA rB cB : Nat)
    (dA : h.dims A = some (rA, cA)) (dB : h.dims B = some (rB, cB))
    (hiA : i < rA) (hiB : i < rB) (k : Nat) :
    ∀ j, j + k ≤ cA → j + k ≤ cB →
      (same_matrix_row h A B i k j = some true ∧
        ∀ c, j ≤ c → c < j + k → h.cells A i c = h.cells B i c) ∨
      (same_matrix_row h A B i k j = some false ∧
        ∃ c, j ≤ c ∧ c < j + k ∧ h.cells A i c ≠ h.cells B i c) := by
  induction k with
  | zero =>
    intro j _ _
    exact Or.inl ⟨rfl, fun c h1 h2 => absurd h2 (by omega)⟩
  | succ k ih =>
    intro j hA hB
    have hstep : same_matrix_row h A B i (k + 1) j =
        if h.cells A i j ≠ h.cells B i j then some false
        else same_matrix_row h A B i k (j + 1) := by
      rw [same_matrix_row, Heap.read_eq h A i j rA cA dA hiA (by omega),
        Heap.read_eq h B i j rB cB dB hiB (by omega)]
      rfl
    rw [hstep]
    by_cases hne : h.cells A i j ≠ h.cells B i j
    · rw [if_pos hne]
      exact Or.inr ⟨rfl, j, Nat.le_refl j, by omega, hne⟩
    · rw [if_neg hne]
      rcases ih (j + 1) (by omega) (by omega) with ⟨he, hall⟩ | ⟨he, c, h1, h2, h3⟩
      · refine Or.inl ⟨he, ?_⟩
        intro c h1 h2
        by_cases hc : c = j
        · rw [hc]
          exact not_not.1 hne
        · exact hall c (by omega) (by omega)
      · exact Or.inr ⟨he, c, by omega, by omega, h3⟩

theorem same_matrix_rows_spec [DecidableEq R] (h : Heap R) (A B cols rA cA rB cB : Nat)
    (dA : h.dims A = some (rA, cA)) (dB : h.dims B = some (rB, cB))
    (hcA : cols ≤ cA) (hcB : cols ≤ cB) (k : Nat) :
    ∀ i, i + k ≤ rA → i + k ≤ rB →
      (same_matrix_rows h A B cols k i = some 1 ∧
        ∀ r c, i ≤ r → r < i + k → c < cols → h.cells A r c = h.cells B r c) ∨
      (same_matrix_rows h A B cols k i = some 0 ∧
        ∃ r c, i ≤ r ∧ r < i + k ∧ c < cols ∧ h.cells A r c ≠ h.cells B r c) := by
  induction k with
  | zero =>
    intro i _ _
    exact Or.inl ⟨rfl, fun r c h1 h2 => absurd h2 (by omega)⟩
  | succ k ih =>
    intro i hA hB
    rcases same_matrix_row_spec h A B i rA cA rB cB dA dB (by omega) (by omega) cols 0
        (by omega) (by omega) with ⟨he, hall⟩ | ⟨he, c, _, h2, h3⟩
    · have hstep : same_matrix_rows h A B cols (k + 1) i =
          same_matrix_rows h A B cols k (i + 1) := by
        rw [same_matrix_rows, he]
        rfl
      rw [hstep]
      rcases ih (i + 1) (by omega) (by omega) with ⟨hr, hrest⟩ | ⟨hr, r, c, h1, h2, h3, h4⟩
      · refine Or.inl ⟨hr, ?_⟩
        intro r c h1 h2 h3
        by_cases hri : r = i
        · rw [hri]
          exact hall c (Nat.zero_le c) (by omega)
        · exact hrest r c (by omega) (by omega) h3
      · exact Or.inr ⟨hr, r, c, by omega, by omega, h3, h4⟩
    · have hstep : same_matrix_rows h A B cols (k + 1) i = some 0 := by
        rw [same_matrix_rows, he]
        rfl
      rw [hstep]
      exact Or.inr ⟨rfl, i, c, Nat.le_refl i, by omega, by omega, h3⟩

/-- C14: for all matrices `A`, `B` holding at least `rows × cols` cells,
`same_matrix(A, B, rows, cols)` returns 1 if and only if `A[i][j] = B[i][j]`
for every `i < rows` and `j < cols`, and returns 0 otherwise; so it returns 1
when `rows = 0` or `cols = 0`. It only reads: its result is a value, the
memory is not part of it. -/
theorem same_matrix_correct [DecidableEq R] (A B rows cols : Nat) (h : Heap R)
    (rA cA rB cB : Nat) (dA : h.dims A = some (rA, cA)) (dB : h.dims B = some (rB, cB))
    (hrA : rows ≤ rA) (hcA : cols ≤ cA) (hrB : rows ≤ rB) (hcB : cols ≤ cB) :
    (same_matrix A B rows cols h = some 1 ↔
      ∀ i j, i < rows → j < cols → h.cells A i j = h.cells B i j) ∧
    (same_matrix A B rows cols h = some 0 ↔
      ¬ ∀ i j, i < rows → j < cols → h.cells A i j = h.cells B i j) ∧
    (same_matrix A B rows cols h = some 1 ∨ same_matrix A B rows cols h = some 0) ∧
    (rows = 0 ∨ cols = 0 → same_matrix A B rows cols h = some 1) := by
  have hone : (1 : Int) ≠ 0 := by decide
  have key := same_matrix_rows_spec h A B cols rA cA rB cB dA dB hcA hcB rows 0
    (by omega) (by omega)
  unfold same_matrix
  rcases key with ⟨he, hall⟩ | ⟨he, r, c, _, h2, h3, h4⟩
  · have hall' : ∀ i j, i < rows → j < cols → h.cells A i j = h.cells B i j :=
      fun i j hi hj => hall i j (Nat.zero_le i) (by omega) hj
    rw [he]
    refine ⟨⟨fun _ => hall', fun _ => rfl⟩, ⟨fun h0 => ?_, fun hn => absurd hall' hn⟩,
      Or.inl rfl, fun _ => rfl⟩
    exact absurd (Option.some.inj h0) hone
  · have hnot : ¬ ∀ i j, i < rows → j < cols → h.cells A i j = h.cells B i j :=
      fun hall => h4 (hall r c (by omega) h3)
    rw [he]
    refine ⟨⟨fun h1 => ?_, fun hall => absurd hall hnot⟩, ⟨fun _ => hnot, fun _ => rfl⟩,
      Or.inr rfl, fun hz => ?_⟩
    · exact absurd (Option.some.inj h1).symm hone
    · rcases hz with hz | hz <;> omega

/-- Witness of C14: on the scenario `A = [[1,2],[3,4]]`, `B = [[5,6],[7,8]]`
the comparison of `A` with itself returns 1 and that of `A` with `B`
returns 0. -/
theorem same_matrix_correct_witness :
    scenario2.dims 1 = some (2, 2) ∧ scenario2.dims 2 = some (2, 2) ∧
      same_matrix 1 1 2 2 scenario2 = some 1 ∧ same_matrix 1 2 2 2 scenario2 = some 0 := by
  have h11 := same_matrix_correct 1 1 2 2 scenario2 2 2 2 2 rfl rfl (by decide) (by decide)
    (by decide) (by decide)
  have h12 := same_matrix_correct 1 2 2 2 scenario2 2 2 2 2 rfl rfl (by decide) (by decide)
    (by decide) (by decide)
  refine ⟨rfl, rfl, h11.1.2 (fun _ _ _ _ => rfl), h12.2.1.2 ?_⟩
  intro hall
  exact absurd (hall 0 0 (by decide) (by decide)) (by decide)

/-! ## The quadrants of a view -/

/-- C17: for every view `v` with even side `n ≥ 2` lying within its backing
matrix, the four views `get_block(v,0,0)`, `get_block(v,0,1)`,
`get_block(v,1,0)`, `get_block(v,1,1)` each have side `n / 2 > 0`, lie within
the backing matrix and within the region of `v`, are pairwise disjoint, and
together cover every cell of the region of `v`: every cell of `v` lies in
exactly one of them. -/
theorem get_block_partition (h : Heap R) (v : sub_matrix_type) (heven : v.n % 2 = 0)
    (hn : 2 ≤ v.n) (hv : inBounds h v) :
    (∀ i j, i ≤ 1 → j ≤ 1 →
      (get_block v i j).n = v.n / 2 ∧ 0 < (get_block v i j).n ∧
      inBounds h (get_block v i j) ∧
      ∀ p r c, inRegion (get_block v i j) p r c → inRegion v p r c) ∧
    (∀ i j i' j', i ≤ 1 → j ≤ 1 → i' ≤ 1 → j' ≤ 1 → (i, j) ≠ (i', j') →
      ∀ p r c, ¬ (inRegion (get_block v i j) p r c ∧ inRegion (get_block v i' j') p r c)) ∧
    (∀ p r c, inRegion v p r c →
      ∃ i j, i ≤ 1 ∧ j ≤ 1 ∧ inRegion (get_block v i j) p r c ∧
        ∀ i' j', i' ≤ 1 → j' ≤ 1 → inRegion (get_block v i' j') p r c →
          i' = i ∧ j' = j) := by
  refine ⟨?_, ?_, ?_⟩
  · intro i j hi hj
    refine ⟨rfl, ?_, inBounds_get_block h v i j hi hj hv, ?_⟩
    · simp only [get_block]
      omega
    · intro p r c hin
      simp only [inRegion, get_block] at hin ⊢
      interval_cases i <;> interval_cases j <;> omega
  · intro i j i' j' hi hj hi' hj' hne p r c hboth
    have hij : i ≠ i' ∨ j ≠ j' := by
      by_contra hcon
      rw [not_or, not_not, not_not] at hcon
      exact hne (by rw [hcon.1, hcon.2])
    simp only [inRegion, get_block] at hboth
    interval_cases i <;> interval_cases j <;> interval_cases i' <;> interval_cases j' <;>
      omega
  · intro p r c hin
    simp only [inRegion] at hin
    refine ⟨if r < v.f_row + v.n / 2 then 0 else 1, if c < v.f_col + v.n / 2 then 0 else 1,
      by split <;> omega, by split <;> omega, ?_, ?_⟩
    · simp only [inRegion, get_block]
      split <;> split <;> omega
    · intro i' j' hi' hj' hin'
      simp only [inRegion, get_block] at hin'
      interval_cases i' <;> interval_cases j' <;> split <;> split <;> omega

/-- Witness of C17: the view of side 4 over a `4 × 4` block. -/
theorem get_block_partition_witness :
    (embed_matrix 0 4).n % 2 = 0 ∧ 2 ≤ (embed_matrix 0 4).n ∧
      inBounds scenario4 (embed_matrix 0 4) ∧
      (get_block (embed_matrix 0 4) 1 1).n = 2 ∧
      inRegion (get_block (embed_matrix 0 4) 1 0) 0 3 1 ∧
      ¬ inRegion (get_block (embed_matrix 0 4) 0 0) 0 3 1 := by
  have b0 : inBounds scenario4 (embed_matrix 0 4) := ⟨4, 4, rfl, by decide, by decide⟩
  have hpart := get_block_partition scenario4 (embed_matrix 0 4) (by decide) (by decide) b0
  have hin : inRegion (get_block (embed_matrix 0 4) 1 0) 0 3 1 := by decide
  refine ⟨by decide, by decide, b0, (hpart.1 1 1 (by decide) (by decide)).1, hin, ?_⟩
  intro hin0
  exact hpart.2.1 1 0 0 0 (by decide) (by decide) (by decide) (by decide) (by decide) 0 3 1
    ⟨hin, hin0⟩

theorem Heap.read_none_iff (s : Heap R) (p i j : Nat) :
    s.read p i j = none ↔ ¬ ∃ r c, s.dims p = some (r, c) ∧ i < r ∧ j < c := by
  unfold Heap.read
  cases hd : s.dims p with
  | none => simp
  | some rc =>
    obtain ⟨r, c⟩ := rc
    by_cases hin : i < r ∧ j < c
    · simp [hin]
    · simp only [if_neg hin, Option.some.injEq, Prod.mk.injEq, true_iff]
      rintro ⟨r', c', ⟨hr, hc⟩, hi, hj⟩
      exact hin ⟨by omega, by omega⟩

theorem Heap.write_none_iff (s : Heap R) (p i j : Nat) (v : R) :
    s.write p i j v = none ↔ ¬ ∃ r c, s.dims p = some (r, c) ∧ i < r ∧ j < c := by
  unfold Heap.write
  cases hd : s.dims p with
  | none => simp
  | some rc =>
    obtain ⟨r, c⟩ := rc
    by_cases hin : i < r ∧ j < c
    · simp [hin]
    · simp only [if_neg hin, Option.some.injEq, Prod.mk.injEq, true_iff]
      rintro ⟨r', c', ⟨hr, hc⟩, hi, hj⟩
      exact hin ⟨by omega, by omega⟩

/-! ## Two runs side by side -/

theorem forLoop_rel {σ : Type} (P : Nat → σ → σ → Prop) (n : Nat)
    (b1 b2 : Nat → σ → Option σ) (s1 s2 : σ) (h0 : P 0 s1 s2)
    (hstep : ∀ k t1 t2, k < n → P k t1 t2 →
      ∃ t1' t2', b1 k t1 = some t1' ∧ b2 k t2 = some t2' ∧ P (k + 1) t1' t2') :
    ∃ t1 t2, forLoop n b1 s1 = some t1 ∧ forLoop n b2 s2 = some t2 ∧ P n t1 t2 := by
  induction n with
  | zero => exact ⟨s1, s2, rfl, rfl, h0⟩
  | succ k ih =>
    obtain ⟨t1, t2, e1, e2, hP⟩ := ih (fun j a b hj hp => hstep j a b (by omega) hp)
    obtain ⟨t1', t2', e1', e2', hP'⟩ := hstep k t1 t2 (by omega) hP
    exact ⟨t1', t2', by rw [forLoop_succ, e1]; exact e1', by rw [forLoop_succ, e2]; exact e2',
      hP'⟩

/-- Two runs of `cellLoop` from memories with the same blocks that agree on a
set `E` of cells, when what `f` computes depends on the cells of `E` only:
both succeed, and the final memories agree on `E` and on the region of `D`. -/
theorem cellLoop_rel (D : sub_matrix_type) (f : Nat → Nat → Heap R → Option R)
    (E : Nat → Nat → Nat → Prop) (h1 h2 : Heap R) (hD : inBounds h1 D)
    (hd : h2.dims = h1.dims)
    (h0 : ∀ p i j, E p i j → h2.cells p i j = h1.cells p i j)
    (hf : ∀ s1 s2 y x, y < D.n → x < D.n → s1.dims = h1.dims → s2.dims = h1.dims →
      (∀ p i j, E p i j → s2.cells p i j = s1.cells p i j) →
      ∃ v, f y x s1 = some v ∧ f y x s2 = some v) :
    ∃ h1' h2', cellLoop D.n D f h1 = some h1' ∧ cellLoop D.n D f h2 = some h2' ∧
      ∀ p i j, E p i j ∨ inRegion D p i j → h2'.cells p i j = h1'.cells p i j := by
  obtain ⟨r, c, hdD, hr, hc⟩ := hD
  let Inv : Nat → Nat → Heap R → Heap R → Prop := fun y x s1 s2 =>
    s1.dims = h1.dims ∧ s2.dims = h1.dims ∧
      ∀ p i j, E p i j ∨ doneBefore D D.n y x p i j → s2.cells p i j = s1.cells p i j
  have hInner : ∀ y s1 s2, y < D.n → Inv y 0 s1 s2 →
      ∃ t1 t2,
        forLoop D.n (fun x h =>
          (f y x h).bind fun v => h.write D.matrix (y + D.f_row) (x + D.f_col) v) s1 = some t1 ∧
        forLoop D.n (fun x h =>
          (f y x h).bind fun v => h.write D.matrix (y + D.f_row) (x + D.f_col) v) s2 = some t2 ∧
        Inv y D.n t1 t2 := by
    intro y s1 s2 hy hs
    refine forLoop_rel (fun x t1 t2 => Inv y x t1 t2) D.n _ _ s1 s2 hs ?_
    intro x t1 t2 hx ⟨d1, d2, hc12⟩
    obtain ⟨v, hv1, hv2⟩ := hf t1 t2 y x hy hx d1 d2 (fun p i j hE => hc12 p i j (Or.inl hE))
    obtain ⟨t1', hw1, wd1, _, _, _, wc1⟩ :=
      Heap.write_eq t1 D.matrix (y + D.f_row) (x + D.f_col) r c v (by rw [d1, hdD])
        (by omega) (by omega)
    obtain ⟨t2', hw2, wd2, _, _, _, wc2⟩ :=
      Heap.write_eq t2 D.matrix (y + D.f_row) (x + D.f_col) r c v (by rw [d2, hdD])
        (by omega) (by omega)
    refine ⟨t1', t2', by rw [hv1]; exact hw1, by rw [hv2]; exact hw2, by rw [wd1, d1],
      by rw [wd2, d2], ?_⟩
    intro p i j hin
    rw [wc1, wc2]
    by_cases hcell : p = D.matrix ∧ i = y + D.f_row ∧ j = x + D.f_col
    · rw [if_pos hcell, if_pos hcell]
    · rw [if_neg hcell, if_neg hcell]
      apply hc12
      rcases hin with hE | hdb
      · exact Or.inl hE
      · rcases (doneBefore_col_step D D.n y x p i j).1 hdb with hb | hb
        · exact Or.inr hb
        · exact absurd hb hcell
  obtain ⟨t1, t2, e1, e2, _, _, hagree⟩ := forLoop_rel (fun y t1 t2 => Inv y 0 t1 t2) D.n
    (fun y h => forLoop D.n (fun x h =>
      (f y x h).bind fun v => h.write D.matrix (y + D.f_row) (x + D.f_col) v) h)
    (fun y h => forLoop D.n (fun x h =>
      (f y x h).bind fun v => h.write D.matrix (y + D.f_row) (x + D.f_col) v) h) h1 h2
    ⟨rfl, hd, fun p i j hin => by
      rcases hin with hE | hdb
      · exact h0 p i j hE
      · exact absurd hdb (doneBefore_zero D D.n p i j)⟩
    (by
      intro y t1 t2 hy ht
      obtain ⟨t1', t2', e1, e2, d1, d2, hc12⟩ := hInner y t1 t2 hy ht
      refine ⟨t1', t2', e1, e2, d1, d2, ?_⟩
      intro p i j hin
      apply hc12
      rcases hin with hE | hdb
      · exact Or.inl hE
      · exact Or.inr ((doneBefore_row_end D D.n y p i j).2 hdb))
  refine ⟨t1, t2, e1, e2, ?_⟩
  intro p i j hin
  apply hagree
  rcases hin with hE | hreg
  · exact Or.inl hE
  · exact Or.inr ((doneBefore_all D p i j).2 hreg)

section Behaviour

variable [Ring R]

theorem strassen_aux_eq_naive (C A B : sub_matrix_type) (h : Heap R) (hn : A.n ≤ 32) :
    strassen_aux C A B h = naive_aux C A B h := by
  rw [strassen_aux, dif_pos (by simpa using hn)]

/-- On an odd side above the threshold the last row and the last column of the
region of `C` keep what they held. -/
theorem strassen_aux_odd_keeps (n : Nat) (hodd : n % 2 = 1) (hn : 32 < n)
    (C A B : sub_matrix_type) (h : Heap R) (hCn : C.n = n) (hAn : A.n = n) (hBn : B.n = n)
    (hC : inBounds h C) (hA : inBounds h A) (hB : inBounds h B) :
    ∃ h', strassen_aux C A B h = some h' ∧
      ∀ y x, y < n → x < n → (y = n - 1 ∨ x = n - 1) → vget h' C y x = vget h C y x := by
  obtain ⟨h', he, hstep, _⟩ := strassen_aux_spec n C A B h hCn hAn hBn hC hA hB
  refine ⟨h', he, ?_⟩
  intro y x hy hx hlast
  apply hstep.frame _ _ _ (inBounds_lt h C hC)
  intro hw
  unfold written at hw
  rw [if_neg (by omega)] at hw
  simp only [inRegion, get_block] at hw
  omega

/-- C12: for every odd side `n > 32`, `strassen_aux` truncates without
reporting anything: the call returns, the quadrant views of `C` have side
`(n - 1) / 2`, and the last row and the last column of the region of `C` (row
`n - 1` and column `n - 1`) are never written: they keep their previous
contents. Hence for `n = 33`, `A = B = 0` and `C` holding `7` everywhere, the
output of `strassen_matrix_multiplication` differs from the product `A × B` at
`C[32][32]`. -/
theorem strassen_aux_odd_truncates :
    (∀ (n : Nat) (C A B : sub_matrix_type) (h : Heap R), n % 2 = 1 → 32 < n →
      C.n = n → A.n = n → B.n = n → inBounds h C → inBounds h A → inBounds h B →
      (∀ i j, (get_block C i j).n = (n - 1) / 2) ∧
      ∃ h', strassen_aux C A B h = some h' ∧
        ∀ y x, y < n → x < n → (y = n - 1 ∨ x = n - 1) → vget h' C y x = vget h C y x) ∧
    ∃ h', strassen_matrix_multiplication 0 1 2 33 scenario33 = some h' ∧
      h'.cells 0 32 32 = 7 ∧
      h'.cells 0 32 32 ≠
        ∑ z in Finset.range 33, scenario33.cells 1 32 z * scenario33.cells 2 z 32 := by
  constructor
  · intro n C A B h hodd hn hCn hAn hBn hC hA hB
    refine ⟨?_, strassen_aux_odd_keeps n hodd hn C A B h hCn hAn hBn hC hA hB⟩
    intro i j
    simp only [get_block, hCn]
    omega
  · have b0 : inBounds scenario33 (embed_matrix 0 33) := ⟨33, 33, rfl, by decide, by decide⟩
    have b1 : inBounds scenario33 (embed_matrix 1 33) := ⟨33, 33, rfl, by decide, by decide⟩
    have b2 : inBounds scenario33 (embed_matrix 2 33) := ⟨33, 33, rfl, by decide, by decide⟩
    obtain ⟨h', he, hkeep⟩ := strassen_aux_odd_keeps 33 (by decide) (by decide)
      (embed_matrix 0 33) (embed_matrix 1 33) (embed_matrix 2 33) scenario33 rfl rfl rfl
      b0 b1 b2
    have h7 : h'.cells 0 32 32 = 7 := hkeep 32 32 (by decide) (by decide) (Or.inl rfl)
    refine ⟨h', he, h7, ?_⟩
    rw [h7, Finset.sum_eq_zero]
    · decide
    · intro z _
      exact mul_zero _

/-- Witness of C12: `n = 33` on three `33 × 33` blocks. -/
theorem strassen_aux_odd_truncates_witness :
    33 % 2 = 1 ∧ 32 < 33 ∧ inBounds scenario33 (embed_matrix 0 33) ∧
      inBounds scenario33 (embed_matrix 1 33) ∧ inBounds scenario33 (embed_matrix 2 33) ∧
      (get_block (embed_matrix 0 33) 1 1).n = 16 ∧
      ∃ h', strassen_aux (embed_matrix 0 33) (embed_matrix 1 33) (embed_matrix 2 33)
          scenario33 = some h' ∧
        vget h' (embed_matrix 0 33) 32 5 = 7 ∧ vget h' (embed_matrix 0 33) 5 32 = 7 := by
  have b0 : inBounds scenario33 (embed_matrix 0 33) := ⟨33, 33, rfl, by decide, by decide⟩
  have b1 : inBounds scenario33 (embed_matrix 1 33) := ⟨33, 33, rfl, by decide, by decide⟩
  have b2 : inBounds scenario33 (embed_matrix 2 33) := ⟨33, 33, rfl, by decide, by decide⟩
  obtain ⟨hside, h', he, hkeep⟩ := (strassen_aux_odd_truncates (R := Int)).1 33
    (embed_matrix 0 33) (embed_matrix 1 33) (embed_matrix 2 33) scenario33 (by decide)
    (by decide) rfl rfl rfl b0 b1 b2
  exact ⟨by decide, by decide, b0, b1, b2, hside 1 1, h', he,
    hkeep 32 5 (by decide) (by decide) (Or.inl rfl),
    hkeep 5 32 (by decide) (by decide) (Or.inr rfl)⟩

/-! ## Safety -/

theorem sub_matrix_sum_safe (C A B : sub_matrix_type) (h : Heap R)
    (hC : inBounds h C) (hA : inBounds h A) (hB : inBounds h B)
    (hAn : A.n = C.n) (hBn : B.n = C.n) : ∃ h', sub_matrix_sum C A B h = some h' := by
  rw [sub_matrix_sum_eq_cellLoop]
  obtain ⟨rA, cA, dA, hrA, hcA⟩ := hA
  obtain ⟨rB, cB, dB, hrB, hcB⟩ := hB
  have hf : ∀ (s : Heap R) (y x : Nat), y < C.n → x < C.n → s.dims = h.dims →
      ∃ v, ((s.read A.matrix (y + A.f_row) (x + A.f_col)).bind fun a =>
        (s.read B.matrix (y + B.f_row) (x + B.f_col)).bind fun b => some (a + b)) = some v := by
    intro s y x hy hx sd
    rw [Heap.read_eq s _ _ _ rA cA (by rw [sd, dA]) (by omega) (by omega),
      Heap.read_eq s _ _ _ rB cB (by rw [sd, dB]) (by omega) (by omega)]
    exact ⟨_, rfl⟩
  obtain ⟨h', he, _⟩ := cellLoop_safe C _ h hC hf
  exact ⟨h', he⟩

theorem sub_matrix_subtract_safe (C A B : sub_matrix_type) (h : Heap R)
    (hC : inBounds h C) (hA : inBounds h A) (hB : inBounds h B)
    (hAn : A.n = C.n) (hBn : B.n = C.n) : ∃ h', sub_matrix_subtract C A B h = some h' := by
  rw [sub_matrix_subtract_eq_cellLoop]
  obtain ⟨rA, cA, dA, hrA, hcA⟩ := hA
  obtain ⟨rB, cB, dB, hrB, hcB⟩ := hB
  have hf : ∀ (s : Heap R) (y x : Nat), y < C.n → x < C.n → s.dims = h.dims →
      ∃ v, ((s.read A.matrix (y + A.f_row) (x + A.f_col)).bind fun a =>
        (s.read B.matrix (y + B.f_row) (x + B.f_col)).bind fun b => some (a - b)) = some v := by
    intro s y x hy hx sd
    rw [Heap.read_eq s _ _ _ rA cA (by rw [sd, dA]) (by omega) (by omega),
      Heap.read_eq s _ _ _ rB cB (by rw [sd, dB]) (by omega) (by omega)]
    exact ⟨_, rfl⟩
  obtain ⟨h', he, _⟩ := cellLoop_safe C _ h hC hf
  exact ⟨h', he⟩

/-- C16: if the three views passed to `strassen_aux` have equal side `n` (any
`n`) and each lies entirely within its backing matrix, then every matrix
access performed anywhere in the call tree is within the bounds of the matrix
it indexes. Reads and writes return `none` exactly when they are out of
bounds and `none` propagates to the result of the call, so this is: the call
returns `some` memory; the same holds for `naive_aux`, `sub_matrix_sum` and
`sub_matrix_subtract` called directly. -/
theorem strassen_aux_in_bounds (n : Nat) (C A B : sub_matrix_type) (h : Heap R)
    (hCn : C.n = n) (hAn : A.n = n) (hBn : B.n = n)
    (hC : inBounds h C) (hA : inBounds h A) (hB : inBounds h B) :
    (∃ h', strassen_aux C A B h = some h') ∧ (∃ h', naive_aux C A B h = some h') ∧
      (∃ h', sub_matrix_sum C A B h = some h') ∧
      (∃ h', sub_matrix_subtract C A B h = some h') ∧
      ∀ (s : Heap R) (p i j : Nat) (v : R),
        (s.read p i j = none ↔ ¬ ∃ r c, s.dims p = some (r, c) ∧ i < r ∧ j < c) ∧
        (s.write p i j v = none ↔ ¬ ∃ r c, s.dims p = some (r, c) ∧ i < r ∧ j < c) := by
  obtain ⟨h1, e1, _⟩ := strassen_aux_spec n C A B h hCn hAn hBn hC hA hB
  obtain ⟨h2, e2, _⟩ := naive_aux_safe C A B h hC hA hB (by omega) (by omega)
  refine ⟨⟨h1, e1⟩, ⟨h2, e2⟩,
    sub_matrix_sum_safe C A B h hC hA hB (by omega) (by omega),
    sub_matrix_subtract_safe C A B h hC hA hB (by omega) (by omega), ?_⟩
  intro s p i j v
  exact ⟨Heap.read_none_iff s p i j, Heap.write_none_iff s p i j v⟩

/-- Witness of C16: one recursive level on a side that is not a power of two,
`n = 33`. -/
theorem strassen_aux_in_bounds_witness :
    inBounds scenario33 (embed_matrix 0 33) ∧ inBounds scenario33 (embed_matrix 1 33) ∧
      inBounds scenario33 (embed_matrix 2 33) ∧
      ∃ h', strassen_aux (embed_matrix 0 33) (embed_matrix 1 33) (embed_matrix 2 33)
        scenario33 = some h' :=
  have b0 : inBounds scenario33 (embed_matrix 0 33) := ⟨33, 33, rfl, by decide, by decide⟩
  have b1 : inBounds scenario33 (embed_matrix 1 33) := ⟨33, 33, rfl, by decide, by decide⟩
  have b2 : inBounds scenario33 (embed_matrix 2 33) := ⟨33, 33, rfl, by decide, by decide⟩
  ⟨b0, b1, b2, (strassen_aux_in_bounds 33 (embed_matrix 0 33) (embed_matrix 1 33)
    (embed_matrix 2 33) scenario33 rfl rfl rfl b0 b1 b2).1⟩

/-! ## Independence of what the output and the temporaries held -/

/-- Two runs of `naive_aux` from memories with the same blocks that agree on
the regions of `A` and `B` both return and leave the same region of `C`,
whether or not `C` shares cells with `A` or `B`. -/
theorem naive_aux_rel (C A B : sub_matrix_type) (h1 h2 : Heap R)
    (hC : inBounds h1 C) (hA : inBounds h1 A) (hB : inBounds h1 B)
    (hAn : A.n = C.n) (hBn : B.n = C.n) (hd : h2.dims = h1.dims)
    (hsame : ∀ p i j, inRegion A p i j ∨ inRegion B p i j → h2.cells p i j = h1.cells p i j) :
    ∃ h1' h2', naive_aux C A B h1 = some h1' ∧ naive_aux C A B h2 = some h2' ∧
      ∀ y x, y < C.n → x < C.n → vget h2' C y x = vget h1' C y x := by
  have hcl : ∀ h : Heap R, naive_aux C A B h = cellLoop C.n C (fun y x s =>
      forLoop C.n (fun z value =>
        (s.read A.matrix (y + A.f_row) (z + A.f_col)).bind fun a =>
          (s.read B.matrix (z + B.f_row) (x + B.f_col)).bind fun b => some (value + a * b)) 0) h := by
    intro h
    unfold naive_aux cellLoop
    rw [hAn]
    rfl
  rw [hcl h1, hcl h2]
  obtain ⟨rA, cA, dA, hrA, hcA⟩ := hA
  obtain ⟨rB, cB, dB, hrB, hcB⟩ := hB
  have hf : ∀ (s1 s2 : Heap R) (y x : Nat), y < C.n → x < C.n → s1.dims = h1.dims →
      s2.dims = h1.dims →
      (∀ p i j, inRegion A p i j ∨ inRegion B p i j → s2.cells p i j = s1.cells p i j) →
      ∃ v,
        forLoop C.n (fun z value =>
          (s1.read A.matrix (y + A.f_row) (z + A.f_col)).bind fun a =>
            (s1.read B.matrix (z + B.f_row) (x + B.f_col)).bind fun b =>
              some (value + a * b)) 0 = some v ∧
        forLoop C.n (fun z value =>
          (s2.read A.matrix (y + A.f_row) (z + A.f_col)).bind fun a =>
            (s2.read B.matrix (z + B.f_row) (x + B.f_col)).bind fun b =>
              some (value + a * b)) 0 = some v := by
    intro s1 s2 y x hy hx d1 d2 hag
    obtain ⟨v1, v2, e1, e2, hv⟩ := forLoop_rel (fun _ (a b : R) => a = b) C.n
      (fun z value =>
        (s1.read A.matrix (y + A.f_row) (z + A.f_col)).bind fun a =>
          (s1.read B.matrix (z + B.f_row) (x + B.f_col)).bind fun b => some (value + a * b))
      (fun z value =>
        (s2.read A.matrix (y + A.f_row) (z + A.f_col)).bind fun a =>
          (s2.read B.matrix (z + B.f_row) (x + B.f_col)).bind fun b => some (value + a * b))
      0 0 rfl (by
        intro z a b hz hab
        beta_reduce
        rw [Heap.read_eq s1 _ _ _ rA cA (by rw [d1, dA]) (by omega) (by omega),
          Heap.read_eq s1 _ _ _ rB cB (by rw [d1, dB]) (by omega) (by omega),
          Heap.read_eq s2 _ _ _ rA cA (by rw [d2, dA]) (by omega) (by omega),
          Heap.read_eq s2 _ _ _ rB cB (by rw [d2, dB]) (by omega) (by omega),
          hag A.matrix (y + A.f_row) (z + A.f_col)
            (Or.inl ⟨rfl, by omega, by omega, by omega, by omega⟩),
          hag B.matrix (z + B.f_row) (x + B.f_col)
            (Or.inr ⟨rfl, by omega, by omega, by omega, by omega⟩), hab]
        exact ⟨_, _, rfl, rfl, rfl⟩)
    exact ⟨v1, e1, by rw [hv]; exact e2⟩
  obtain ⟨h1', h2', e1, e2, hag⟩ := cellLoop_rel C _
    (fun p i j => inRegion A p i j ∨ inRegion B p i j) h1 h2 hC hd hsame hf
  refine ⟨h1', h2', e1, e2, ?_⟩
  intro y x hy hx
  exact hag C.matrix (y + C.f_row) (x + C.f_col)
    (Or.inr ⟨rfl, by omega, by omega, by omega, by omega⟩)

/-- C18: for `n` a power of two, the result of `strassen_aux` does not depend
on the contents of the uninitialised temporaries it allocates or on the
previous contents of `C`: two runs from memories with the same blocks that
agree on the regions of `A` and `B` (and may differ everywhere else: in the
rest of `C`, at every address not yet handed out, which is where the
temporaries `S[i]` and `P[i]` are allocated) both return and give the same
final `C`; when `C` shares no cell with `A` or `B` that final `C` is the
product of `A` and `B`. -/
theorem strassen_aux_independent (n : Nat) (hn : ∃ k, n = 2 ^ k)
    (C A B : sub_matrix_type) (h1 h2 : Heap R)
    (hCn : C.n = n) (hAn : A.n = n) (hBn : B.n = n)
    (hC : inBounds h1 C) (hA : inBounds h1 A) (hB : inBounds h1 B)
    (hdims : h2.dims = h1.dims)
    (hsameA : ∀ y x, y < n → x < n → vget h2 A y x = vget h1 A y x)
    (hsameB : ∀ y x, y < n → x < n → vget h2 B y x = vget h1 B y x) :
    ∃ h1' h2', strassen_aux C A B h1 = some h1' ∧ strassen_aux C A B h2 = some h2' ∧
      (∀ y x, y < n → x < n → vget h2' C y x = vget h1' C y x) ∧
      (¬ overlap C A → ¬ overlap C B → ∀ y x, y < n → x < n →
        vget h1' C y x = ∑ z in Finset.range n, vget h1 A y z * vget h1 B z x) := by
  obtain ⟨k, rfl⟩ := hn
  have hC2 : inBounds h2 C := by
    obtain ⟨r, c, hd, hr, hc⟩ := hC
    exact ⟨r, c, by rw [hdims, hd], hr, hc⟩
  have hA2 : inBounds h2 A := by
    obtain ⟨r, c, hd, hr, hc⟩ := hA
    exact ⟨r, c, by rw [hdims, hd], hr, hc⟩
  have hB2 : inBounds h2 B := by
    obtain ⟨r, c, hd, hr, hc⟩ := hB
    exact ⟨r, c, by rw [hdims, hd], hr, hc⟩
  obtain ⟨h1', e1, _, v1⟩ := strassen_aux_spec (2 ^ k) C A B h1 hCn hAn hBn hC hA hB
  obtain ⟨h2', e2, _, v2⟩ := strassen_aux_spec (2 ^ k) C A B h2 hCn hAn hBn hC2 hA2 hB2
  refine ⟨h1', h2', e1, e2, ?_, ?_⟩
  · by_cases hbig : 2 ^ k ≤ 32
    · have hsame : ∀ p i j, inRegion A p i j ∨ inRegion B p i j →
          h2.cells p i j = h1.cells p i j := by
        rintro p i j (⟨hp, hi1, hi2, hj1, hj2⟩ | ⟨hp, hi1, hi2, hj1, hj2⟩)
        · have hv := hsameA (i - A.f_row) (j - A.f_col) (by omega) (by omega)
          unfold vget at hv
          rw [Nat.sub_add_cancel hi1, Nat.sub_add_cancel hj1] at hv
          rw [hp]
          exact hv
        · have hv := hsameB (i - B.f_row) (j - B.f_col) (by omega) (by omega)
          unfold vget at hv
          rw [Nat.sub_add_cancel hi1, Nat.sub_add_cancel hj1] at hv
          rw [hp]
          exact hv
      obtain ⟨g1, g2, f1, f2, hg⟩ := naive_aux_rel C A B h1 h2 hC hA hB (by omega) (by omega)
        hdims hsame
      rw [strassen_aux_eq_naive C A B h1 (by omega), f1] at e1
      rw [strassen_aux_eq_naive C A B h2 (by omega), f2] at e2
      rw [← Option.some.inj e1, ← Option.some.inj e2]
      intro y x hy hx
      exact hg y x (by omega) (by omega)
    · intro y x hy hx
      rw [v1 (splits_pow k) (fun hle => absurd hle hbig) y x hy hx,
        v2 (splits_pow k) (fun hle => absurd hle hbig) y x hy hx]
      apply Finset.sum_congr rfl
      intro z hz
      rw [Finset.mem_range] at hz
      rw [hsameA y z hy hz, hsameB z x hz hx]
  · intro hCA hCB
    exact v1 (splits_pow k) (fun _ => ⟨hCA, hCB⟩)

/-- Witness of C18: two memories with three `64 × 64` blocks that differ in
block 0, the output, and at the addresses the temporaries will get. -/
theorem strassen_aux_independent_witness :
    (∃ k, 64 = 2 ^ k) ∧ scenario64b.cells 0 0 0 ≠ scenario64.cells 0 0 0 ∧
      scenario64b.cells 3 0 0 ≠ scenario64.cells 3 0 0 ∧
      ∃ h1' h2',
        strassen_aux (embed_matrix 0 64) (embed_matrix 1 64) (embed_matrix 2 64) scenario64
          = some h1' ∧
        strassen_aux (embed_matrix 0 64) (embed_matrix 1 64) (embed_matrix 2 64) scenario64b
          = some h2' ∧
        h2'.cells 0 0 0 = h1'.cells 0 0 0 ∧ h2'.cells 0 63 63 = h1'.cells 0 63 63 := by
  have b0 : inBounds scenario64 (embed_matrix 0 64) := ⟨64, 64, rfl, by decide, by decide⟩
  have b1 : inBounds scenario64 (embed_matrix 1 64) := ⟨64, 64, rfl, by decide, by decide⟩
  have b2 : inBounds scenario64 (embed_matrix 2 64) := ⟨64, 64, rfl, by decide, by decide⟩
  obtain ⟨h1', h2', e1, e2, hv, _⟩ := strassen_aux_independent 64 ⟨6, rfl⟩
    (embed_matrix 0 64) (embed_matrix 1 64) (embed_matrix 2 64) scenario64 scenario64b
    rfl rfl rfl b0 b1 b2 rfl (fun _ _ _ _ => rfl) (fun _ _ _ _ => rfl)
  exact ⟨⟨6, rfl⟩, by decide, by decide, h1', h2', e1, e2,
    hv 0 0 (by decide) (by decide), hv 63 63 (by decide) (by decide)⟩

/-! ## Output aliased with an operand -/

/-- C19: in the recursive case (side `n` a power of two, `n > 32`) the result
of `strassen_aux` is the product of the original `A` and `B` whatever view `C`
is, in particular when `C` is the very same view as `A` or as `B`. In the base
case the same aliasing makes `naive_aux` read cells it has already
overwritten: for `n = 2`, `A = [[1,2],[3,4]]`, `B = [[5,6],[7,8]]` and `C` the
same view as `A`, the call returns with `130` in entry `(0, 1)`, where the
product has `22`. -/
theorem strassen_aux_aliasing :
    (∀ (n : Nat) (C A B : sub_matrix_type) (h : Heap R), (∃ k, n = 2 ^ k) → 32 < n →
      C.n = n → A.n = n → B.n = n → inBounds h C → inBounds h A → inBounds h B →
      ∃ h', strassen_aux C A B h = some h' ∧
        ∀ y x, y < n → x < n →
          vget h' C y x = ∑ z in Finset.range n, vget h A y z * vget h B z x) ∧
    (∀ (n : Nat) (A B : sub_matrix_type) (h : Heap R), (∃ k, n = 2 ^ k) → 32 < n →
      A.n = n → B.n = n → inBounds h A → inBounds h B →
      (∃ h', strassen_aux A A B h = some h' ∧
        ∀ y x, y < n → x < n →
          vget h' A y x = ∑ z in Finset.range n, vget h A y z * vget h B z x) ∧
      (∃ h', strassen_aux B A B h = some h' ∧
        ∀ y x, y < n → x < n →
          vget h' B y x = ∑ z in Finset.range n, vget h A y z * vget h B z x)) ∧
    ∃ h', strassen_aux (embed_matrix 1 2) (embed_matrix 1 2) (embed_matrix 2 2) scenario2
        = some h' ∧
      vget h' (embed_matrix 1 2) 0 1 = 130 ∧
      (∑ z in Finset.range 2,
        vget scenario2 (embed_matrix 1 2) 0 z * vget scenario2 (embed_matrix 2 2) z 1) = 22 := by
  have gen : ∀ (n : Nat) (C A B : sub_matrix_type) (h : Heap R), (∃ k, n = 2 ^ k) → 32 < n →
      C.n = n → A.n = n → B.n = n → inBounds h C → inBounds h A → inBounds h B →
      ∃ h', strassen_aux C A B h = some h' ∧
        ∀ y x, y < n → x < n →
          vget h' C y x = ∑ z in Finset.range n, vget h A y z * vget h B z x := by
    intro n C A B h hn hbig hCn hAn hBn hC hA hB
    obtain ⟨k, rfl⟩ := hn
    obtain ⟨h', he, _, hv⟩ := strassen_aux_spec (2 ^ k) C A B h hCn hAn hBn hC hA hB
    exact ⟨h', he, hv (splits_pow k) (fun hle => absurd hle (by omega))⟩
  refine ⟨gen, ?_, ?_⟩
  · intro n A B h hn hbig hAn hBn hA hB
    exact ⟨gen n A A B h hn hbig hAn hAn hBn hA hA hB,
      gen n B A B h hn hbig hBn hAn hBn hB hA hB⟩
  · rw [strassen_aux_eq_naive _ _ _ _ (by decide)]
    have hrun : (naive_aux (embed_matrix 1 2) (embed_matrix 1 2) (embed_matrix 2 2)
        scenario2).map (fun s => vget s (embed_matrix 1 2) 0 1) = some 130 := by
      decide
    cases hres : naive_aux (embed_matrix 1 2) (embed_matrix 1 2) (embed_matrix 2 2)
        scenario2 with
    | none =>
      rw [hres] at hrun
      exact Option.noConfusion hrun
    | some h' =>
      rw [hres] at hrun
      exact ⟨h', rfl, Option.some.inj hrun, by decide⟩

/-- Witness of C19: `C` the same view as `A`, then as `B`, on `64 × 64`
blocks. -/
theorem strassen_aux_aliasing_witness :
    (∃ k, 64 = 2 ^ k) ∧ 32 < 64 ∧ inBounds scenario64 (embed_matrix 1 64) ∧
      inBounds scenario64 (embed_matrix 2 64) ∧
      (∃ h', strassen_aux (embed_matrix 1 64) (embed_matrix 1 64) (embed_matrix 2 64)
          scenario64 = some h' ∧
        ∀ y x, y < 64 → x < 64 →
          vget h' (embed_matrix 1 64) y x = ∑ z in Finset.range 64,
            vget scenario64 (embed_matrix 1 64) y z * vget scenario64 (embed_matrix 2 64) z x) ∧
      (∃ h', strassen_aux (embed_matrix 2 64) (embed_matrix 1 64) (embed_matrix 2 64)
          scenario64 = some h' ∧
        ∀ y x, y < 64 → x < 64 →
          vget h' (embed_matrix 2 64) y x = ∑ z in Finset.range 64,
            vget scenario64 (embed_matrix 1 64) y z * vget scenario64 (embed_matrix 2 64) z x) :=
  have b1 : inBounds scenario64 (embed_matrix 1 64) := ⟨64, 64, rfl, by decide, by decide⟩
  have b2 : inBounds scenario64 (embed_matrix 2 64) := ⟨64, 64, rfl, by decide, by decide⟩
  ⟨⟨6, rfl⟩, by decide, b1, b2,
    (strassen_aux_aliasing (R := Int)).2.1 64 (embed_matrix 1 64) (embed_matrix 2 64)
      scenario64 ⟨6, rfl⟩ (by decide) rfl rfl b1 b2⟩

/-! ## Termination -/

theorem levels_base (n : Nat) (hn : n ≤ 32) : levels n = 0 := by
  rw [levels, dif_pos hn]

theorem levels_rec (n : Nat) (hn : 32 < n) : levels n = levels (n / 2) + 1 := by
  rw [levels, dif_neg (by omega)]

theorem andThen_congr {α β : Type} (o : Option α) (f g : α → Option β)
    (hfg : ∀ a, f a = g a) : andThen o f = andThen o g := by
  have hfun : f = g := funext hfg
  rw [hfun]

theorem strassen_aux_bounded_eq (fuel : Nat) : ∀ (C A B : sub_matrix_type) (h : Heap R),
    levels A.n < fuel → strassen_aux_bounded fuel C A B h = strassen_aux C A B h := by
  induction fuel with
  | zero =>
    intro C A B h hlt
    exact absurd hlt (Nat.not_lt_zero _)
  | succ fuel ih =>
    intro C A B h hlt
    rw [strassen_aux_bounded, strassen_aux]
    by_cases hn : A.n ≤ 1 <<< 5
    · rw [if_pos hn, dif_pos hn]
    · rw [if_neg hn, dif_neg hn]
      have hbig : 32 < A.n := by simpa using hn
      have hlev : levels (A.n / 2) < fuel := by
        rw [levels_rec A.n hbig] at hlt
        omega
      obtain ⟨m, hm⟩ : ∃ m, A.n / 2 = m := ⟨_, rfl⟩
      rw [hm] at hlev
      have key : ∀ (C' A' B' : sub_matrix_type) (s : Heap R), A'.n = m →
          strassen_aux_bounded fuel C' A' B' s = strassen_aux C' A' B' s := by
        intro C' A' B' s hA'
        exact ih C' A' B' s (by rw [hA']; exact hlev)
      have hS : ∀ i, i < 10 →
          ((build_sub_matrices 10 m (fun _ => default, h)).1 i).n = m := by
        intro i hi
        rw [(build_sub_matrices_spec 10 m (fun _ => default) h).1 i hi]
        rfl
      have hg : ∀ i j, (get_block A i j).n = m := fun i j => hm
      simp only [hm]
      simp (disch := first | exact hg _ _ | exact hS _ (by decide)) only [key]

theorem levels_reach (n : Nat) : n / 2 ^ levels n ≤ 32 := by
  induction n using Nat.strong_induction_on with
  | _ n ih =>
    by_cases hn : n ≤ 32
    · rw [levels_base n hn, pow_zero, Nat.div_one]
      exact hn
    · rw [levels_rec n (by omega), pow_succ, Nat.mul_comm, ← Nat.div_div_eq_div_mul]
      exact ih (n / 2) (by omega)

/-- C15: `strassen_aux` terminates for every side `n`, power of two or not:
recursive calls are made only when `n > 32` (on `n ≤ 32` the call is
`naive_aux`), each on views of side `n / 2 < n`, so a base case is reached
after `levels n` levels: `levels n` halvings bring the side to at most `32`.
Run with a bound on the depth of the recursion above `levels n`, the function
never reaches the bound and gives the result of `strassen_aux`; on views of
equal side in bounds that result is a final memory. -/
theorem strassen_aux_terminates :
    (∀ (C A B : sub_matrix_type) (h : Heap R), A.n ≤ 32 →
      strassen_aux C A B h = naive_aux C A B h ∧
      ∀ fuel, strassen_aux_bounded (fuel + 1) C A B h = naive_aux C A B h) ∧
    (∀ n, 32 < n → n / 2 < n ∧ levels n = levels (n / 2) + 1) ∧
    (∀ n, n ≤ 32 → levels n = 0) ∧
    (∀ n, n / 2 ^ levels n ≤ 32) ∧
    (∀ (fuel : Nat) (C A B : sub_matrix_type) (h : Heap R), levels A.n < fuel →
      strassen_aux_bounded fuel C A B h = strassen_aux C A B h) ∧
    (∀ (n : Nat) (C A B : sub_matrix_type) (h : Heap R), C.n = n → A.n = n → B.n = n →
      inBounds h C → inBounds h A → inBounds h B →
      ∃ h', strassen_aux_bounded (levels n + 1) C A B h = some h') := by
  refine ⟨?_, ?_, levels_base, levels_reach, strassen_aux_bounded_eq, ?_⟩
  · intro C A B h hn
    refine ⟨strassen_aux_eq_naive C A B h hn, ?_⟩
    intro fuel
    rw [strassen_aux_bounded, if_pos (by simpa using hn)]
  · intro n hn
    exact ⟨by omega, levels_rec n hn⟩
  · intro n C A B h hCn hAn hBn hC hA hB
    obtain ⟨h', he, _⟩ := strassen_aux_spec n C A B h hCn hAn hBn hC hA hB
    refine ⟨h', ?_⟩
    rw [strassen_aux_bounded_eq (levels n + 1) C A B h (by rw [hAn]; omega)]
    exact he

/-- Witness of C15: side `33`, one level above the base case. -/
theorem strassen_aux_terminates_witness :
    32 < 33 ∧ levels 33 = 1 ∧ inBounds scenario33 (embed_matrix 0 33) ∧
      inBounds scenario33 (embed_matrix 1 33) ∧ inBounds scenario33 (embed_matrix 2 33) ∧
      ∃ h', strassen_aux_bounded (levels 33 + 1) (embed_matrix 0 33) (embed_matrix 1 33)
        (embed_matrix 2 33) scenario33 = some h' := by
  have b0 : inBounds scenario33 (embed_matrix 0 33) := ⟨33, 33, rfl, by decide, by decide⟩
  have b1 : inBounds scenario33 (embed_matrix 1 33) := ⟨33, 33, rfl, by decide, by decide⟩
  have b2 : inBounds scenario33 (embed_matrix 2 33) := ⟨33, 33, rfl, by decide, by decide⟩
  obtain ⟨_, hrec, hbase, _, _, hrun⟩ := strassen_aux_terminates (R := Int)
  refine ⟨by decide, ?_, b0, b1, b2,
    hrun 33 (embed_matrix 0 33) (embed_matrix 1 33) (embed_matrix 2 33) scenario33
      rfl rfl rfl b0 b1 b2⟩
  rw [(hrec 33 (by decide)).2, hbase (33 / 2) (by decide)]

end Behaviour

end Strassen
